import Mathlib

/-!
# pgbackup: a verification development

A shallow embedding of the Go packages `pgbackup` (`functions.go`, `split_writer.go`,
`file.go`), `pgbackup/psql` (`psql.go`, `db.go`) and, of `cmd/pgbackup/app.go`, of the
construction of the queue and the bodies run by the workers, followed by theorems about
them.

Conventions of the embedding

* Go `int` values that can be negative (`CPUs`, `Jobs`, `Conf.SplitSize`) are Lean `Int`;
  division is Go's truncated division and a zero divisor is the run-time panic
  `integer divide by zero`.  No operation modelled here can leave the 64-bit range on the
  inputs it is applied to.  Counts that the program only uses when they are not negative
  (`SplitWriter.SplitSize`, `fileNo`, `remaining`) are `Nat`; a chunk size 0, on which the
  loop of `Write` does not terminate, is kept.  The width `SuffixLength` handed to `fmt` is
  an `Int`, since `fmt` treats negative and very large widths in ways of their own.
* Go strings are lists of characters (`Str`); the byte-wise order of `sort.Strings`
  agrees with the code-point order used here because UTF-8 preserves it.
* The operating system is an explicit state (`OS`): regular files keyed by their path
  string (two spellings of a path are two files), a set of directories, a counter of system
  calls and the set of the calls that fail.  A function of the program takes the state and
  returns the new one with its result; an `error` is an `Option Err`, `none` being `nil`.
* Where the Go function may not return (the loop of `Write` with chunk size 0) or where the
  model of a library function does not cover its argument (`filepath.Match` with one of
  `?`, `[`, `\`) the result is wrapped in one more `Option`, and `none` says so.
* The external tools, the digest function and the formatting of foreign text are the
  fields of an environment `Env`; theorems quantify over it.
* A worker is modelled by the body it runs for one database name; the logger of the
  application records the level and the formatted message of every call.  The queue is the
  sequence of names sent to the channel before it is closed.  The scheduling of the
  goroutines that receive from the channel is not part of the embedding.
* A compiled regular expression is the predicate `MatchString` it defines.
-/

namespace Pgbackup

/-! ## Basic types -/

/-- Go strings. -/
abbrev Str := List Char

/-- One byte of file content. -/
abbrev Byte := Fin 256

/-- Run-time panics of the Go runtime that the modelled code can raise. -/
inductive Panic where
  | integerDivideByZero
  deriving DecidableEq, Repr

/-- Go integer division `a / b`: truncation toward zero, panic on a zero divisor. -/
def goDiv (a b : Int) : Except Panic Int :=
  if b = 0 then .error .integerDivideByZero else .ok (Int.tdiv a b)

/-! ## functions.go -/

/-- `CalcConcurrency` of `functions.go`, with `runtime.NumCPU()` taken as the argument.
Returns `(CPUs, Ops, Jobs)`. -/
def CalcConcurrency (numCPU : Int) : Except Panic (Int × Int × Int) :=
  let CPUs := numCPU
  if CPUs ≤ 2 then
    .ok (CPUs, 1, 1)
  else if CPUs ≤ 4 then
    .ok (CPUs, 1, 2)
  else
    match goDiv (CPUs - 4) 4 with
    | .error p => .error p
    | .ok Jobs0 =>
      let Jobs1 := if Jobs0 > 4 then 4 else Jobs0
      match goDiv (CPUs - 4) Jobs1 with
      | .error p => .error p
      | .ok Ops0 =>
        let Jobs2 := if Jobs1 < 1 then 1 else Jobs1
        let Ops1 := if Ops0 < 1 then 1 else Ops0
        .ok (CPUs, Ops1, Jobs2)

/-! ## Strings, `fmt` and `strings` -/

/-- Go's string order (`<` on strings, the order of `sort.Strings`). -/
def strLt : Str → Str → Bool
  | [], [] => false
  | [], _ :: _ => true
  | _ :: _, [] => false
  | a :: as, b :: bs => if a < b then true else if b < a then false else strLt as bs

/-- Non-strict Go string order. -/
def strLe (a b : Str) : Bool := !strLt b a

/-- `sort.Strings`: the list in increasing string order. -/
def sortStrings (l : List Str) : List Str :=
  List.insertionSort (fun a b => strLe a b = true) l

/-- The verb `%d` applied to a non-negative integer. -/
def fmtNat (n : Nat) : Str := Nat.toDigits 10 n

/-- The padding of `%0*d` for a width that `fmt` accepts and that is not negative: the
decimal digits of `n`, padded on the left with zeros up to `width` characters (never
truncated). -/
def fmtZeroPad (width n : Nat) : Str :=
  List.replicate (width - (fmtNat n).length) '0' ++ fmtNat n

/-- `fmt.Sprintf("%0[1]*d", width, n)` for a non-negative `n`.  A width beyond one million
in absolute value is refused by `fmt`, which prints `%!(BADWIDTH)` and then the number
without padding; a negative width sets the flag `-` and clears the flag `0`, so the digits
are followed by spaces up to the width; otherwise the digits are padded with zeros on the
left. -/
def fmtStarZeroD (width : Int) (n : Nat) : Str :=
  if width > 1000000 ∨ width < -1000000 then "%!(BADWIDTH)".data ++ fmtNat n
  else if width < 0 then fmtNat n ++ List.replicate (width.natAbs - (fmtNat n).length) ' '
  else fmtZeroPad width.toNat n

/-- Decimal rendering of `n mod 10 ^ W` on exactly `W` digits; an auxiliary function of the
proofs about `fmtZeroPad`. -/
def fixedDec : Nat → Nat → Str
  | 0, _ => []
  | W + 1, n => fixedDec W (n / 10) ++ [Nat.digitChar (n % 10)]

/-- `strings.HasSuffix`. -/
def HasSuffix (s suffix : Str) : Bool := suffix.isSuffixOf s

/-- `strings.TrimSuffix`. -/
def TrimSuffix (s suffix : Str) : Str :=
  if HasSuffix s suffix then s.take (s.length - suffix.length) else s

/-! ## The operating system -/

/-- Errors returned by system calls and external tools. -/
inductive Err where
  /-- The system call with this sequence number was scheduled to fail. -/
  | io (call : Nat)
  /-- The `*os.PathError` of the operation `op` on a path that does not exist. -/
  | notExist (op path : Str)
  /-- An external tool exited with a non-zero status. -/
  | exitStatus (code : Nat)
  /-- `filepath.ErrBadPattern`. -/
  | badPattern
  /-- `os.ErrInvalid`, returned by the methods of a nil `*os.File`. -/
  | invalid
  /-- `io.ErrShortWrite`. -/
  | shortWrite
  /-- A path that has to be a directory is a regular file. -/
  | notDir (path : Str)
  deriving DecidableEq, Repr

/-- State of the operating system as seen by the program.  `files` maps the path string of
every regular file to its content, most recently created last; `dirs` lists the
directories; `calls` counts the system calls made so far and the calls whose number is in
`faults` fail. -/
structure OS where
  files : List (Str × List Byte)
  dirs : List Str
  calls : Nat
  faults : List Nat
  deriving DecidableEq, Repr

/-- Account for one system call. -/
def OS.next (os : OS) : OS := { os with calls := os.calls + 1 }

/-- Whether the system call about to be made fails. -/
def OS.failing (os : OS) : Bool := decide (os.calls ∈ os.faults)

/-- Content of a regular file. -/
def OS.content (os : OS) (name : Str) : Option (List Byte) := os.files.lookup name

/-- `os.Create`: create or truncate the named file; the descriptor is the path.  A file is
known by the spelling of its path, and the directory it is created in is not looked at. -/
def OS.Create (os : OS) (name : Str) : Except Err Str × OS :=
  if os.failing then (.error (.io os.calls), os.next)
  else (.ok name,
    { os.next with files := os.files.filter (fun f => f.1 ≠ name) ++ [(name, [])] })

/-- `(*os.File).Write` in append position.  A failing write transfers nothing. -/
def OS.Write (os : OS) (fd : Str) (b : List Byte) : (Nat × Option Err) × OS :=
  if os.failing then ((0, some (.io os.calls)), os.next)
  else ((b.length, none),
    { os.next with files := os.files.map (fun f => if f.1 = fd then (f.1, f.2 ++ b) else f) })

/-- `(*os.File).Close`.  A second `Close` of the same descriptor is not told apart from the
first: it counts as a call and succeeds unless it is scheduled to fail.  In the program
every second `Close` is a deferred one, whose result is discarded. -/
def OS.Close (os : OS) (_fd : Str) : Option Err × OS :=
  if os.failing then (some (.io os.calls), os.next) else (none, os.next)

/-- `os.Open` for reading. -/
def OS.Open (os : OS) (name : Str) : Except Err Str × OS :=
  if os.failing then (.error (.io os.calls), os.next)
  else match os.content name with
    | none => (.error (.notExist "open".data name), os.next)
    | some _ => (.ok name, os.next)

/-- Read an open file to its end (the source side of `io.Copy`). -/
def OS.ReadAll (os : OS) (fd : Str) : Except Err (List Byte) × OS :=
  if os.failing then (.error (.io os.calls), os.next)
  else match os.content fd with
    | none => (.error (.notExist "read".data fd), os.next)
    | some c => (.ok c, os.next)

/-- `(*os.File).Read` of at most `n` bytes at offset `off`; the empty result is `io.EOF`. -/
def OS.Read (os : OS) (fd : Str) (off n : Nat) : Except Err (List Byte) × OS :=
  if os.failing then (.error (.io os.calls), os.next)
  else match os.content fd with
    | none => (.error (.notExist "read".data fd), os.next)
    | some c => (.ok ((c.drop off).take n), os.next)

/-- Whether `path` lies below the directory `dir`. -/
def isBelow (dir path : Str) : Bool := (dir ++ ['/']).isPrefixOf path

/-- `os.Stat`: succeeds when the path is a regular file or a directory. -/
def OS.Stat (os : OS) (name : Str) : Option Err × OS :=
  if os.failing then (some (.io os.calls), os.next)
  else if (os.content name).isSome ∨ name ∈ os.dirs then (none, os.next)
  else (some (.notExist "stat".data name), os.next)

/-- `os.RemoveAll`: removes the path and everything below it; a missing path is no error. -/
def OS.RemoveAll (os : OS) (name : Str) : Option Err × OS :=
  if os.failing then (some (.io os.calls), os.next)
  else (none,
    { os.next with
      files := os.files.filter (fun f => !(f.1 = name || isBelow name f.1))
      dirs := os.dirs.filter (fun d => !(d = name || isBelow name d)) })

/-- `os.Remove` of a regular file. -/
def OS.Remove (os : OS) (name : Str) : Option Err × OS :=
  if os.failing then (some (.io os.calls), os.next)
  else match os.content name with
    | none => (some (.notExist "remove".data name), os.next)
    | some _ => (none, { os.next with files := os.files.filter (fun f => f.1 ≠ name) })

/-- `os.MkdirAll`. -/
def OS.MkdirAll (os : OS) (name : Str) : Option Err × OS :=
  if os.failing then (some (.io os.calls), os.next)
  else if (os.content name).isSome then (some (.notDir name), os.next)
  else (none, { os.next with dirs := if name ∈ os.dirs then os.dirs else os.dirs ++ [name] })

/-- The name under which `path` is an entry of the directory `dir`, if it is one. -/
def childName (dir path : Str) : Option Str :=
  let pre : Str := if dir = ['/'] then ['/'] else if dir = ['.'] then [] else dir ++ ['/']
  if pre.isPrefixOf path then
    let rest := path.drop pre.length
    if rest = [] ∨ '/' ∈ rest ∨ rest = ['.'] ∨ rest = ['.', '.'] then none else some rest
  else none

/-- The names of the entries of a directory, as `Readdirnames` returns them (in no
particular order). -/
def OS.entries (os : OS) (dir : Str) : List Str :=
  ((os.files.map Prod.fst ++ os.dirs).filterMap (childName dir)).dedup

/-- `filepath.Ext`, scanning the reversed path: the suffix beginning at the final dot of the
final element of the path, empty if there is no dot. -/
def extScan : List Char → Str → Str
  | [], _ => []
  | c :: rest, acc =>
    if c = '/' then [] else if c = '.' then '.' :: acc else extScan rest (c :: acc)

/-- `filepath.Ext`. -/
def Ext (path : Str) : Str := extScan path.reverse []

/-- `strings.Replace(s, old, new, 1)` for a non-empty `old`: replace its first occurrence. -/
def replaceFirstAt (old new : Str) : Str → Str
  | [] => []
  | c :: cs =>
    if old.isPrefixOf (c :: cs) then new ++ (c :: cs).drop old.length
    else c :: replaceFirstAt old new cs

/-- `strings.Replace(s, old, new, 1)`; an empty `old` matches at the beginning of `s`. -/
def Replace1 (s old new : Str) : Str :=
  if old = [] then new ++ s else replaceFirstAt old new s

/-- The verb `%v` applied to an `int`. -/
def fmtInt (n : Int) : Str :=
  if n < 0 then '-' :: fmtNat n.natAbs else fmtNat n.toNat

/-! ## `path/filepath` (Unix) -/

/-- The elements of a path between its separators, as `strings.Split(path, "/")`. -/
def splitSlash : Str → List Str
  | [] => [[]]
  | c :: cs =>
    if c = '/' then [] :: splitSlash cs
    else match splitSlash cs with
      | [] => [[c]]
      | x :: xs => (c :: x) :: xs

/-- One element of the path processed by `filepath.Clean`; `out` holds the elements kept so
far, the last one first.  Empty and `.` elements are dropped; `..` removes the last kept
element when there is one that is not itself `..`, is dropped at the root, and is kept
otherwise. -/
def cleanStep (rooted : Bool) (out : List Str) (elem : Str) : List Str :=
  if elem = [] ∨ elem = ['.'] then out
  else if elem = ['.', '.'] then
    match out with
    | top :: rest => if top = ['.', '.'] then elem :: out else rest
    | [] => if rooted then [] else [elem]
  else elem :: out

/-- `filepath.Clean`. -/
def Clean (path : Str) : Str :=
  let rooted := path.head? = some '/'
  let out := (splitSlash path).foldl (cleanStep rooted) []
  let body := List.intercalate ['/'] out.reverse
  let res := if rooted then '/' :: body else body
  if res = [] then ['.'] else res

/-- `filepath.Join`: the non-empty prefix of empty elements is dropped, the rest is joined
with separators and cleaned; the result is empty when every element is empty. -/
def Join (elems : List Str) : Str :=
  match elems.dropWhile (fun e => e = []) with
  | [] => []
  | rest => Clean (List.intercalate ['/'] rest)

/-- `filepath.Base`. -/
def Base (path : Str) : Str :=
  if path = [] then ['.']
  else
    let p := (path.reverse.dropWhile (fun c => c = '/')).reverse
    let last := (p.reverse.takeWhile (fun c => c ≠ '/')).reverse
    if last = [] then ['/'] else last

/-- `filepath.Split`: the directory part, up to and including the final separator, and the
file part after it. -/
def pathSplit (path : Str) : Str × Str :=
  let file := (path.reverse.takeWhile (fun c => c ≠ '/')).reverse
  (path.take (path.length - file.length), file)

/-! ## split_writer.go -/

/-- `SplitWriter` splits data written to it into sequentially numbered files. -/
structure SplitWriter where
  /-- Base path and filename to which the generated suffix will be added. -/
  Basepath : Str
  /-- The size in bytes that each file should be. -/
  SplitSize : Nat
  /-- The file suffix length. -/
  SuffixLength : Int
  fileNo : Nat := 0
  remaining : Nat := 0
  /-- The open destination file, `none` for Go's `nil`. -/
  dfd : Option Str := none
  deriving DecidableEq, Repr

/-- The name of chunk number `i`: `base + fmt.Sprintf(".%0[1]*d", width, i)`. -/
def chunkName (base : Str) (width : Int) (i : Nat) : Str :=
  base ++ '.' :: fmtStarZeroD width i

/-- The name `w.Basepath + fmt.Sprintf(".%0[1]*d", w.SuffixLength, w.fileNo)` built in
`Write`. -/
def SplitWriter.dname (w : SplitWriter) : Str :=
  chunkName w.Basepath w.SuffixLength w.fileNo

/-- `SplitWriter.Close`. -/
def SplitWriter.Close (w : SplitWriter) (os : OS) : SplitWriter × Option Err × OS :=
  match w.dfd with
  | some fd =>
    let r := os.Close fd
    ({ w with remaining := 0 }, r.1, r.2)
  | none => (w, none, os)

/-- First step of an iteration of `Write`: "Current dest file may be full." -/
def SplitWriter.closeIfFull (w : SplitWriter) (os : OS) : SplitWriter × Option Err × OS :=
  match w.dfd with
  | some fd =>
    if w.remaining = 0 then
      match os.Close fd with
      | (some err, os1) => (w, some err, os1)
      | (none, os1) => ({ w with dfd := none }, none, os1)
    else (w, none, os)
  | none => (w, none, os)

/-- Second step of an iteration of `Write`: "If w.dfd is nil we need to open our dest
file." -/
def SplitWriter.openIfNil (w : SplitWriter) (os : OS) : SplitWriter × Option Err × OS :=
  match w.dfd with
  | some _ => (w, none, os)
  | none =>
    match os.Create w.dname with
    | (.error err, os1) => (w, some err, os1)
    | (.ok fd, os1) =>
      ({ w with dfd := some fd, fileNo := w.fileNo + 1, remaining := w.SplitSize }, none, os1)

/-- `w.dfd.Write(b)`; a method call on a nil `*os.File` returns `os.ErrInvalid`. -/
def SplitWriter.dfdWrite (w : SplitWriter) (os : OS) (b : List Byte) : (Nat × Option Err) × OS :=
  match w.dfd with
  | some fd => os.Write fd b
  | none => ((0, some .invalid), os)

/-- The loop of `SplitWriter.Write`: `for size := len(p); size > 0; size = size - wrote`.
The first argument bounds the number of iterations; `none` means the bound was reached
with the loop still running.  The result is the writer, the pair `(total, err)` that
`Write` returns, and the system state. -/
def SplitWriter.writeLoop :
    Nat → SplitWriter → OS → List Byte → Nat → Nat →
      Option (SplitWriter × (Nat × Option Err) × OS)
  | 0, w, os, _, size, total => if size > 0 then none else some (w, (total, none), os)
  | fuel + 1, w, os, p, size, total =>
    if size > 0 then
      match w.closeIfFull os with
      | (w1, some err, os1) => some (w1, (total, some err), os1)
      | (w1, none, os1) =>
        match w1.openIfNil os1 with
        | (w2, some err, os2) => some (w2, (total, some err), os2)
        | (w2, none, os2) =>
          let out := if size > w2.remaining then w2.dfdWrite os2 (p.take w2.remaining)
                     else w2.dfdWrite os2 p
          let p1 := if size > w2.remaining then p.drop w2.remaining else p
          let wrote := out.1.1
          let total1 := total + wrote
          let w3 := { w2 with remaining := w2.remaining - wrote }
          match out.1.2 with
          | some err => some (w3, (total1, some err), out.2)
          | none => SplitWriter.writeLoop fuel w3 out.2 p1 (size - wrote) total1
    else some (w, (total, none), os)

/-- `SplitWriter.Write`.  With a positive `SplitSize` every iteration that does not
return transfers at least one byte, so `len(p)` iterations suffice; with `SplitSize = 0`
the Go loop does not terminate and the result is `none`. -/
def SplitWriter.Write (w : SplitWriter) (os : OS) (p : List Byte) :
    Option (SplitWriter × (Nat × Option Err) × OS) :=
  SplitWriter.writeLoop p.length w os p p.length 0

/-- A sequence of `Write` calls, one per buffer, stopped by the first error. -/
def SplitWriter.writeAll :
    SplitWriter → OS → List (List Byte) → Option (SplitWriter × Option Err × OS)
  | w, os, [] => some (w, none, os)
  | w, os, p :: ps =>
    match w.Write os p with
    | none => none
    | some (w1, (_, some err), os1) => some (w1, some err, os1)
    | some (w1, (_, none), os1) => SplitWriter.writeAll w1 os1 ps

/-- A sequence of `Write` calls followed, when all of them succeeded, by `Close`. -/
def SplitWriter.writeAllClose (w : SplitWriter) (os : OS) (bufs : List (List Byte)) :
    Option (SplitWriter × Option Err × OS) :=
  match w.writeAll os bufs with
  | none => none
  | some (w1, some err, os1) => some (w1, some err, os1)
  | some (w1, none, os1) => some (w1.Close os1)

/-! ## file.go: Split -/

/-- Size of the transfer buffer of `io.Copy`. -/
def copyBufSize : Nat := 32 * 1024

/-- The loop of `io.Copy(split, sfd)`: read a buffer from the source, hand it to
`SplitWriter.Write`, until the source is exhausted.  The first argument bounds the number
of iterations. -/
def ioCopySplit : Nat → SplitWriter → Str → Nat → OS → Option (SplitWriter × Option Err × OS)
  | 0, _, _, _, _ => none
  | fuel + 1, w, sfd, off, os =>
    match os.Read sfd off copyBufSize with
    | (.error err, os1) => some (w, some err, os1)
    | (.ok [], os1) => some (w, none, os1)
    | (.ok (b :: bs), os1) =>
      match w.Write os1 (b :: bs) with
      | none => none
      | some (w1, (_, some err), os2) => some (w1, some err, os2)
      | some (w1, (nw, none), os2) =>
        if nw ≠ (b :: bs).length then some (w1, some .shortWrite, os2)
        else ioCopySplit fuel w1 sfd (off + (b :: bs).length) os2

/-- The deferred calls of `File.Split`, in the order they run: `sfd.Close()` when the source
was opened, then `split.Close()`; their results are discarded. -/
def splitDeferred (split : SplitWriter) (sfd : Option Str) (os : OS) : OS :=
  let os1 := match sfd with
    | some fd => (os.Close fd).2
    | none => os
  (split.Close os1).2.2

/-- `File.Split`: splits the file `f` into sequentially numbered chunks of `size` bytes.
Returns the error of the Go function, `none` for `nil`; the outer `none` is a run on which
the Go function does not return. -/
def File.Split (f : Str) (basepath : Str) (size : Nat) (suffixLen : Int) (os : OS) :
    Option (Option Err × OS) :=
  let fstr := f
  let basepath := if basepath = [] then TrimSuffix fstr (Ext fstr) else basepath
  let split : SplitWriter := { Basepath := basepath, SplitSize := size, SuffixLength := suffixLen }
  match os.Open fstr with
  | (.error err, os1) => some (some err, splitDeferred split none os1)
  | (.ok sfd, os1) =>
    let bound := match os1.content sfd with
      | some c => c.length + 1
      | none => 1
    match ioCopySplit bound split sfd 0 os1 with
    | none => none
    | some (split1, some err, os2) => some (some err, splitDeferred split1 (some sfd) os2)
    | some (split1, none, os2) =>
      match split1.Close os2 with
      | (split2, some err, os3) => some (some err, splitDeferred split2 (some sfd) os3)
      | (split2, none, os3) => some (none, splitDeferred split2 (some sfd) os3)

/-- The concatenation of the contents of the named files, in the given order. -/
def catFiles (os : OS) : List Str → Option (List Byte)
  | [] => some []
  | n :: ns =>
    match os.content n, catFiles os ns with
    | some c, some rest => some (c ++ rest)
    | _, _ => none

/-! ## logger -/

/-- The three levels of `logger.Logger`. -/
inductive Level where
  | info
  | warning
  | error
  deriving DecidableEq, Repr

/-- One call of a logging method: the level and the formatted message. -/
structure LogEntry where
  level : Level
  msg : Str
  deriving DecidableEq, Repr

/-- The two implementations of `logger.Logger`: `logger.Nil`, every call of which is a
no-op, and `logger.STDOut`. -/
inductive Logger where
  | Nil
  | STDOut
  deriving DecidableEq, Repr

/-- A call of `Infof`, `Warningf` or `Errorf` on a logger: the entry is appended to the
output unless the logger is `logger.Nil`. -/
def Logger.logf (l : Logger) (level : Level) (msg : Str) (log : List LogEntry) :
    List LogEntry :=
  match l with
  | .Nil => log
  | .STDOut => log ++ [{ level := level, msg := msg }]

/-! ## psql/psql.go -/

/-- `Format` specifies the backup format. -/
inductive Format where
  /-- Backups are created in a directory named dbname.backup -/
  | Directory
  /-- Backups are created as a SQL script named dbname.sql -/
  | Script
  deriving DecidableEq, Repr

/-- An `*exec.Cmd` as built by `exec.CommandContext`: the binary and its arguments. -/
structure Cmd where
  binary : Str
  args : List Str
  deriving DecidableEq, Repr

/-- `PSQL` is the wrapper to psql, pg_dump, and pg_restore. -/
structure PSQL where
  /-- Directory where backups are stored. -/
  DirBackups : Str
  /-- The -j argument to pg_dump and pg_restore. -/
  Jobs : Int
  Logger : Logger
  deriving DecidableEq, Repr

/-- The line `p.Infof("%v %v", binary, strings.Join(args, " "))`. -/
def PSQL.logCmd (p : PSQL) (c : Cmd) (log : List LogEntry) : List LogEntry :=
  p.Logger.logf .info (c.binary ++ ' ' :: List.intercalate [' '] c.args) log

/-- `PSQL.Backup` returns the backup destination and the command to execute for backing up
a database to that destination. -/
def PSQL.Backup (p : PSQL) (dbname : Str) (format : Format) (log : List LogEntry) :
    (Str × Cmd) × List LogEntry :=
  let binary := "pg_dump".data
  let r : Str × List Str :=
    if format = .Script then
      let dest := Join [p.DirBackups, dbname ++ ".sql".data]
      (dest, ["--column-inserts".data, "-d".data, dbname, "-f".data, dest])
    else
      let dest := Join [p.DirBackups, dbname ++ ".backup".data]
      (dest, ["-Fd".data, "-j".data, fmtInt p.Jobs, "-f".data, dest, dbname])
  let cmd : Cmd := { binary := binary, args := r.2 }
  ((r.1, cmd), p.logCmd cmd log)

/-- `PSQL.Create` returns the command to execute for creating a database. -/
def PSQL.Create (p : PSQL) (dbname : Str) (log : List LogEntry) : Cmd × List LogEntry :=
  let cmd : Cmd :=
    { binary := "psql".data, args := ["-c".data, "create database \"".data ++ dbname ++ "\"".data] }
  (cmd, p.logCmd cmd log)

/-- `PSQL.Drop` returns the command to execute for dropping a database. -/
def PSQL.Drop (p : PSQL) (dbname : Str) (log : List LogEntry) : Cmd × List LogEntry :=
  let cmd : Cmd :=
    { binary := "psql".data, args := ["-c".data, "drop database \"".data ++ dbname ++ "\"".data] }
  (cmd, p.logCmd cmd log)

/-- `PSQL.Restore` returns the command to execute for restoring a database. -/
def PSQL.Restore (p : PSQL) (dbname : Str) (format : Format) (log : List LogEntry) :
    Cmd × List LogEntry :=
  let cmd : Cmd :=
    if format = .Script then
      { binary := "psql".data,
        args := ["-d".data, dbname, "-f".data, Join [p.DirBackups, dbname ++ ".sql".data]] }
    else
      { binary := "pg_restore".data,
        args := ["-Fd".data, "-j".data, fmtInt p.Jobs, "-d".data, dbname,
                 Join [p.DirBackups, dbname ++ ".backup".data]] }
  (cmd, p.logCmd cmd log)

/-! ## `filepath.Match` and `filepath.Glob`

The model covers the patterns built from literal characters and `*`.  A pattern containing
`?`, `[` or `\` is outside the model, and so is a pattern whose directory part contains a
`*`; `Match` and `Glob` answer `none` for them. -/

/-- `hasMeta`: whether the path contains any of the magic characters `*?[\`. -/
def hasMeta (path : Str) : Bool :=
  path.any (fun c => c = '*' || c = '?' || c = '[' || c = '\\')

/-- Whether a pattern is made of literal characters and `*` only. -/
def starOnly (pattern : Str) : Bool :=
  !pattern.any (fun c => c = '?' || c = '[' || c = '\\')

/-- `scanChunk`: the next segment of the pattern, a non-star string possibly preceded by
stars, and the rest of the pattern. -/
def scanChunk (pattern : Str) : Bool × Str × Str :=
  let p := pattern.dropWhile (fun c => c = '*')
  (pattern.head? = some '*', p.takeWhile (fun c => c ≠ '*'), p.dropWhile (fun c => c ≠ '*'))

/-- `matchChunk` for a chunk of literal characters: the remainder of `s` after the chunk
when `s` begins with it. -/
def matchChunk (chunk s : Str) : Option Str :=
  if chunk.isPrefixOf s then some (s.drop chunk.length) else none

/-- The loop "Look for match skipping i+1 bytes. Cannot skip /." of `Match`; `isLast` says
that the chunk is the last one, which has to exhaust the name. -/
def starSearch (chunk : Str) (isLast : Bool) : Str → Option Str
  | [] => none
  | c :: cs =>
    if c = '/' then none
    else match matchChunk chunk cs with
      | some t => if isLast ∧ t ≠ [] then starSearch chunk isLast cs else some t
      | none => starSearch chunk isLast cs

/-- The loop `Pattern:` of `filepath.Match`.  Every iteration shortens the pattern, so the
length of the pattern bounds the number of iterations. -/
def matchLoop : Nat → Str → Str → Bool
  | 0, _, name => decide (name = [])
  | fuel + 1, pattern, name =>
    if pattern = [] then decide (name = [])
    else
      let sc := scanChunk pattern
      let star := sc.1
      let chunk := sc.2.1
      let rest := sc.2.2
      if star ∧ chunk = [] then
        -- Trailing * matches rest of string unless it has a /.
        !name.contains '/'
      else
        let viaStar : Bool :=
          if star then
            match starSearch chunk (decide (rest = [])) name with
            | some t => matchLoop fuel rest t
            | none => false
          else false
        match matchChunk chunk name with
        | some t => if t = [] ∨ rest ≠ [] then matchLoop fuel rest t else viaStar
        | none => viaStar

/-- `filepath.Match` on the patterns of the model. -/
def Match (pattern name : Str) : Option Bool :=
  if starOnly pattern then some (matchLoop pattern.length pattern name) else none

/-- `cleanGlobPath`. -/
def cleanGlobPath (path : Str) : Str :=
  if path = [] then ['.'] else if path = ['/'] then path else path.dropLast

/-- The function `glob(dir, pattern, nil)` of `path/filepath`: the entries of `dir` whose
name matches, in name order, as paths.  Errors of the system calls are ignored, as in Go. -/
def globDir (os : OS) (dir pattern : Str) : Option (List Str) × OS :=
  -- fi, err := os.Stat(dir)
  if os.failing then (some [], os.next)
  else if dir ∉ os.dirs then (some [], os.next)
  else
    -- d, err := os.Open(dir)
    let os1 := os.next
    if os1.failing then (some [], os1.next)
    else
      -- names, _ := d.Readdirnames(-1); sort.Strings(names); defer d.Close()
      let os2 := os1.next
      let names := if os2.failing then [] else sortStrings (os.entries dir)
      let os3 := os2.next.next
      if starOnly pattern then
        (some ((names.filter (fun n => matchLoop pattern.length pattern n)).map
          (fun n => Join [dir, n])), os3)
      else (none, os3)

/-- `filepath.Glob`.  On the patterns of the model no `ErrBadPattern` arises. -/
def Glob (os : OS) (pattern : Str) : Option (Except Err (List Str)) × OS :=
  if !starOnly pattern then (none, os)
  else if !hasMeta pattern then
    -- os.Lstat(pattern)
    match os.Stat pattern with
    | (some _, os1) => (some (.ok []), os1)
    | (none, os1) => (some (.ok [pattern]), os1)
  else
    let dir := cleanGlobPath (pathSplit pattern).1
    let file := (pathSplit pattern).2
    if hasMeta dir then (none, os)
    else
      match globDir os dir file with
      | (some m, os1) => (some (.ok m), os1)
      | (none, os1) => (none, os1)

/-! ## The environment of the program -/

/-- The result of running an external command: its combined output, the pieces in which
its standard error is read, and the error of `Run` / `CombinedOutput`. -/
structure CmdResult where
  output : Str
  stderr : List Str
  err : Option Err

/-- What the program uses and does not define: the digest function, the external tools and
the formatting of a message used as its own format string. -/
structure Env where
  /-- `crypto/sha512` followed by the verb `%x`: the digest text of a content. -/
  sha512Hex : List Byte → List Byte
  /-- Running an external command in a state of the system. -/
  run : Cmd → OS → CmdResult × OS
  /-- `fmt.Sprintf(format)` without operands. -/
  sprintf : Str → Str

/-- State of a run of the program: the system, the lines logged so far and the external
commands run so far, in order. -/
structure World where
  os : OS
  log : List LogEntry
  ran : List Cmd
  deriving DecidableEq

/-- Run an external command (`cmd.CombinedOutput()` or `cmd.Run()`). -/
def World.exec (env : Env) (cmd : Cmd) (w : World) : CmdResult × World :=
  let r := env.run cmd w.os
  (r.1, { w with os := r.2, ran := w.ran ++ [cmd] })

/-- The text `err.Error()` of an error. -/
def Err.Error : Err → Str
  | .io n => "i/o error in system call ".data ++ fmtNat n
  | .notExist op p => op ++ " ".data ++ p ++ ": no such file or directory".data
  | .exitStatus c => "exit status ".data ++ fmtNat c
  | .badPattern => "syntax error in pattern".data
  | .invalid => "invalid argument".data
  | .shortWrite => "short write".data
  | .notDir p => p ++ ": not a directory".data

/-- `unicode.IsSpace`. -/
def isSpace (c : Char) : Bool :=
  c = '\t' || c = '\n' || c.toNat = 0x0B || c.toNat = 0x0C || c = '\r' || c = ' ' ||
  c.toNat = 0x85 || c.toNat = 0xA0 || c.toNat = 0x1680 ||
  (0x2000 ≤ c.toNat && c.toNat ≤ 0x200A) || c.toNat = 0x2028 || c.toNat = 0x2029 ||
  c.toNat = 0x202F || c.toNat = 0x205F || c.toNat = 0x3000

/-- `strings.TrimSpace`. -/
def TrimSpace (s : Str) : Str :=
  ((s.dropWhile isSpace).reverse.dropWhile isSpace).reverse

/-! ## file.go: SHA512 -/

/-- The path `hfile` of `File.SHA512`:
`strings.Replace(fstr, filepath.Ext(fstr), ".sha512", 1)`. -/
def hfile (fstr : Str) : Str := Replace1 fstr (Ext fstr) ".sha512".data

/-- `File.SHA512` computes a sha512 hash and writes it to `hfile`. -/
def File.SHA512 (env : Env) (f : Str) (os : OS) : Option Err × OS :=
  let fstr := f
  match os.Open fstr with
  | (.error err, os1) => (some err, os1)
  | (.ok sfd, os1) =>
    -- defer sfd.Close()
    match os1.ReadAll sfd with
    | (.error err, os2) => (some err, (os2.Close sfd).2)
    | (.ok data, os2) =>
      match os2.Create (hfile fstr) with
      | (.error err, os3) => (some err, (os3.Close sfd).2)
      | (.ok dfd, os3) =>
        -- defer dfd.Close()
        match os3.Write dfd (env.sha512Hex data) with
        | ((_, some err), os4) => (some err, ((os4.Close dfd).2.Close sfd).2)
        | ((_, none), os4) => (none, ((os4.Close dfd).2.Close sfd).2)

/-- `fscopy.File(dst, src)` of the module `github.com/nofeaturesonlybugs/fscopy`, which is
not part of this repository: copies the regular file `src` to `dst`. -/
def fscopyFile (dst src : Str) (os : OS) : Option Err × OS :=
  match os.Open src with
  | (.error err, os1) => (some err, os1)
  | (.ok sfd, os1) =>
    match os1.ReadAll sfd with
    | (.error err, os2) => (some err, (os2.Close sfd).2)
    | (.ok data, os2) =>
      match os2.Create dst with
      | (.error err, os3) => (some err, (os3.Close sfd).2)
      | (.ok dfd, os3) =>
        match os3.Write dfd data with
        | ((_, some err), os4) => (some err, ((os4.Close dfd).2.Close sfd).2)
        | ((_, none), os4) =>
          match os4.Close dfd with
          | (some err, os5) => (some err, (os5.Close sfd).2)
          | (none, os5) => (none, (os5.Close sfd).2)

/-! ## psql/db.go -/

/-- `DB` links a dbname to a PSQL type. -/
structure DB where
  DBName : Str
  PSQL : PSQL

/-- `db.Infof` with the message already formatted. -/
def DB.infof (db : DB) (msg : Str) (w : World) : World :=
  { w with log := db.PSQL.Logger.logf .info msg w.log }

/-- `db.Warningf` with the message already formatted. -/
def DB.warningf (db : DB) (msg : Str) (w : World) : World :=
  { w with log := db.PSQL.Logger.logf .warning msg w.log }

/-- `DB.LogOutput` logs the output from a command. -/
def DB.LogOutput (env : Env) (db : DB) (out : Str) (w : World) : World :=
  let s := TrimSpace out
  if s ≠ [] then db.infof (env.sprintf s) w else w

/-- The first part of `DB.Backup` (`db.go`, lines 31 to 44): build the command, remove
what exists at the destination, run the dump tool and log its output.  Returns
`(dst, err)`. -/
def DB.dumpPhase (env : Env) (db : DB) (format : Format) (w : World) :
    (Str × Option Err) × World :=
  let b := db.PSQL.Backup db.DBName format w.log
  let dst := b.1.1
  let cmd := b.1.2
  let w0 : World := { w with log := b.2 }
  -- Before running cmd we have to remove anything currently existing at dst.
  let st := w0.os.Stat dst
  let pre : Option Err × OS :=
    match st.1 with
    | none => st.2.RemoveAll dst
    | some _ => (none, st.2)
  match pre with
  | (some err, os1) => ((dst, some err), { w0 with os := os1 })
  | (none, os1) =>
    let r := World.exec env cmd { w0 with os := os1 }
    match r.1.err with
    | some err => ((dst, some err), db.LogOutput env r.1.output r.2)
    | none => ((dst, none), db.LogOutput env r.1.output r.2)

/-- `DB.Backup` performs a backup of DB.  Returns `(dst, err)`. -/
def DB.Backup (env : Env) (db : DB) (format : Format) (w : World) :
    (Str × Option Err) × World :=
  match db.dumpPhase env format w with
  | ((dst, some err), w2) => ((dst, some err), w2)
  | ((dst, none), w2) =>
    -- If format is Script then compute a hash as well.
    if format = .Script then
      match File.SHA512 env dst w2.os with
      | (some err, os3) =>
        ((dst, none),
          db.warningf ("While hashing ".data ++ dst ++ ": ".data ++ err.Error)
            { w2 with os := os3 })
      | (none, os3) => ((dst, none), { w2 with os := os3 })
    else ((dst, none), w2)

/-- `DB.Chunk` splits the given backup.sql file into chunks of the given size in bytes.
The outer `none` is a run on which `File.Split` does not return. -/
def DB.Chunk (_db : DB) (src : Str) (size : Nat) (os : OS) : Option (Option Err × OS) :=
  if !HasSuffix src ".sql".data then some (none, os)
  else
    let basename := TrimSuffix src ".sql".data
    let dir := basename ++ ".chunk".data
    let dst := Join [dir, Base basename]
    let srcHash := basename ++ ".sha512".data
    let dstHash := Join [dir, "hash.".data ++ Base srcHash]
    match os.RemoveAll dir with
    | (some err, os1) => some (some err, os1)
    | (none, os1) =>
      match os1.MkdirAll dir with
      | (some err, os2) => some (some err, os2)
      | (none, os2) =>
        match File.Split src dst size 9 os2 with
        | none => none
        | some (some err, os3) => some (some err, os3)
        | some (none, os3) =>
          match os3.Remove src with
          | (some err, os4) => some (some err, os4)
          | (none, os4) =>
            match fscopyFile dstHash srcHash os4 with
            | (some err, os5) => some (some err, os5)
            | (none, os5) =>
              match os5.Remove srcHash with
              | (some err, os6) => some (some err, os6)
              | (none, os6) => some (none, os6)

/-- The body of the loop `for _, part := range globs` of `DB.Join`: append the file `part`
to the open destination `dfd`. -/
def DB.joinPart (db : DB) (dfd part : Str) (w : World) : Option Err × World :=
  match w.os.Open part with
  | (.error err, os1) => (some err, { w with os := os1 })
  | (.ok sfd, os1) =>
    -- defer sfd.Close()
    match os1.ReadAll sfd with
    | (.error err, os2) => (some err, { w with os := (os2.Close sfd).2 })
    | (.ok data, os2) =>
      match os2.Write dfd data with
      | ((_, some err), os3) => (some err, { w with os := (os3.Close sfd).2 })
      | ((_, none), os3) =>
        match os3.Close sfd with
        | (some err, os4) =>
          (none, db.warningf ("Closing ".data ++ part ++ ": ".data ++ err.Error)
            { w with os := (os4.Close sfd).2 })
        | (none, os4) => (none, { w with os := (os4.Close sfd).2 })

/-- The loop `for _, part := range globs` of `DB.Join`, stopped by the first error. -/
def DB.joinParts (db : DB) (dfd : Str) : List Str → World → Option Err × World
  | [], w => (none, w)
  | part :: parts, w =>
    match db.joinPart dfd part w with
    | (some err, w1) => (some err, w1)
    | (none, w1) => DB.joinParts db dfd parts w1

/-- The files `DB.Join` concatenates, in the order in which it does:
`sort.Strings(filepath.Glob(filepath.Join(src, filepath.Base(plain)+".*")))`.  The outer
`none` is a pattern outside the model of `Glob`. -/
def DB.joinGlobs (src : Str) (os : OS) : Option (Except Err (List Str)) × OS :=
  let plain := TrimSuffix src ".chunk".data
  match Glob os (Join [src, Base plain ++ ".*".data]) with
  | (none, os1) => (none, os1)
  | (some (.error err), os1) => (some (.error err), os1)
  | (some (.ok globs), os1) => (some (.ok (sortStrings globs)), os1)

/-- `DB.Join` joins a backup.chunk directory back to a backup.sql file.  The outer `none`
is a pattern outside the model of `Glob`. -/
def DB.Join (db : DB) (src : Str) (w : World) : Option (Option Err × World) :=
  if !HasSuffix src ".chunk".data then some (none, w)
  else
    let plain := TrimSuffix src ".chunk".data
    let dst := plain ++ ".sql".data
    match DB.joinGlobs src w.os with
    | (none, _) => none
    | (some (.error err), os1) => some (some err, { w with os := os1 })
    | (some (.ok globs), os1) =>
      match os1.Create dst with
      | (.error err, os2) => some (some err, { w with os := os2 })
      | (.ok dfd, os2) =>
        -- defer dfd.Close()
        match db.joinParts dfd globs { w with os := os2 } with
        | (some err, w3) => some (some err, { w3 with os := (w3.os.Close dfd).2 })
        | (none, w3) =>
          match w3.os.Close dfd with
          | (some err, os4) => some (some err, { w3 with os := (os4.Close dfd).2 })
          | (none, os4) => some (none, { w3 with os := (os4.Close dfd).2 })

/-- `cmd.StderrPipe()`: a system call that may fail. -/
def OS.StderrPipe (os : OS) : Option Err × OS :=
  if os.failing then (some (.io os.calls), os.next) else (none, os.next)

/-- The first step of `DB.Restore` (`db.go`, lines 145 to 149): run the drop command, warn
when it fails, log its output.  Its error goes no further than the warning. -/
def DB.dropStep (env : Env) (db : DB) (w : World) : World :=
  let d := db.PSQL.Drop db.DBName w.log
  let r1 := World.exec env d.1 { w with log := d.2 }
  let w1 :=
    match r1.1.err with
    | some _ =>
      db.warningf ("While dropping ".data ++ db.DBName ++ "; database may not exist.".data) r1.2
    | none => r1.2
  db.LogOutput env r1.1.output w1

/-- The rest of `DB.Restore` (`db.go`, lines 151 to 184): create the database and run the
restore tool. -/
def DB.createAndRestore (env : Env) (db : DB) (format : Format) (w2 : World) :
    Option Err × World :=
  let c := db.PSQL.Create db.DBName w2.log
  let r2 := World.exec env c.1 { w2 with log := c.2 }
  match r2.1.err with
  | some err => (some err, db.LogOutput env r2.1.output r2.2)
  | none =>
    let w3 := db.LogOutput env r2.1.output r2.2
    --
    let rs := db.PSQL.Restore db.DBName format w3.log
    let w4 : World := { w3 with log := rs.2 }
    if format = .Script then
      -- Restore from script can become very verbose; limit logging to just stderr.
      match w4.os.StderrPipe with
      | (some err, os5) => (some err, { w4 with os := os5 })
      | (none, os5) =>
        let r3 := World.exec env rs.1 { w4 with os := os5 }
        -- the goroutine: io.Copy(logger.WarnWriter, stderr)
        let w6 := r3.1.stderr.foldl (fun acc line => db.warningf (env.sprintf line) acc) r3.2
        match r3.1.err with
        | some err => (some err, db.LogOutput env r2.1.output w6)
        | none => (none, w6)
    else
      let r3 := World.exec env rs.1 w4
      match r3.1.err with
      | some err => (some err, db.LogOutput env r3.1.output r3.2)
      | none => (none, db.LogOutput env r3.1.output r3.2)

/-- `DB.Restore` performs a restore of DB. -/
def DB.Restore (env : Env) (db : DB) (format : Format) (w : World) : Option Err × World :=
  db.createAndRestore env format (db.dropStep env w)

/-! ## cmd/pgbackup/app.go -/

/-- The fields of `App`, `Conf` and `Flags` read by the workers of `ExecBackup` and
`ExecRestore`.  The logger of the application is `logger.STDOut` (set in `main`). -/
structure App where
  /-- `app.Conf.Format` -/
  Format : Format
  /-- `app.Conf.SplitSize`; if 0 or less then no splitting occurs. -/
  SplitSize : Int
  /-- `app.Paths.Backups` -/
  Backups : Str
  /-- `app.Args.Join` -/
  ArgsJoin : Bool
  /-- `app.PSQL` -/
  PSQL : PSQL

/-- `app.Infof` with the message already formatted. -/
def World.infof (msg : Str) (w : World) : World :=
  { w with log := Logger.STDOut.logf .info msg w.log }

/-- `app.Warningf` with the message already formatted. -/
def World.warningf (msg : Str) (w : World) : World :=
  { w with log := Logger.STDOut.logf .warning msg w.log }

/-- How a worker leaves the body of its loop for one database: by reaching the line
`app.Infof("Finished %v", dbname)` or by one of the `continue` statements after a warning. -/
inductive JobOutcome where
  | finished
  | failed
  deriving DecidableEq, Repr

/-- The body run by a worker of `App.ExecBackup` for one database name received from the
queue (`app.go`, the `case dbname, ok := <-dbsCh` branch).  The outer `none` is a run on
which `File.Split` does not return. -/
def App.backupOne (env : Env) (app : App) (dbname : Str) (w : World) :
    Option (JobOutcome × World) :=
  let w1 := w.infof ("Starting ".data ++ dbname ++ "...".data)
  let db : DB := { DBName := dbname, PSQL := app.PSQL }
  match db.Backup env app.Format w1 with
  | ((_, some err), w2) =>
    some (.failed,
      w2.warningf ("Backing up ".data ++ dbname ++ " failed: ".data ++ err.Error))
  | ((dst, none), w2) =>
    if app.Format = .Script ∧ app.SplitSize > 0 then
      match db.Chunk dst app.SplitSize.toNat w2.os with
      | none => none
      | some (some err, os3) =>
        some (.failed,
          World.warningf ("Split ".data ++ dbname ++ " failed: ".data ++ err.Error)
            { w2 with os := os3 })
      | some (none, os3) =>
        some (.finished, World.infof ("Finished ".data ++ dbname) { w2 with os := os3 })
    else some (.finished, w2.infof ("Finished ".data ++ dbname))

/-- The source extension chosen by `App.ExecRestore` from the `-format` and `-join`
flags. -/
def App.ext (app : App) : Str :=
  if app.Format = .Script then (if app.ArgsJoin then ".chunk".data else ".sql".data)
  else ".backup".data

/-- The body run by a worker of `App.ExecRestore` for one database name received from the
queue.  The outer `none` is a glob pattern outside the model of `Glob`. -/
def App.restoreOne (env : Env) (app : App) (dbname : Str) (w : World) :
    Option (JobOutcome × World) :=
  let path := Join [app.Backups, dbname ++ app.ext]
  let w1 := w.infof ("Restoring ".data ++ dbname ++ " from ".data ++ path)
  let db : DB := { DBName := dbname, PSQL := app.PSQL }
  let joined : Option World :=
    if HasSuffix path ".chunk".data then
      -- db.Join(path): the returned error is not looked at
      match db.Join path w1 with
      | none => none
      | some (_, w2) => some w2
    else some w1
  match joined with
  | none => none
  | some w2 =>
    match db.Restore env app.Format w2 with
    | (some err, w3) =>
      some (.failed,
        w3.warningf ("Backing up ".data ++ dbname ++ " failed: ".data ++ err.Error))
    | (none, w3) => some (.finished, w3.infof ("Finished ".data ++ dbname))

/-! ### Vocabulary for the statements about `SplitWriter` -/

/-- The decimal numeral of `n` padded on the left with zeros to at least `W` characters. -/
def zeroPadded (W n : Nat) : Str :=
  List.replicate (W - (toString n).length) '0' ++ (toString n).data

/-- The names of the first `k` chunks. -/
def chunkNames (base : Str) (width : Int) (k : Nat) : List Str :=
  (List.range k).map (chunkName base width)

/-- The chunk files holding the contents `cs`, numbered from `i`. -/
def partsFrom (base : Str) (width : Int) : Nat → List (List Byte) → List (Str × List Byte)
  | _, [] => []
  | i, c :: cs => (chunkName base width i, c) :: partsFrom base width (i + 1) cs

/-- State of a `SplitWriter` between two iterations of `Write`, all system calls having
succeeded: `cs` are the contents of the chunks written so far, all full but possibly the
last, which is the open file; `F` are the files present before the first `Write`. -/
inductive SplitInv (base : Str) (s : Nat) (W : Int) (F : List (Str × List Byte)) :
    SplitWriter → OS → List (List Byte) → Prop
  | fresh (w : SplitWriter) (os : OS) :
      w.Basepath = base → w.SplitSize = s → w.SuffixLength = W → w.fileNo = 0 →
      w.dfd = none → os.faults = [] → os.files = F → SplitInv base s W F w os []
  | opened (w : SplitWriter) (os : OS) (pre : List (List Byte)) (last : List Byte) :
      w.Basepath = base → w.SplitSize = s → w.SuffixLength = W →
      w.fileNo = pre.length + 1 → w.dfd = some (chunkName base W pre.length) →
      last.length + w.remaining = s → 1 ≤ last.length → (∀ c ∈ pre, c.length = s) →
      os.faults = [] →
      os.files = F.filter (fun f => decide (f.1 ∉ chunkNames base W (pre.length + 1))) ++
        partsFrom base W 0 (pre ++ [last]) →
      SplitInv base s W F w os (pre ++ [last])

/-! ### Concrete inputs used in the instances -/

/-- The bytes `0, 1, ..., n - 1` (modulo 256). -/
def sampleBytes (n : Nat) : List Byte := (List.range n).map (fun i => Fin.ofNat i)

/-- A system without files in which no call fails. -/
def emptyOS : OS := { files := [], dirs := [], calls := 0, faults := [] }

/-- A system holding the single file `db.sql` of 100 bytes, in which no call fails. -/
def sampleOS : OS :=
  { files := [("db.sql".data, sampleBytes 100)], dirs := [], calls := 0, faults := [] }

/-! ### Vocabulary for the statements about `DB.Restore` and the workers -/

/-- The environment in which the command `cmd` is forced to fail with the error `e`, with
the same output and the same effect on the system. -/
def Env.forceFail (env : Env) (cmd : Cmd) (e : Err) : Env :=
  { env with
    run := fun c os =>
      if c = cmd then ({ (env.run c os).1 with err := some e }, (env.run c os).2)
      else env.run c os }

/-- The argument that follows the flag `flag` in an argument vector. -/
def argAfter (flag : Str) : List Str → Option Str
  | [] => none
  | [_] => none
  | a :: b :: rest => if a = flag then some b else argAfter flag (b :: rest)

/-- An environment for the instances: `pg_dump` writes the 100 bytes `sampleBytes 100` to
the file named after `-f` and prints `dumped`; every other command succeeds silently and
leaves the files alone; the digest text of any content is three fixed bytes. -/
def sampleEnv : Env :=
  { sha512Hex := fun _ => [1, 2, 3]
    sprintf := fun s => s
    run := fun c os =>
      if c.binary = "pg_dump".data then
        match argAfter "-f".data c.args with
        | some dest =>
          ({ output := "dumped".data, stderr := [], err := none },
            { os with
              files := os.files.filter (fun f => f.1 ≠ dest) ++ [(dest, sampleBytes 100)] })
        | none => ({ output := [], stderr := [], err := some (.exitStatus 1) }, os)
      else ({ output := [], stderr := [], err := none }, os) }

/-- The database `shop` with backups in `/b`, one job, verbose logging. -/
def sampleDB : DB := { DBName := "shop".data, PSQL := ⟨"/b".data, 1, .STDOut⟩ }

/-- A run that starts with the directory `/b` and no file; the system calls whose numbers
are listed fail. -/
def sampleWorld (faults : List Nat) : World :=
  { os := { files := [], dirs := ["/b".data], calls := 0, faults := faults }, log := [], ran := [] }

/-- The application configured for script backups split into parts of 30 bytes, with
backups in `/b`, restoring from the joined parts, verbose logging. -/
def sampleApp : App :=
  { Format := .Script, SplitSize := 30, Backups := "/b".data, ArgsJoin := true,
    PSQL := ⟨"/b".data, 1, .STDOut⟩ }

/-- A run that starts from the chunked backup of `shop`: the directory `/b/shop.chunk` with
the four parts of the 100 bytes `sampleBytes 100` and the copy of the digest; the system
calls whose numbers are listed fail. -/
def chunkedWorld (faults : List Nat) : World :=
  { os :=
      { files :=
          [("/b/shop.chunk/shop.000000000".data, (sampleBytes 100).take 30),
           ("/b/shop.chunk/shop.000000001".data, ((sampleBytes 100).drop 30).take 30),
           ("/b/shop.chunk/shop.000000002".data, ((sampleBytes 100).drop 60).take 30),
           ("/b/shop.chunk/shop.000000003".data, (sampleBytes 100).drop 90),
           ("/b/shop.chunk/hash.shop.sha512".data, [1, 2, 3])]
        dirs := ["/b".data, "/b/shop.chunk".data]
        calls := 0
        faults := faults }
    log := []
    ran := [] }

/-- The chunk directory of `shop` with one more file in it, `shop.notes`, of two bytes. -/
def strayWorld : World :=
  { chunkedWorld [] with
    os :=
      { (chunkedWorld []).os with
        files := (chunkedWorld []).os.files ++ [("/b/shop.chunk/shop.notes".data, [7, 7])] } }
/-! ### Vocabulary for the statements about `CalcConcurrency` -/

/-- The total number of slots of a plan `(CPUs, Ops, Jobs)`: the number of concurrent
operations times the number of jobs of each. -/
def totalSlots (plan : Int × Int × Int) : Int := plan.2.1 * plan.2.2

/-- The total of slots of the plan computed for `n ≥ 8` CPUs, in closed form; an auxiliary
function of the proofs about `totalSlots`. -/
def slotsFrom8 (n : Int) : Int := (n - 4) / (min 4 ((n - 4) / 4)) * min 4 ((n - 4) / 4)

/-! ## app.go: the queue of `ExecBackup` and `ExecRestore`

The queue is the sequence of names sent to the channel `dbsCh` before it is closed.  The
flag `-regexp` is compiled by the package `regexp`, which the program does not define: a
compiled expression is represented by its predicate `MatchString`. -/

/-- The field `app.Conf.Regexp`, a `*regexp.Regexp`: `none` for `nil`, otherwise the
predicate `MatchString` of the compiled expression. -/
abbrev Regexp := Option (Str → Bool)

/-- The condition `re == nil || re.MatchString(s)`. -/
def Regexp.nilOrMatch (re : Regexp) (s : Str) : Bool :=
  match re with
  | none => true
  | some matchString => matchString s

/-- `strings.HasPrefix`. -/
def HasPrefix (s pre : Str) : Bool := pre.isPrefixOf s

/-- `strings.Split(s, sep)` for a separator of one character. -/
def splitOnChar (sep : Char) : Str → List Str
  | [] => [[]]
  | c :: cs =>
    if c = sep then [] :: splitOnChar sep cs
    else match splitOnChar sep cs with
      | [] => [[c]]
      | x :: xs => (c :: x) :: xs

/-- One iteration of the loop `for scanner.Scan()` of `App.GetList` on the line `line`; the
state is the flag `skip` and the slice `rv`. -/
def getListLine (re : Regexp) (st : Bool × List Str) (line : Str) : Bool × List Str :=
  let skip := st.1
  let rv := st.2
  if HasPrefix line "------".data then (false, rv)
  else if skip then (skip, rv)
  else
    let parts := splitOnChar '|' line
    if parts.length < 2 then (skip, rv)
    else
      let name := TrimSpace (parts.headD [])
      if name = [] ∨ name = "postgres".data ∨ name = "template0".data ∨
          name = "template1".data then (skip, rv)
      else if Regexp.nilOrMatch re name then (skip, rv ++ [name])
      else (skip, rv)

/-- The slice `rv` at the end of the loop of `App.GetList`, `lines` being the lines the
scanner delivers. -/
def getListLoop (re : Regexp) (lines : List Str) : List Str :=
  (lines.foldl (getListLine re) (true, [])).2

/-- `App.GetList` returns a list of databases to backup.  `lines` are the lines of the
standard output of `psql -l` as the scanner delivers them and `err` is the error of
`cmd.Output()`; the result is `none` when `app.Error(err)` exits the program. -/
def GetList (re : Regexp) (lines : List Str) (err : Option Err) : Option (List Str) :=
  let rv := getListLoop re lines
  match err with
  | some _ => none
  | none => some rv

/-- The slice `dbs` whose elements `App.ExecBackup` sends to the channel `dbsCh`, in order;
`remaining` is `app.Args.Remaining`, `re` is `app.Conf.Regexp`, and `lines`, `err` are the
result of `psql -l` should `GetList` be called.  The result is `none` when `GetList` exits
the program. -/
def backupQueue (remaining : List Str) (re : Regexp) (lines : List Str) (err : Option Err) :
    Option (List Str) :=
  if remaining.length > 0 then
    -- Explicitly named databases...
    let dbs := remaining
    -- Any databases matching the -regexp flag but only if it was set.
    match re with
    | some _ =>
      match GetList re lines err with
      | none => none
      | some listed => some (dbs ++ listed)
    | none => some dbs
  else
    -- All dbs
    GetList re lines err

/-- The closure `glob` of `App.ExecRestore`: matches for the given extension in the backups
directory.  The outer `none` is a pattern outside the model of `Glob`; the inner `none` is
`app.Error(err)` exiting the program. -/
def App.restoreGlob (app : App) (extension : Str) (re : Regexp) (os : OS) :
    Option (Option (List Str)) × OS :=
  match Glob os (Join [app.Backups, '*' :: extension]) with
  | (none, os1) => (none, os1)
  | (some (.error _), os1) => (some none, os1)
  | (some (.ok globs), os1) =>
    (some (some (globs.filter (fun glob => Regexp.nilOrMatch re (Base glob)))), os1)

/-- The slice `paths` of `App.ExecRestore`. -/
def App.restorePaths (app : App) (remaining : List Str) (re : Regexp) (os : OS) :
    Option (Option (List Str)) × OS :=
  let ext := app.ext
  if remaining.length > 0 then
    -- Explicitly listed databases...
    let paths := remaining.map (fun path => Join [app.Backups, path ++ ext])
    -- Plus those matching the -regexp flag but only if the regexp was specified.
    match re with
    | some _ =>
      match app.restoreGlob ext re os with
      | (some (some globs), os1) => (some (some (paths ++ globs)), os1)
      | (r, os1) => (r, os1)
    | none => (some (some paths), os)
  else app.restoreGlob ext re os

/-- The name sent to the channel for a path:
`filepath.Base(strings.TrimSuffix(path, filepath.Ext(path)))`. -/
def queueName (path : Str) : Str := Base (TrimSuffix path (Ext path))

/-- The names `App.ExecRestore` sends to the channel `dbsCh`, in order (none when `paths`
is empty, in which case the function returns before making the channel).  The outer and
inner `none` are those of `App.restoreGlob`. -/
def App.restoreQueue (app : App) (remaining : List Str) (re : Regexp) (os : OS) :
    Option (Option (List Str)) × OS :=
  match app.restorePaths remaining re os with
  | (some (some paths), os1) => (some (some (paths.map queueName)), os1)
  | (r, os1) => (r, os1)

/-! ### Concrete inputs for the queue -/

/-- A listing as `psql -l` prints it, with the databases `postgres`, `shop`, `stock`,
`template0` and `template1`. -/
def sampleListing : List Str :=
  ["      List of databases".data,
   "   Name    |  Owner   | Access privileges".data,
   "-----------+----------+-------------------".data,
   " postgres  | postgres | ".data,
   " shop      | postgres | ".data,
   " stock     | postgres | ".data,
   " template0 | postgres | =c/postgres      +".data,
   "           |          | postgres=CTc/postgres".data,
   " template1 | postgres | =c/postgres      +".data,
   "           |          | postgres=CTc/postgres".data,
   "(5 rows)".data,
   "".data]

/-- The predicate of the expression `^sh`. -/
def sampleRegexp : Regexp := some (fun s => HasPrefix s "sh".data)

/-- A system whose only file is `/b/shop.chunk/shop.000000000`, of 40000 bytes, in which no
call fails. -/
def firstChunkOS : OS :=
  { files := [("/b/shop.chunk/shop.000000000".data, sampleBytes 40000)]
    dirs := ["/b".data, "/b/shop.chunk".data]
    calls := 0
    faults := [] }

/-- The database named `hash` with backups in `/b`. -/
def hashDB : DB := { DBName := "hash".data, PSQL := ⟨"/b".data, 1, .STDOut⟩ }

/-- A run that starts from the script backup of the database `hash`: the file `/b/hash.sql`
of 100 bytes and its digest `/b/hash.sha512` of three bytes; no system call fails. -/
def hashWorld : World :=
  { os :=
      { files := [("/b/hash.sql".data, sampleBytes 100), ("/b/hash.sha512".data, [1, 2, 3])]
        dirs := ["/b".data]
        calls := 0
        faults := [] }
    log := []
    ran := [] }

/-! ## Theorems: functions.go -/

/-- C3: with the CPU count as input, `CalcConcurrency` returns `(Ops, Jobs) = (1, 1)` for
every CPU count `≤ 2`, `(1, 2)` for every CPU count `3` or `4`, `(5, 1)` for 9 CPUs and
`(4, 4)` for 20 CPUs. -/
theorem CalcConcurrency_small_and_samples (n : Int) :
    (n ≤ 2 → CalcConcurrency n = .ok (n, 1, 1)) ∧
    (3 ≤ n → n ≤ 4 → CalcConcurrency n = .ok (n, 1, 2)) ∧
    CalcConcurrency 9 = .ok (9, 5, 1) ∧
    CalcConcurrency 20 = .ok (20, 4, 4) := by
  refine ⟨?_, ?_, rfl, rfl⟩
  · intro h
    simp [CalcConcurrency, h]
  · intro h3 h4
    have h2 : ¬ n ≤ 2 := by omega
    simp [CalcConcurrency, h2, h4]

/-- Witness of C3 at 2 CPUs and at 3 CPUs. -/
theorem CalcConcurrency_small_and_samples_witness :
    CalcConcurrency 2 = .ok (2, 1, 1) ∧ CalcConcurrency 3 = .ok (3, 1, 2) :=
  ⟨(CalcConcurrency_small_and_samples 2).1 (by decide),
   (CalcConcurrency_small_and_samples 3).2.1 (by decide) (by decide)⟩

/-- C4 (evaluation of the code): for 5, 6 and 7 CPUs the intermediate `Jobs` is `0` and the
division `(CPUs - 4) / Jobs` panics with `integer divide by zero`, so no pair is returned;
from 8 CPUs on the function returns `Jobs = min 4 ((CPUs-4)/4)` and
`Ops = (CPUs-4) / Jobs`, both at least 1. -/
theorem CalcConcurrency_from_five (n : Int) :
    (5 ≤ n → n ≤ 7 → CalcConcurrency n = .error .integerDivideByZero) ∧
    (8 ≤ n → CalcConcurrency n =
        .ok (n, Int.tdiv (n - 4) (min 4 (Int.tdiv (n - 4) 4)), min 4 (Int.tdiv (n - 4) 4)) ∧
      1 ≤ Int.tdiv (n - 4) (min 4 (Int.tdiv (n - 4) 4)) ∧
      1 ≤ min 4 (Int.tdiv (n - 4) 4) ∧ min 4 (Int.tdiv (n - 4) 4) ≤ 4) := by
  constructor
  · intro h5 h7
    have hcases : n = 5 ∨ n = 6 ∨ n = 7 := by omega
    rcases hcases with h | h | h <;> subst h <;> rfl
  · intro h8
    have hq : Int.tdiv (n - 4) 4 = (n - 4) / 4 := by
      rw [Int.tdiv_eq_ediv] <;> omega
    have hj1 : 1 ≤ min 4 ((n - 4) / 4) := by
      have : 1 ≤ (n - 4) / 4 := by omega
      omega
    have hj4 : min 4 ((n - 4) / 4) ≤ 4 := min_le_left _ _
    have ho : Int.tdiv (n - 4) (min 4 ((n - 4) / 4)) = (n - 4) / (min 4 ((n - 4) / 4)) := by
      rw [Int.tdiv_eq_ediv] <;> omega
    have ho1 : 1 ≤ (n - 4) / (min 4 ((n - 4) / 4)) := by
      apply Int.le_ediv_of_mul_le (by omega)
      have : min 4 ((n - 4) / 4) ≤ (n - 4) / 4 := min_le_right _ _
      omega
    rw [hq, ho]
    refine ⟨?_, ho1, hj1, hj4⟩
    have h2 : ¬ n ≤ 2 := by omega
    have h4 : ¬ n ≤ 4 := by omega
    have hne : min 4 ((n - 4) / 4) ≠ 0 := by omega
    have hmin : (if (n - 4) / 4 > 4 then (4 : Int) else (n - 4) / 4) = min 4 ((n - 4) / 4) := by
      split <;> omega
    simp only [CalcConcurrency, h2, h4, if_false, goDiv, hq, hmin, hne, ho]
    simp only [show (4 : Int) ≠ 0 by decide, if_false]
    have a1 : ¬ (min 4 ((n - 4) / 4) < 1) := by omega
    have a2 : ¬ ((n - 4) / (min 4 ((n - 4) / 4)) < 1) := by omega
    simp [hq, hmin, hne, ho, a1, a2]

/-- Witness of C4's evaluation at 5 CPUs (panic) and 20 CPUs (returns `(4, 4)`). -/
theorem CalcConcurrency_from_five_witness :
    CalcConcurrency 5 = .error .integerDivideByZero ∧
    CalcConcurrency 20 =
        .ok (20, Int.tdiv (20 - 4) (min 4 (Int.tdiv (20 - 4) 4)), min 4 (Int.tdiv (20 - 4) 4)) :=
  ⟨(CalcConcurrency_from_five 5).1 (by decide) (by decide),
   ((CalcConcurrency_from_five 20).2 (by decide)).1⟩


/-! ## Decimal rendering -/

theorem toDigitsCore_eq_append (n : Nat) : ∀ (fuel : Nat) (acc : List Char), n < fuel →
    Nat.toDigitsCore 10 fuel n acc = Nat.toDigitsCore 10 (n + 1) n [] ++ acc := by
  induction n using Nat.strong_induction_on with
  | _ n ih =>
    intro fuel acc hf
    obtain ⟨f, rfl⟩ : ∃ f, fuel = f + 1 := ⟨fuel - 1, by omega⟩
    by_cases h0 : n / 10 = 0
    · simp [Nat.toDigitsCore, h0]
    · have hlt : n / 10 < n := by omega
      have e1 : Nat.toDigitsCore 10 (f + 1) n acc =
          Nat.toDigitsCore 10 f (n / 10) (Nat.digitChar (n % 10) :: acc) := by
        simp [Nat.toDigitsCore, h0]
      have e2 : Nat.toDigitsCore 10 (n + 1) n [] =
          Nat.toDigitsCore 10 n (n / 10) [Nat.digitChar (n % 10)] := by
        simp [Nat.toDigitsCore, h0]
      rw [e1, e2, ih (n / 10) hlt f _ (by omega), ih (n / 10) hlt n _ hlt]
      simp

theorem fmtNat_small (n : Nat) (h : n < 10) : fmtNat n = [Nat.digitChar n] := by
  have h0 : n / 10 = 0 := by omega
  have h1 : n % 10 = n := by omega
  simp [fmtNat, Nat.toDigits, Nat.toDigitsCore, h0, h1]

theorem fmtNat_large (n : Nat) (h : 10 ≤ n) :
    fmtNat n = fmtNat (n / 10) ++ [Nat.digitChar (n % 10)] := by
  have h0 : n / 10 ≠ 0 := by omega
  have hlt : n / 10 < n := by omega
  have e : Nat.toDigitsCore 10 (n + 1) n [] =
      Nat.toDigitsCore 10 n (n / 10) [Nat.digitChar (n % 10)] := by
    simp [Nat.toDigitsCore, h0]
  simp only [fmtNat, Nat.toDigits]
  rw [e, toDigitsCore_eq_append (n / 10) n _ hlt]

theorem fmtNat_length_pos (n : Nat) : 1 ≤ (fmtNat n).length := by
  by_cases h : n < 10
  · simp [fmtNat_small n h]
  · rw [fmtNat_large n (by omega)]; simp

theorem lt_pow_fmtNat_length (n : Nat) : n < 10 ^ (fmtNat n).length := by
  induction n using Nat.strong_induction_on with
  | _ n ih =>
    by_cases h : n < 10
    · simp [fmtNat_small n h]; exact h
    · have := ih (n / 10) (by omega)
      rw [fmtNat_large n (by omega)]
      simp only [List.length_append, List.length_singleton, pow_succ]
      omega

theorem fixedDec_length (W n : Nat) : (fixedDec W n).length = W := by
  induction W generalizing n with
  | zero => rfl
  | succ W ih => simp [fixedDec, ih]

theorem fixedDec_zero (W : Nat) : fixedDec W 0 = List.replicate W '0' := by
  induction W with
  | zero => rfl
  | succ W ih =>
    simp only [fixedDec, Nat.zero_div, Nat.zero_mod, ih]
    rw [List.replicate_succ', show Nat.digitChar 0 = '0' from rfl]

theorem pad_eq_fixedDec (L : Nat) : ∀ n : Nat, (fmtNat n).length ≤ L →
    List.replicate (L - (fmtNat n).length) '0' ++ fmtNat n = fixedDec L n := by
  induction L with
  | zero =>
    intro n h
    have := fmtNat_length_pos n
    omega
  | succ L ih =>
    intro n h
    by_cases hn : n < 10
    · have h0 : n / 10 = 0 := by omega
      have h1 : n % 10 = n := by omega
      simp [fmtNat_small n hn, fixedDec, h0, h1, fixedDec_zero]
    · rw [fmtNat_large n (by omega)] at h ⊢
      simp only [List.length_append, List.length_singleton] at h ⊢
      have := ih (n / 10) (by omega)
      rw [fixedDec, ← this, Nat.add_sub_add_right, List.append_assoc]

theorem fmtZeroPad_eq_fixedDec (W n : Nat) :
    fmtZeroPad W n = fixedDec (max W (fmtNat n).length) n := by
  rw [← pad_eq_fixedDec _ n (le_max_right _ _), fmtZeroPad]
  congr 2
  omega

theorem fmtZeroPad_length (W n : Nat) :
    (fmtZeroPad W n).length = max W (fmtNat n).length := by
  rw [fmtZeroPad_eq_fixedDec, fixedDec_length]

theorem fmtNat_length_le (W n : Nat) (hW : 1 ≤ W) (h : n < 10 ^ W) : (fmtNat n).length ≤ W := by
  induction W generalizing n with
  | zero => omega
  | succ W ih =>
    by_cases hn : n < 10
    · simp [fmtNat_small n hn]
    · rw [fmtNat_large n (by omega)]
      simp only [List.length_append, List.length_singleton]
      have hW1 : 1 ≤ W := by
        rcases Nat.eq_zero_or_pos W with h0 | h0
        · subst h0; simp at h; omega
        · exact h0
      have := ih (n / 10) hW1 (by rw [pow_succ] at h; omega)
      omega

/-! ## String order -/

theorem charLt_irrefl (c : Char) : ¬ c < c := fun h => absurd h (lt_irrefl c)

theorem strLt_irrefl (a : Str) : strLt a a = false := by
  induction a with
  | nil => rfl
  | cons c a ih => simp [strLt, ih]

theorem strLt_append_left (p a b : Str) : strLt (p ++ a) (p ++ b) = strLt a b := by
  induction p with
  | nil => rfl
  | cons c p ih => simp [strLt, ih]

theorem strLt_cons_same (c : Char) (a b : Str) : strLt (c :: a) (c :: b) = strLt a b := by
  simp [strLt]

theorem strLt_append_of_lt : ∀ (a b x y : Str), a.length = b.length → strLt a b = true →
    strLt (a ++ x) (b ++ y) = true
  | [], [], _, _, _, h => by simp [strLt] at h
  | [], _ :: _, _, _, hl, _ => by simp at hl
  | _ :: _, [], _, _, hl, _ => by simp at hl
  | c :: a, d :: b, x, y, hl, h => by
    simp only [List.cons_append, strLt] at h ⊢
    by_cases h1 : c < d
    · simp [h1]
    · by_cases h2 : d < c
      · simp [h1, h2] at h
      · simp only [h1, h2, if_false] at h ⊢
        exact strLt_append_of_lt a b x y (by simpa using hl) h

theorem strLt_asymm : ∀ (a b : Str), strLt a b = true → strLt b a = false
  | [], [], h => by simp [strLt] at h
  | [], _ :: _, _ => by simp [strLt]
  | _ :: _, [], h => by simp [strLt] at h
  | c :: a, d :: b, h => by
    simp only [strLt] at h ⊢
    by_cases h1 : c < d
    · have h2 : ¬ d < c := fun h2 => absurd (lt_trans h1 h2) (lt_irrefl c)
      simp [h1, h2]
    · by_cases h2 : d < c
      · simp [h1, h2] at h
      · simp only [h1, h2, if_false] at h ⊢
        exact strLt_asymm a b h

theorem digitChar_lt (a b : Nat) (hab : a < b) (hb : b < 10) :
    Nat.digitChar a < Nat.digitChar b := by
  interval_cases b <;> interval_cases a <;> decide

theorem fixedDec_lt (W : Nat) : ∀ i j : Nat, i < j → j < 10 ^ W →
    strLt (fixedDec W i) (fixedDec W j) = true := by
  induction W with
  | zero => intro i j hij hj; simp at hj; omega
  | succ W ih =>
    intro i j hij hj
    rw [pow_succ] at hj
    simp only [fixedDec]
    by_cases hq : i / 10 < j / 10
    · exact strLt_append_of_lt _ _ _ _ (by simp [fixedDec_length])
        (ih _ _ hq (by omega))
    · have heq : i / 10 = j / 10 := by omega
      rw [heq, strLt_append_left]
      have hlt := digitChar_lt (i % 10) (j % 10) (by omega) (by omega)
      simp [strLt, hlt]

theorem fixedDec_injective (W i j : Nat) (hi : i < 10 ^ W) (hj : j < 10 ^ W)
    (h : fixedDec W i = fixedDec W j) : i = j := by
  rcases Nat.lt_trichotomy i j with hlt | heq | hgt
  · have := fixedDec_lt W i j hlt hj
    rw [h, strLt_irrefl] at this
    cases this
  · exact heq
  · have := fixedDec_lt W j i hgt hi
    rw [h, strLt_irrefl] at this
    cases this

theorem fmtZeroPad_injective (W i j : Nat) (h : fmtZeroPad W i = fmtZeroPad W j) : i = j := by
  have hlen : max W (fmtNat i).length = max W (fmtNat j).length := by
    rw [← fmtZeroPad_length, ← fmtZeroPad_length, h]
  rw [fmtZeroPad_eq_fixedDec, fmtZeroPad_eq_fixedDec, ← hlen] at h
  refine fixedDec_injective _ i j ?_ ?_ h
  · exact lt_of_lt_of_le (lt_pow_fmtNat_length i)
      (Nat.pow_le_pow_right (by decide) (le_max_right _ _))
  · exact lt_of_lt_of_le (lt_pow_fmtNat_length j)
      (Nat.pow_le_pow_right (by decide) (by rw [hlen]; exact le_max_right _ _))

theorem fmtZeroPad_lt (W i j : Nat) (hij : i < j) (hj : j < 10 ^ W) :
    strLt (fmtZeroPad W i) (fmtZeroPad W j) = true := by
  have hW : 1 ≤ W := by
    rcases Nat.eq_zero_or_pos W with h0 | h0
    · subst h0; simp at hj; omega
    · exact h0
  have hi := fmtNat_length_le W i hW (by omega)
  have hj2 := fmtNat_length_le W j hW hj
  rw [fmtZeroPad_eq_fixedDec, fmtZeroPad_eq_fixedDec, max_eq_left hi, max_eq_left hj2]
  exact fixedDec_lt W i j hij hj

/-- Every character printed by `fmtZeroPad` is a decimal digit. -/
theorem fixedDec_digits (W : Nat) : ∀ n, ∀ c ∈ fixedDec W n, c.isDigit = true := by
  induction W with
  | zero => intro n c hc; simp [fixedDec] at hc
  | succ W ih =>
    intro n c hc
    simp only [fixedDec, List.mem_append, List.mem_singleton] at hc
    rcases hc with hc | hc
    · exact ih _ c hc
    · subst hc
      have h10 : n % 10 < 10 := Nat.mod_lt _ (by decide)
      generalize n % 10 = d at h10
      interval_cases d <;> decide

theorem fmtZeroPad_digits (W n : Nat) : ∀ c ∈ fmtZeroPad W n, c.isDigit = true := by
  rw [fmtZeroPad_eq_fixedDec]
  exact fixedDec_digits _ n

theorem fmtZeroPad_ne_nil (W n : Nat) : fmtZeroPad W n ≠ [] := by
  intro h
  have := fmtZeroPad_length W n
  have := fmtNat_length_pos n
  rw [h] at *
  simp at *
  omega

/-! ## The verb `%0[1]*d` -/

theorem fmtZeroPad_zero_width (n : Nat) : fmtZeroPad 0 n = fmtNat n := by
  simp [fmtZeroPad]

theorem fmtNat_injective (i j : Nat) (h : fmtNat i = fmtNat j) : i = j := by
  apply fmtZeroPad_injective 0
  rw [fmtZeroPad_zero_width, fmtZeroPad_zero_width, h]

theorem fmtNat_digits (n : Nat) : ∀ c ∈ fmtNat n, c.isDigit = true := by
  rw [← fmtZeroPad_zero_width]
  exact fmtZeroPad_digits 0 n

theorem fmtNat_ne_nil (n : Nat) : fmtNat n ≠ [] := by
  rw [← fmtZeroPad_zero_width]
  exact fmtZeroPad_ne_nil 0 n

/-- For a width from 0 to one million the verb pads with zeros. -/
theorem fmtStarZeroD_padded (W : Nat) (hW : W ≤ 1000000) (n : Nat) :
    fmtStarZeroD (W : Int) n = fmtZeroPad W n := by
  have h1 : ¬ ((W : Int) > 1000000 ∨ (W : Int) < -1000000) := by omega
  have h2 : ¬ ((W : Int) < 0) := by omega
  simp only [fmtStarZeroD, h1, h2, if_false, Int.toNat_ofNat]

/-- For a width beyond one million the verb prints the complaint of `fmt` and the plain
number. -/
theorem fmtStarZeroD_bad_width (W : Int) (hW : 1000000 < W ∨ W < -1000000) (n : Nat) :
    fmtStarZeroD W n = "%!(BADWIDTH)".data ++ fmtNat n := by
  have h1 : W > 1000000 ∨ W < -1000000 := hW
  simp only [fmtStarZeroD, h1, if_true]

theorem takeWhile_digits_spaces (k : Nat) : ∀ (l : Str), (∀ c ∈ l, c.isDigit = true) →
    (l ++ List.replicate k ' ').takeWhile Char.isDigit = l
  | [], _ => by
    cases k with
    | zero => rfl
    | succ k =>
      have h : Char.isDigit ' ' = false := by decide
      simp [List.replicate_succ, List.takeWhile_cons, h]
  | c :: l, h => by
    have hc : c.isDigit = true := h c (by simp)
    simp only [List.cons_append, List.takeWhile_cons, hc, if_true]
    rw [takeWhile_digits_spaces k l (fun d hd => h d (by simp [hd]))]

theorem fmtStarZeroD_injective (W : Int) (i j : Nat)
    (h : fmtStarZeroD W i = fmtStarZeroD W j) : i = j := by
  unfold fmtStarZeroD at h
  by_cases h1 : W > 1000000 ∨ W < -1000000
  · simp only [h1, if_true] at h
    exact fmtNat_injective i j (List.append_cancel_left h)
  · simp only [h1, if_false] at h
    by_cases h2 : W < 0
    · simp only [h2, if_true] at h
      have h3 := congrArg (List.takeWhile Char.isDigit) h
      rw [takeWhile_digits_spaces _ _ (fmtNat_digits i),
        takeWhile_digits_spaces _ _ (fmtNat_digits j)] at h3
      exact fmtNat_injective i j h3
    · simp only [h2, if_false] at h
      exact fmtZeroPad_injective _ i j h

/-- For a width that is not negative the text printed ends in a decimal digit. -/
theorem fmtStarZeroD_ends_in_digit (W : Int) (hW : 0 ≤ W) (n : Nat) :
    ∃ (init : Str) (d : Char), fmtStarZeroD W n = init ++ [d] ∧ d.isDigit = true := by
  have h2 : ¬ W < 0 := by omega
  by_cases h1 : W > 1000000 ∨ W < -1000000
  · have hne := fmtNat_ne_nil n
    refine ⟨"%!(BADWIDTH)".data ++ (fmtNat n).dropLast, (fmtNat n).getLast hne, ?_, ?_⟩
    · simp only [fmtStarZeroD, h1, if_true, List.append_assoc]
      rw [List.dropLast_append_getLast hne]
    · exact fmtNat_digits n _ (List.getLast_mem hne)
  · have hne := fmtZeroPad_ne_nil W.toNat n
    refine ⟨(fmtZeroPad W.toNat n).dropLast, (fmtZeroPad W.toNat n).getLast hne, ?_, ?_⟩
    · simp only [fmtStarZeroD, h1, h2, if_false]
      rw [List.dropLast_append_getLast hne]
    · exact fmtZeroPad_digits _ n _ (List.getLast_mem hne)

/-! ## Chunk names and chunk files -/

theorem chunkName_injective (base : Str) (W : Int) (i j : Nat)
    (h : chunkName base W i = chunkName base W j) : i = j := by
  unfold chunkName at h
  have h1 := List.append_cancel_left h
  exact fmtStarZeroD_injective W i j (List.cons.inj h1).2

/-- For a width from 0 to one million the name of a chunk is the base, a dot and the index
padded with zeros. -/
theorem chunkName_padded (base : Str) (W : Nat) (hW : W ≤ 1000000) (i : Nat) :
    chunkName base (W : Int) i = base ++ '.' :: fmtZeroPad W i := by
  rw [chunkName, fmtStarZeroD_padded W hW]

theorem mem_chunkNames (base : Str) (W : Int) (k : Nat) (n : Str) :
    n ∈ chunkNames base W k ↔ ∃ i, i < k ∧ chunkName base W i = n := by
  simp [chunkNames]

theorem partsFrom_append (base : Str) (W : Int) (cs : List (List Byte)) (c : List Byte) :
    ∀ a, partsFrom base W a (cs ++ [c]) =
      partsFrom base W a cs ++ [(chunkName base W (a + cs.length), c)] := by
  induction cs with
  | nil => intro a; simp [partsFrom]
  | cons d cs ih =>
    intro a
    show (chunkName base W a, d) :: partsFrom base W (a + 1) (cs ++ [c]) = _
    rw [ih, show a + 1 + cs.length = a + (cs.length + 1) by omega]
    rfl

theorem partsFrom_name (base : Str) (W : Int) (cs : List (List Byte)) :
    ∀ a f, f ∈ partsFrom base W a cs → ∃ i, a ≤ i ∧ i < a + cs.length ∧ f.1 = chunkName base W i := by
  induction cs with
  | nil => intro a f h; simp [partsFrom] at h
  | cons d cs ih =>
    intro a f h
    simp only [partsFrom, List.mem_cons] at h
    rcases h with h | h
    · exact ⟨a, le_refl a, by simp, by rw [h]⟩
    · obtain ⟨i, h1, h2, h3⟩ := ih (a + 1) f h
      exact ⟨i, by omega, by simp only [List.length_cons]; omega, h3⟩

theorem partsFrom_length (base : Str) (W : Int) (cs : List (List Byte)) :
    ∀ a, (partsFrom base W a cs).length = cs.length := by
  induction cs with
  | nil => intro a; rfl
  | cons d cs ih => intro a; simp [partsFrom, ih]

theorem partsFrom_map_snd (base : Str) (W : Int) (cs : List (List Byte)) :
    ∀ a, (partsFrom base W a cs).map Prod.snd = cs := by
  induction cs with
  | nil => intro a; rfl
  | cons d cs ih => intro a; simp [partsFrom, ih]

theorem partsFrom_map_fst (base : Str) (W : Int) (cs : List (List Byte)) :
    ∀ a, (partsFrom base W a cs).map Prod.fst =
      (List.range cs.length).map (fun i => chunkName base W (a + i)) := by
  induction cs with
  | nil => intro a; rfl
  | cons d cs ih =>
    intro a
    simp only [partsFrom, List.map_cons, ih, List.length_cons, List.range_succ_eq_map,
      List.map_map, Nat.add_zero]
    congr 1
    apply List.map_congr_left
    intro i _
    simp only [Function.comp]
    rw [show a + 1 + i = a + (i + 1) by omega]

/-- Creating chunk `j` leaves the earlier chunks in place and removes an older file of
the same name. -/
theorem files_after_create (base : Str) (W : Int) (F : List (Str × List Byte))
    (cs : List (List Byte)) :
    (F.filter (fun f => decide (f.1 ∉ chunkNames base W cs.length)) ++
        partsFrom base W 0 cs).filter (fun f => decide (f.1 ≠ chunkName base W cs.length)) ++
      [(chunkName base W cs.length, [])] =
    F.filter (fun f => decide (f.1 ∉ chunkNames base W (cs.length + 1))) ++
      partsFrom base W 0 (cs ++ [[]]) := by
  rw [partsFrom_append, List.filter_append, List.filter_filter, Nat.zero_add,
    List.append_assoc]
  congr 1
  · apply List.filter_congr
    intro f _
    rw [Bool.eq_iff_iff]
    simp only [mem_chunkNames, decide_not, Bool.and_eq_true, Bool.not_eq_true',
      decide_eq_false_iff_not, decide_eq_true_eq, not_exists, not_and, ne_eq]
    constructor
    · rintro ⟨h1, h2⟩ i hi hc
      rcases Nat.lt_succ_iff_lt_or_eq.mp hi with h | h
      · exact h2 i h hc
      · subst h; exact h1 hc.symm
    · intro h
      exact ⟨fun hc => h cs.length (Nat.lt_succ_self _) hc.symm,
        fun i hi hc => h i (Nat.lt_succ_of_lt hi) hc⟩
  · congr 1
    rw [List.filter_eq_self]
    intro f hf
    obtain ⟨i, _, h2, h3⟩ := partsFrom_name base W cs 0 f hf
    simp only [ne_eq, decide_not, Bool.not_eq_true', decide_eq_false_iff_not, h3]
    intro hc
    have := chunkName_injective base W _ _ hc
    omega

/-- Appending to the open chunk changes that file only. -/
theorem files_after_write (base : Str) (W : Int) (F : List (Str × List Byte))
    (pre : List (List Byte)) (last b : List Byte) :
    (F.filter (fun f => decide (f.1 ∉ chunkNames base W (pre.length + 1))) ++
        partsFrom base W 0 (pre ++ [last])).map
      (fun f => if f.1 = chunkName base W pre.length then (f.1, f.2 ++ b) else f) =
    F.filter (fun f => decide (f.1 ∉ chunkNames base W (pre.length + 1))) ++
      partsFrom base W 0 (pre ++ [last ++ b]) := by
  rw [partsFrom_append, partsFrom_append, List.map_append, List.map_append, Nat.zero_add]
  congr 1
  · conv_rhs => rw [← List.map_id (List.filter _ F)]
    apply List.map_congr_left
    intro f hf
    have := of_decide_eq_true (List.mem_filter.mp hf).2
    simp only [mem_chunkNames, not_exists, not_and] at this
    have hne : f.1 ≠ chunkName base W pre.length :=
      fun hc => this pre.length (Nat.lt_succ_self _) hc.symm
    simp [hne]
  · congr 1
    · conv_rhs => rw [← List.map_id (partsFrom base W 0 pre)]
      apply List.map_congr_left
      intro f hf
      obtain ⟨i, _, h2, h3⟩ := partsFrom_name base W pre 0 f hf
      have hne : f.1 ≠ chunkName base W pre.length := by
        rw [h3]
        intro hc
        have := chunkName_injective base W _ _ hc
        omega
      simp [hne]
    · simp

/-! ## SplitWriter.Write -/

theorem OS.failing_of_no_faults (os : OS) (h : os.faults = []) : os.failing = false := by
  simp [OS.failing, h]

theorem writeLoop_zero_size (fuel : Nat) (w : SplitWriter) (os : OS) (p : List Byte)
    (total : Nat) : SplitWriter.writeLoop fuel w os p 0 total = some (w, (total, none), os) := by
  cases fuel <;> simp [SplitWriter.writeLoop]

/-- One iteration of the loop of `Write` in which no system call fails. -/
theorem writeLoop_iter (fuel : Nat) (w : SplitWriter) (os : OS) (p : List Byte)
    (size total : Nat) (hsz : 0 < size) (w1 w2 : SplitWriter) (os1 os2 os3 : OS) (n : Nat)
    (h1 : w.closeIfFull os = (w1, none, os1)) (h2 : w1.openIfNil os1 = (w2, none, os2))
    (h3 : w2.dfdWrite os2 (if size > w2.remaining then p.take w2.remaining else p) =
      ((n, none), os3)) :
    SplitWriter.writeLoop (fuel + 1) w os p size total =
      SplitWriter.writeLoop fuel { w2 with remaining := w2.remaining - n } os3
        (if size > w2.remaining then p.drop w2.remaining else p) (size - n) (total + n) := by
  simp only [SplitWriter.writeLoop, hsz, if_true, h1, h2, gt_iff_lt]
  by_cases hc : w2.remaining < size
  · simp only [hc, if_true, gt_iff_lt] at h3 ⊢
    simp [h3]
  · simp only [hc, if_false, gt_iff_lt] at h3 ⊢
    simp [h3]

/-- Opening chunk number `cs.length` and writing `b` into it. -/
theorem write_new_file (base : Str) (s : Nat) (W : Int) (F : List (Str × List Byte))
    (w1 : SplitWriter) (os1 : OS) (cs : List (List Byte)) (b : List Byte)
    (hB : w1.Basepath = base) (hS : w1.SplitSize = s) (hW : w1.SuffixLength = W)
    (hno : w1.fileNo = cs.length) (hfd : w1.dfd = none) (hfl : os1.faults = [])
    (hfiles : os1.files = F.filter (fun f => decide (f.1 ∉ chunkNames base W cs.length)) ++
      partsFrom base W 0 cs)
    (hfull : ∀ c ∈ cs, c.length = s) (hb1 : 1 ≤ b.length) (hb2 : b.length ≤ s) :
    ∃ w2 os2 os3, w1.openIfNil os1 = (w2, none, os2) ∧ w2.remaining = s ∧
      w2.dfdWrite os2 b = ((b.length, none), os3) ∧
      SplitInv base s W F { w2 with remaining := w2.remaining - b.length } os3 (cs ++ [b]) := by
  have hname : w1.dname = chunkName base W cs.length := by
    simp [SplitWriter.dname, hB, hW, hno]
  have hf1 : os1.failing = false := OS.failing_of_no_faults os1 hfl
  let nm := chunkName base W cs.length
  let fs2 := os1.files.filter (fun f => decide (f.1 ≠ nm)) ++ [(nm, [])]
  let fs3 := F.filter (fun f => decide (f.1 ∉ chunkNames base W (cs.length + 1))) ++
    partsFrom base W 0 (cs ++ [b])
  let w2 : SplitWriter :=
    { w1 with dfd := some nm, fileNo := w1.fileNo + 1, remaining := w1.SplitSize }
  let os2 : OS := { os1.next with files := fs2 }
  let os3 : OS := { os1.next.next with files := fs3 }
  refine ⟨w2, os2, os3, ?_, hS, ?_, ?_⟩
  · simp [SplitWriter.openIfNil, hfd, OS.Create, hf1, hname, w2, os2, fs2, nm]
  · have hf2 : os2.failing = false := by
      simp [OS.failing, OS.next, hfl, os2]
    have e := files_after_write base W F cs [] b
    rw [← files_after_create base W F cs, ← hfiles] at e
    simp only [List.nil_append] at e
    simp only [SplitWriter.dfdWrite, OS.Write, hf2, w2]
    simp [OS.next, os2, os3, fs2, fs3, nm]
    simpa using e
  · exact @SplitInv.opened base s W F
      { w2 with remaining := w2.remaining - b.length } os3 cs b hB hS hW
      (by simp [hno, w2]) rfl
      (by simp only [w2, hS]; omega) hb1 hfull (by simp [OS.next, hfl, os3]) rfl

/-- Writing `b` into the chunk that is open and has room for it. -/
theorem write_open_file (base : Str) (s : Nat) (W : Int) (F : List (Str × List Byte))
    (w : SplitWriter) (os : OS) (pre : List (List Byte)) (last b : List Byte)
    (hB : w.Basepath = base) (hS : w.SplitSize = s) (hW : w.SuffixLength = W)
    (hno : w.fileNo = pre.length + 1) (hfd : w.dfd = some (chunkName base W pre.length))
    (hrem : last.length + w.remaining = s) (hl1 : 1 ≤ last.length)
    (hfull : ∀ c ∈ pre, c.length = s) (hfl : os.faults = [])
    (hfiles : os.files = F.filter (fun f => decide (f.1 ∉ chunkNames base W (pre.length + 1))) ++
      partsFrom base W 0 (pre ++ [last]))
    (hb2 : b.length ≤ w.remaining) :
    ∃ os3, w.dfdWrite os b = ((b.length, none), os3) ∧
      SplitInv base s W F { w with remaining := w.remaining - b.length } os3
        (pre ++ [last ++ b]) := by
  have hf1 : os.failing = false := OS.failing_of_no_faults os hfl
  let fs3 := F.filter (fun f => decide (f.1 ∉ chunkNames base W (pre.length + 1))) ++
    partsFrom base W 0 (pre ++ [last ++ b])
  let os3 : OS := { os.next with files := fs3 }
  refine ⟨os3, ?_, ?_⟩
  · have e := files_after_write base W F pre last b
    rw [← hfiles] at e
    simp [SplitWriter.dfdWrite, hfd, OS.Write, hf1, e, os3, fs3]
  · exact @SplitInv.opened base s W F
      { w with remaining := w.remaining - b.length } os3 pre (last ++ b) hB hS hW hno hfd
      (by simp only [List.length_append]; omega) (by simp only [List.length_append]; omega)
      hfull (by simp [OS.next, hfl, os3]) rfl

/-- The state reached by `closeIfFull` when the open chunk is full: the file is closed and
the next chunk is to be opened. -/
theorem closeIfFull_full (w : SplitWriter) (os : OS) (fd : Str) (hfd : w.dfd = some fd)
    (hrem : w.remaining = 0) (hfl : os.faults = []) :
    w.closeIfFull os = ({ w with dfd := none }, none, os.next) := by
  simp [SplitWriter.closeIfFull, hfd, hrem, OS.Close, OS.failing_of_no_faults os hfl]

/-- With a positive chunk size and no failing system call, `Write` of `p` returns
`(len(p), nil)` within `len(p)` iterations and appends `p` to the chunks. -/
theorem writeLoop_ok (base : Str) (s : Nat) (W : Int) (F : List (Str × List Byte)) (hs : 0 < s) :
    ∀ (fuel : Nat) (p : List Byte) (w : SplitWriter) (os : OS) (cs : List (List Byte))
      (total : Nat), SplitInv base s W F w os cs → p.length ≤ fuel →
      ∃ w' os' cs', SplitWriter.writeLoop fuel w os p p.length total =
          some (w', (total + p.length, none), os') ∧
        SplitInv base s W F w' os' cs' ∧ cs'.flatten = cs.flatten ++ p := by
  intro fuel
  induction fuel with
  | zero =>
    intro p w os cs total hinv hp
    have : p = [] := List.length_eq_zero.mp (by omega)
    subst this
    exact ⟨w, os, cs, by simp [SplitWriter.writeLoop], hinv, by simp⟩
  | succ fuel ih =>
    intro p w os cs total hinv hp
    by_cases hp0 : p.length = 0
    · have : p = [] := List.length_eq_zero.mp hp0
      subst this
      exact ⟨w, os, cs, by simp [SplitWriter.writeLoop], hinv, by simp⟩
    have hpos : 0 < p.length := Nat.pos_of_ne_zero hp0
    -- the state after `closeIfFull`, when a new chunk has to be opened
    have newChunk : ∀ (w1 : SplitWriter) (os1 : OS),
        w.closeIfFull os = (w1, none, os1) →
        w1.Basepath = base → w1.SplitSize = s → w1.SuffixLength = W →
        w1.fileNo = cs.length → w1.dfd = none → os1.faults = [] →
        os1.files = F.filter (fun f => decide (f.1 ∉ chunkNames base W cs.length)) ++
          partsFrom base W 0 cs →
        (∀ c ∈ cs, c.length = s) →
        ∃ w' os' cs', SplitWriter.writeLoop (fuel + 1) w os p p.length total =
            some (w', (total + p.length, none), os') ∧
          SplitInv base s W F w' os' cs' ∧ cs'.flatten = cs.flatten ++ p := by
      intro w1 os1 hclose hB hS hW hno hfd hfl hfiles hfull
      by_cases hbig : s < p.length
      · obtain ⟨w2, os2, os3, hopen, hrem2, hwrite, hinv2⟩ :=
          write_new_file base s W F w1 os1 cs (p.take s) hB hS hW hno hfd hfl hfiles hfull
            (by simp only [List.length_take]; omega) (by simp)
        have hlen : (p.take s).length = s := by simp only [List.length_take]; omega
        have hstep := writeLoop_iter fuel w os p p.length total hpos w1 w2 os1 os2 os3
          (p.take s).length hclose hopen (by rw [hrem2, if_pos hbig]; exact hwrite)
        rw [hrem2, if_pos hbig, hlen] at hstep
        rw [hlen, hrem2] at hinv2
        obtain ⟨w', os', cs', h1, h2, h3⟩ := ih (p.drop s) _ os3 _ (total + s) hinv2
          (by simp only [List.length_drop]; omega)
        refine ⟨w', os', cs', ?_, h2, ?_⟩
        · rw [hstep, show p.length - s = (p.drop s).length by simp, h1]
          simp only [List.length_drop]
          rw [show total + s + (p.length - s) = total + p.length by omega]
        · rw [h3, List.flatten_append, List.append_assoc]
          simp
      · obtain ⟨w2, os2, os3, hopen, hrem2, hwrite, hinv2⟩ :=
          write_new_file base s W F w1 os1 cs p hB hS hW hno hfd hfl hfiles hfull
            hpos (by omega)
        have hstep := writeLoop_iter fuel w os p p.length total hpos w1 w2 os1 os2 os3
          p.length hclose hopen (by rw [hrem2, if_neg hbig]; exact hwrite)
        rw [hrem2, if_neg hbig, Nat.sub_self, writeLoop_zero_size] at hstep
        rw [hrem2] at hinv2
        exact ⟨_, os3, _, hstep, hinv2, by simp⟩
    cases hinv with
    | fresh hB hS hW hno hfd hfl hfiles =>
      refine newChunk w os ?_ hB hS hW hno hfd hfl ?_ (by simp)
      · simp [SplitWriter.closeIfFull, hfd]
      · simp [chunkNames, partsFrom, hfiles]
    | opened pre last hB hS hW hno hfd hrem hl1 hfull hfl hfiles =>
      by_cases hr : w.remaining = 0
      · refine newChunk { w with dfd := none } os.next
          (closeIfFull_full w os _ hfd hr hfl) hB hS hW (by simp [hno]) rfl
          (by simp [OS.next, hfl]) (by simpa [OS.next] using hfiles) ?_
        intro c hc
        rcases List.mem_append.mp hc with h | h
        · exact hfull c h
        · simp only [List.mem_singleton] at h
          subst h
          omega
      · have hclose : w.closeIfFull os = (w, none, os) := by
          simp [SplitWriter.closeIfFull, hfd, hr]
        have hopen : w.openIfNil os = (w, none, os) := by
          simp [SplitWriter.openIfNil, hfd]
        by_cases hbig : w.remaining < p.length
        · obtain ⟨os3, hwrite, hinv2⟩ :=
            write_open_file base s W F w os pre last (p.take w.remaining) hB hS hW hno hfd
              hrem hl1 hfull hfl hfiles (by simp)
          have hlen : (p.take w.remaining).length = w.remaining := by
            simp only [List.length_take]; omega
          have hstep := writeLoop_iter fuel w os p p.length total hpos w w os os os3
            (p.take w.remaining).length hclose hopen (by rw [if_pos hbig]; exact hwrite)
          rw [if_pos hbig, hlen] at hstep
          rw [hlen] at hinv2
          obtain ⟨w', os', cs', h1, h2, h3⟩ := ih (p.drop w.remaining) _ os3 _
            (total + w.remaining) hinv2 (by simp only [List.length_drop]; omega)
          refine ⟨w', os', cs', ?_, h2, ?_⟩
          · rw [hstep, show p.length - w.remaining = (p.drop w.remaining).length by simp, h1]
            simp only [List.length_drop]
            rw [show total + w.remaining + (p.length - w.remaining) = total + p.length by omega]
          · rw [h3]
            simp only [List.flatten_append, List.flatten_cons, List.flatten_nil,
              List.append_nil, List.append_assoc, List.take_append_drop]
        · obtain ⟨os3, hwrite, hinv2⟩ :=
            write_open_file base s W F w os pre last p hB hS hW hno hfd
              hrem hl1 hfull hfl hfiles (by omega)
          have hstep := writeLoop_iter fuel w os p p.length total hpos w w os os os3
            p.length hclose hopen (by rw [if_neg hbig]; exact hwrite)
          rw [if_neg hbig, Nat.sub_self, writeLoop_zero_size] at hstep
          exact ⟨_, os3, _, hstep, hinv2, by simp⟩

theorem flatten_length_of_full (s : Nat) (pre : List (List Byte))
    (h : ∀ c ∈ pre, c.length = s) : pre.flatten.length = pre.length * s := by
  induction pre with
  | nil => simp
  | cons c pre ih =>
    have h1 := h c (List.mem_cons_self _ _)
    have h2 := ih (fun d hd => h d (List.mem_cons_of_mem _ hd))
    simp only [List.flatten_cons, List.length_append, List.length_cons, h1, h2]
    rw [Nat.add_mul, Nat.one_mul, Nat.add_comm]

theorem chunk_count (s : Nat) (hs : 0 < s) (pre : List (List Byte)) (last : List Byte)
    (hfull : ∀ c ∈ pre, c.length = s) (h1 : 1 ≤ last.length) (h2 : last.length ≤ s) :
    (pre ++ [last]).length = ((pre ++ [last]).flatten.length + s - 1) / s := by
  have e : (pre ++ [last]).flatten.length + s - 1 = (last.length - 1) + (pre.length + 1) * s := by
    simp only [List.flatten_append, List.length_append, flatten_length_of_full s pre hfull,
      List.flatten_cons, List.flatten_nil, List.append_nil, Nat.add_mul, Nat.one_mul]
    omega
  rw [e, Nat.add_mul_div_right _ _ hs, Nat.div_eq_of_lt (by omega)]
  simp

/-- What the invariant says about the files on disk. -/
theorem SplitInv.summary {base : Str} {s : Nat} {W : Int} {F : List (Str × List Byte)}
    {w : SplitWriter} {os : OS} {cs : List (List Byte)} (hs : 0 < s)
    (h : SplitInv base s W F w os cs) :
    w.fileNo = cs.length ∧ os.faults = [] ∧
    os.files = F.filter (fun f => decide (f.1 ∉ chunkNames base W cs.length)) ++
      partsFrom base W 0 cs ∧
    (∀ c ∈ cs.dropLast, c.length = s) ∧ (∀ c ∈ cs, 1 ≤ c.length ∧ c.length ≤ s) ∧
    cs.length = (cs.flatten.length + s - 1) / s := by
  cases h with
  | fresh hB hS hW hno hfd hfl hfiles =>
    refine ⟨hno, hfl, by simp [chunkNames, partsFrom, hfiles], by simp, by simp, ?_⟩
    simp only [List.length_nil, List.flatten_nil, Nat.zero_add]
    exact (Nat.div_eq_of_lt (by omega)).symm
  | opened pre last hB hS hW hno hfd hrem hl1 hfull hfl hfiles =>
    refine ⟨by simp [hno], hfl, by simpa using hfiles, by simpa using hfull, ?_,
      chunk_count s hs pre last hfull hl1 (by omega)⟩
    intro c hc
    rcases List.mem_append.mp hc with hc | hc
    · have := hfull c hc
      omega
    · simp only [List.mem_singleton] at hc
      subst hc
      omega

/-- `Close` keeps the invariant's facts about the disk. -/
theorem SplitWriter.Close_ok (w : SplitWriter) (os : OS) (hfl : os.faults = []) :
    ∃ w' os', w.Close os = (w', none, os') ∧ w'.fileNo = w.fileNo ∧ os'.files = os.files ∧
      os'.dirs = os.dirs ∧ os'.faults = [] := by
  cases hfd : w.dfd with
  | none => exact ⟨w, os, by simp [SplitWriter.Close, hfd], rfl, rfl, rfl, hfl⟩
  | some fd =>
    exact ⟨{ w with remaining := 0 }, os.next,
      by simp [SplitWriter.Close, hfd, OS.Close, OS.failing_of_no_faults os hfl], rfl, rfl, rfl,
      by simp [OS.next, hfl]⟩

theorem writeAll_ok (base : Str) (s : Nat) (W : Int) (F : List (Str × List Byte)) (hs : 0 < s) :
    ∀ (bufs : List (List Byte)) (w : SplitWriter) (os : OS) (cs : List (List Byte)),
      SplitInv base s W F w os cs →
      ∃ w' os' cs', SplitWriter.writeAll w os bufs = some (w', none, os') ∧
        SplitInv base s W F w' os' cs' ∧ cs'.flatten = cs.flatten ++ bufs.flatten := by
  intro bufs
  induction bufs with
  | nil => intro w os cs h; exact ⟨w, os, cs, rfl, h, by simp⟩
  | cons p ps ih =>
    intro w os cs h
    obtain ⟨w1, os1, cs1, e1, h1, f1⟩ := writeLoop_ok base s W F hs p.length p w os cs 0 h
      (le_refl _)
    obtain ⟨w2, os2, cs2, e2, h2, f2⟩ := ih w1 os1 cs1 h1
    refine ⟨w2, os2, cs2, ?_, h2, ?_⟩
    · simp only [SplitWriter.writeAll, SplitWriter.Write, e1]
      exact e2
    · rw [f2, f1]; simp

theorem partsFrom_names (base : Str) (W : Int) (cs : List (List Byte)) :
    (partsFrom base W 0 cs).map Prod.fst = chunkNames base W cs.length := by
  rw [partsFrom_map_fst, chunkNames]
  apply List.map_congr_left
  intro i _
  rw [Nat.zero_add]

/-- A sequence of successful `Write` calls followed by `Close`, in terms of the chunk
contents `cs`. -/
theorem writeAllClose_ok (base : Str) (s : Nat) (W : Int) (hs : 0 < s) (os : OS)
    (hok : os.faults = []) (bufs : List (List Byte)) :
    ∃ (w' : SplitWriter) (os' : OS) (cs : List (List Byte)),
      SplitWriter.writeAllClose { Basepath := base, SplitSize := s, SuffixLength := W } os bufs
        = some (w', none, os') ∧
      w'.fileNo = cs.length ∧ os'.faults = [] ∧
      os'.files = os.files.filter (fun f => decide (f.1 ∉ chunkNames base W cs.length)) ++
        partsFrom base W 0 cs ∧
      cs.flatten = bufs.flatten ∧
      (∀ c ∈ cs.dropLast, c.length = s) ∧ (∀ c ∈ cs, 1 ≤ c.length ∧ c.length ≤ s) ∧
      cs.length = (bufs.flatten.length + s - 1) / s := by
  have h0 : SplitInv base s W os.files
      { Basepath := base, SplitSize := s, SuffixLength := W } os [] :=
    SplitInv.fresh _ _ rfl rfl rfl rfl rfl hok rfl
  obtain ⟨w1, os1, cs, e1, h1, f1⟩ := writeAll_ok base s W os.files hs bufs _ os [] h0
  obtain ⟨hno, hfl, hfiles, hfull, hsz, hcount⟩ := h1.summary hs
  obtain ⟨w2, os2, e2, hno2, hfiles2, hdirs2, hfl2⟩ := SplitWriter.Close_ok w1 os1 hfl
  simp only [List.flatten_nil, List.nil_append] at f1
  refine ⟨w2, os2, cs, ?_, by rw [hno2, hno], hfl2, by rw [hfiles2, hfiles], f1, hfull, hsz,
    by rw [← f1]; exact hcount⟩
  simp only [SplitWriter.writeAllClose, e1, e2]

theorem zeroPadded_eq_fmtZeroPad (W n : Nat) : zeroPadded W n = fmtZeroPad W n := rfl

theorem chunkName_zeroPadded (base : Str) (W : Int) (h0 : 0 ≤ W) (h6 : W ≤ 1000000) (i : Nat) :
    chunkName base W i = base ++ ".".data ++ zeroPadded W.toNat i := by
  have e : W = ((W.toNat : Nat) : Int) := (Int.toNat_of_nonneg h0).symm
  rw [zeroPadded_eq_fmtZeroPad]
  conv_lhs => rw [e]
  rw [chunkName_padded base W.toNat (by omega)]
  simp

theorem fmtNat_eq_toString (n : Nat) : fmtNat n = (toString n).data := rfl

/-- C1 (amended): for every chunk size `s > 0`, every suffix width `W` and every sequence
`bufs` of buffers passed to `Write` (no system call failing) followed by `Close`, with `n`
bytes in total: exactly `⌈n/s⌉ = (n + s - 1) / s` files are created (`fileNo`); they are
named `base + fmt.Sprintf(".%0[1]*d", W, index)` for the indices `0, 1, 2, ...` in creation
order, which for a width `0 ≤ W ≤ 1000000` is `base + "." + zero-padded index`, for a width
beyond one million in absolute value is `base + ".%!(BADWIDTH)" + index`, and for the other
negative widths is `base + "." + index` followed by spaces; their contents concatenate to
the bytes written, every file but the last holds exactly `s` bytes and every file holds
between `1` and `s` bytes; in particular no empty file is created and `n = 0` creates no
file. -/
theorem SplitWriter_chunk_files (base : Str) (s : Nat) (W : Int) (hs : 0 < s) (os : OS)
    (hok : os.faults = []) (bufs : List (List Byte)) :
    ∃ (w' : SplitWriter) (os' : OS) (parts : List (Str × List Byte)),
      SplitWriter.writeAllClose { Basepath := base, SplitSize := s, SuffixLength := W } os bufs
        = some (w', none, os') ∧
      w'.fileNo = (bufs.flatten.length + s - 1) / s ∧
      parts.map Prod.fst = (List.range ((bufs.flatten.length + s - 1) / s)).map
        (fun i => base ++ ".".data ++ fmtStarZeroD W i) ∧
      (0 ≤ W → W ≤ 1000000 →
        parts.map Prod.fst = (List.range ((bufs.flatten.length + s - 1) / s)).map
          (fun i => base ++ ".".data ++ zeroPadded W.toNat i)) ∧
      (1000000 < W ∨ W < -1000000 →
        parts.map Prod.fst = (List.range ((bufs.flatten.length + s - 1) / s)).map
          (fun i => base ++ ".%!(BADWIDTH)".data ++ (toString i).data)) ∧
      (-1000000 ≤ W → W < 0 →
        parts.map Prod.fst = (List.range ((bufs.flatten.length + s - 1) / s)).map
          (fun i => base ++ ".".data ++ (toString i).data ++
            List.replicate (W.natAbs - (toString i).length) ' ')) ∧
      os'.files = os.files.filter (fun f => decide (f.1 ∉ parts.map Prod.fst)) ++ parts ∧
      (parts.map Prod.snd).flatten = bufs.flatten ∧
      (∀ c ∈ (parts.map Prod.snd).dropLast, c.length = s) ∧
      (∀ c ∈ parts.map Prod.snd, 1 ≤ c.length ∧ c.length ≤ s) := by
  obtain ⟨w', os', cs, e, hno, _, hfiles, hflat, hfull, hsz, hcount⟩ :=
    writeAllClose_ok base s W hs os hok bufs
  refine ⟨w', os', partsFrom base W 0 cs, e, by rw [hno, hcount], ?_, ?_, ?_, ?_, ?_, ?_, ?_,
    ?_⟩
  · rw [partsFrom_names, hcount, chunkNames]
    apply List.map_congr_left
    intro i _
    simp [chunkName]
  · intro h0 h6
    rw [partsFrom_names, hcount, chunkNames]
    apply List.map_congr_left
    intro i _
    exact chunkName_zeroPadded base W h0 h6 i
  · intro hbad
    rw [partsFrom_names, hcount, chunkNames]
    apply List.map_congr_left
    intro i _
    rw [chunkName, fmtStarZeroD_bad_width W hbad, fmtNat_eq_toString]
    simp
  · intro hlo hneg
    rw [partsFrom_names, hcount, chunkNames]
    apply List.map_congr_left
    intro i _
    have h1 : ¬ (W > 1000000 ∨ W < -1000000) := by omega
    simp only [chunkName, fmtStarZeroD, h1, hneg, if_false, if_true, fmtNat_eq_toString,
      List.append_assoc]
    rfl
  · rw [partsFrom_names]; exact hfiles
  · rw [partsFrom_map_snd]; exact hflat
  · rw [partsFrom_map_snd]; exact hfull
  · rw [partsFrom_map_snd]; exact hsz

/-! ## File.Split and the concatenation of the parts -/

theorem lookup_filter_keep (f : Str) (P : Str × List Byte → Bool) :
    ∀ F : List (Str × List Byte), (∀ e ∈ F, e.1 = f → P e = true) →
      (F.filter P).lookup f = F.lookup f := by
  intro F
  induction F with
  | nil => intro _; rfl
  | cons e F ih =>
    intro h
    have ih2 := ih (fun e2 h2 => h e2 (List.mem_cons_of_mem _ h2))
    obtain ⟨k, v⟩ := e
    by_cases hk : f = k
    · subst hk
      have := h (f, v) (List.mem_cons_self _ _) rfl
      simp [List.filter_cons, this, List.lookup_cons]
    · have hb : (f == k) = false := by simpa using hk
      by_cases hp : P (k, v) = true
      · simp [List.filter_cons, hp, List.lookup_cons, hb, ih2]
      · simp [List.filter_cons, hp, List.lookup_cons, hb, ih2]

theorem lookup_append_none (f : Str) (B : List (Str × List Byte)) (hB : ∀ e ∈ B, e.1 ≠ f) :
    ∀ A : List (Str × List Byte), (A ++ B).lookup f = A.lookup f := by
  intro A
  induction A with
  | nil =>
    induction B with
    | nil => rfl
    | cons e B ih =>
      obtain ⟨k, v⟩ := e
      have hk : (f == k) = false := by
        have := hB (k, v) (List.mem_cons_self _ _)
        simpa using fun hc => this hc.symm
      simpa [List.lookup_cons, hk] using ih (fun e2 h2 => hB e2 (List.mem_cons_of_mem _ h2))
  | cons e A ih =>
    obtain ⟨k, v⟩ := e
    by_cases hk : f = k
    · subst hk; simp [List.lookup_cons]
    · have hb : (f == k) = false := by simpa using hk
      simp [List.lookup_cons, hb, ih]

theorem lookup_append_skip (f : Str) (B : List (Str × List Byte)) :
    ∀ A : List (Str × List Byte), (∀ e ∈ A, e.1 ≠ f) → (A ++ B).lookup f = B.lookup f := by
  intro A
  induction A with
  | nil => intro _; rfl
  | cons e A ih =>
    intro h
    obtain ⟨k, v⟩ := e
    have hk : (f == k) = false := by
      have := h (k, v) (List.mem_cons_self _ _)
      simpa using fun hc => this hc.symm
    simp [List.lookup_cons, hk, ih (fun e2 h2 => h e2 (List.mem_cons_of_mem _ h2))]

/-- A file that is not a chunk keeps its content while the writer runs. -/
theorem SplitInv.content_other {base : Str} {s : Nat} {W : Int} {F : List (Str × List Byte)}
    {w : SplitWriter} {os : OS} {cs : List (List Byte)} (hs : 0 < s)
    (h : SplitInv base s W F w os cs) (f : Str) (hf : ∀ i, f ≠ chunkName base W i) :
    os.content f = F.lookup f := by
  obtain ⟨_, _, hfiles, _⟩ := h.summary hs
  rw [OS.content, hfiles, lookup_append_none, lookup_filter_keep]
  · intro e _ he
    simp only [decide_eq_true_eq, mem_chunkNames, not_exists, not_and]
    intro i _ hc
    exact hf i (by rw [hc, he])
  · intro e he hc
    obtain ⟨i, _, _, h3⟩ := partsFrom_name base W cs 0 e he
    exact hf i (by rw [← hc, h3])

theorem take_take_length (n : Nat) (l : List Byte) : l.take (l.take n).length = l.take n := by
  rw [List.length_take]
  rcases Nat.le_total n l.length with h | h
  · rw [Nat.min_eq_left h]
  · rw [Nat.min_eq_right h, List.take_of_length_le h, List.take_of_length_le (le_refl _)]

theorem SplitInv.next {base : Str} {s : Nat} {W : Int} {F : List (Str × List Byte)}
    {w : SplitWriter} {os : OS} {cs : List (List Byte)}
    (h : SplitInv base s W F w os cs) : SplitInv base s W F w os.next cs := by
  cases h with
  | fresh hB hS hW hno hfd hfl hfiles =>
    exact SplitInv.fresh _ _ hB hS hW hno hfd (by simp [OS.next, hfl]) hfiles
  | opened pre last hB hS hW hno hfd hrem hl1 hfull hfl hfiles =>
    exact SplitInv.opened _ _ pre last hB hS hW hno hfd hrem hl1 hfull
      (by simp [OS.next, hfl]) hfiles

/-- With no failing system call, `io.Copy(split, sfd)` writes the whole source through the
writer. -/
theorem ioCopySplit_ok (base : Str) (s : Nat) (W : Int) (F : List (Str × List Byte)) (hs : 0 < s)
    (f : Str) (data : List Byte) (hF : F.lookup f = some data)
    (hf : ∀ i, f ≠ chunkName base W i) :
    ∀ (fuel off : Nat) (w : SplitWriter) (os : OS) (cs : List (List Byte)),
      SplitInv base s W F w os cs → cs.flatten = data.take off →
      data.length - off < fuel →
      ∃ w' os' cs', ioCopySplit fuel w f off os = some (w', none, os') ∧
        SplitInv base s W F w' os' cs' ∧ cs'.flatten = data := by
  intro fuel
  induction fuel with
  | zero => intro off w os cs _ _ h; omega
  | succ fuel ih =>
    intro off w os cs hinv hcs hfuel
    obtain ⟨_, hfl, _, _⟩ := hinv.summary hs
    have hread : os.Read f off copyBufSize =
        (.ok ((data.drop off).take copyBufSize), os.next) := by
      simp [OS.Read, OS.failing_of_no_faults os hfl, hinv.content_other hs f hf, hF]
    cases hbuf : (data.drop off).take copyBufSize with
    | nil =>
      have hd : data.drop off = [] := by
        cases hdo : data.drop off with
        | nil => rfl
        | cons a l => rw [hdo] at hbuf; simp [copyBufSize] at hbuf
      have hlen : data.length ≤ off := by simpa using hd
      refine ⟨w, os.next, cs, ?_, hinv.next, ?_⟩
      · simp [ioCopySplit, hread, hbuf]
      · rw [hcs, List.take_of_length_le hlen]
    | cons b bs =>
      obtain ⟨w1, os1, cs1, e1, h1, f1⟩ :=
        writeLoop_ok base s W F hs (b :: bs).length (b :: bs) w os.next cs 0 hinv.next
          (le_refl _)
      have hblen : (b :: bs).length ≤ data.length - off := by
        rw [← hbuf, List.length_take, List.length_drop]
        exact Nat.min_le_right _ _
      have hcs1 : cs1.flatten = data.take (off + (b :: bs).length) := by
        rw [f1, hcs, List.take_add, ← hbuf, take_take_length]
      obtain ⟨w2, os2, cs2, e2, h2, f2⟩ := ih (off + (b :: bs).length) w1 os1 cs1 h1 hcs1
        (by simp only [List.length_cons] at hblen ⊢; omega)
      refine ⟨w2, os2, cs2, ?_, h2, f2⟩
      simp only [ioCopySplit, hread, hbuf, SplitWriter.Write, e1, Nat.zero_add, ne_eq,
        not_true_eq_false, if_false]
      exact e2

theorem strLe_of_strLt (a b : Str) (h : strLt a b = true) : strLe a b = true := by
  simp [strLe, strLt_asymm a b h]

theorem chunkName_lt (base : Str) (W i j : Nat) (hW : W ≤ 1000000) (hij : i < j)
    (hj : j < 10 ^ W) : strLt (chunkName base W i) (chunkName base W j) = true := by
  rw [chunkName_padded base W hW, chunkName_padded base W hW, strLt_append_left,
    strLt_cons_same]
  exact fmtZeroPad_lt W i j hij hj

/-- Within capacity the chunk names are generated in increasing string order, so
`sort.Strings` leaves them in index order. -/
theorem sortStrings_chunkNames (base : Str) (W k : Nat) (hW : W ≤ 1000000)
    (hk : k ≤ 10 ^ W) : sortStrings (chunkNames base W k) = chunkNames base W k := by
  apply List.Sorted.insertionSort_eq
  unfold chunkNames List.Sorted
  rw [List.pairwise_map]
  refine List.Pairwise.imp_of_mem ?_ (List.pairwise_lt_range k)
  intro i j _ hj hij
  exact strLe_of_strLt _ _
    (chunkName_lt base W i j hW hij (lt_of_lt_of_le (List.mem_range.mp hj) hk))

theorem catFiles_parts (base : Str) (W : Int) (os : OS) :
    ∀ (cs : List (List Byte)) (a : Nat) (A : List (Str × List Byte)),
      os.files = A ++ partsFrom base W a cs →
      (∀ e ∈ A, ∀ i, a ≤ i → i < a + cs.length → e.1 ≠ chunkName base W i) →
      catFiles os ((List.range' a cs.length).map (chunkName base W)) = some cs.flatten := by
  intro cs
  induction cs with
  | nil => intro a A _ _; rfl
  | cons c cs ih =>
    intro a A hfiles hA
    have hc : os.content (chunkName base W a) = some c := by
      rw [OS.content, hfiles, lookup_append_skip _ _ A
        (fun e he => hA e he a (le_refl a) (by simp))]
      simp [partsFrom, List.lookup_cons]
    have hrest := ih (a + 1) (A ++ [(chunkName base W a, c)])
      (by rw [hfiles]; simp [partsFrom]) (by
        intro e he i hi hi2
        rcases List.mem_append.mp he with h | h
        · exact hA e h i (by omega) (by simp only [List.length_cons]; omega)
        · simp only [List.mem_singleton] at h
          subst h
          intro hc2
          have := chunkName_injective base W _ _ hc2
          omega)
    simp only [List.length_cons, List.range'_succ, List.map_cons, catFiles, hc, hrest,
      List.flatten_cons]

theorem OS.Close_files (os : OS) (fd : Str) : (os.Close fd).2.files = os.files := by
  unfold OS.Close
  split <;> rfl

theorem SplitWriter.Close_keeps_files (w : SplitWriter) (os : OS) :
    (w.Close os).2.2.files = os.files := by
  unfold SplitWriter.Close
  split
  · simp only [OS.Close_files]
  · rfl

theorem splitDeferred_files (w : SplitWriter) (sfd : Option Str) (os : OS) :
    (splitDeferred w sfd os).files = os.files := by
  unfold splitDeferred
  rw [SplitWriter.Close_keeps_files]
  cases sfd with
  | none => rfl
  | some fd => exact OS.Close_files os fd

/-- A path whose last character is not a digit is not a chunk name. -/
theorem ne_chunkName_of_getLast (f : Str) (c : Char) (hc : f.getLast? = some c)
    (hd : c.isDigit = false) (base : Str) (W i : Nat) : f ≠ chunkName base W i := by
  intro h
  obtain ⟨init, d, hpad, hdig⟩ := fmtStarZeroD_ends_in_digit (W : Int) (by omega) i
  have hl : f.getLast? = some d := by
    rw [h, chunkName, hpad, ← List.cons_append, ← List.append_assoc, List.getLast?_concat]
  rw [hc] at hl
  rw [Option.some.inj hl, hdig] at hd
  cases hd

/-- Round trip away from the source.  For every content `data` of the file `f`, every chunk
size `s > 0` and every suffix width `W ≤ 1000000` with `⌈len/s⌉ ≤ 10 ^ W`, when no system
call fails and `f` is not itself one of the chunk names: `File.Split` returns `nil`; the
files it produced are the `⌈len/s⌉` chunks, all of `s` bytes but the last; these names are
already in sorted order; and concatenating the produced files in sorted filename order
gives back `data`. -/
theorem File_Split_roundtrip (f basepath : Str) (data : List Byte) (s W : Nat) (os : OS)
    (hs : 0 < s) (hW : W ≤ 1000000) (hcap : (data.length + s - 1) / s ≤ 10 ^ W)
    (hok : os.faults = []) (hsrc : os.content f = some data)
    (hne : ∀ i, f ≠ chunkName (if basepath = [] then TrimSuffix f (Ext f) else basepath) W i) :
    ∃ (os' : OS) (parts : List (Str × List Byte)),
      File.Split f basepath s W os = some (none, os') ∧
      parts.map Prod.fst =
        chunkNames (if basepath = [] then TrimSuffix f (Ext f) else basepath) W
          ((data.length + s - 1) / s) ∧
      os'.files = os.files.filter (fun e => decide (e.1 ∉ parts.map Prod.fst)) ++ parts ∧
      (∀ c ∈ (parts.map Prod.snd).dropLast, c.length = s) ∧
      (∀ c ∈ parts.map Prod.snd, 1 ≤ c.length ∧ c.length ≤ s) ∧
      sortStrings (parts.map Prod.fst) = parts.map Prod.fst ∧
      catFiles os' (sortStrings (parts.map Prod.fst)) = some data := by
  generalize hbase : (if basepath = [] then TrimSuffix f (Ext f) else basepath) = base at hne ⊢
  have hopen : os.Open f = (.ok f, os.next) := by
    simp [OS.Open, OS.failing_of_no_faults os hok, hsrc]
  have hcont : os.next.content f = some data := hsrc
  have h0 : SplitInv base s W os.files
      { Basepath := base, SplitSize := s, SuffixLength := W } os.next [] :=
    SplitInv.fresh _ _ rfl rfl rfl rfl rfl (by simp [OS.next, hok]) rfl
  obtain ⟨w1, os1, cs, e1, h1, f1⟩ := ioCopySplit_ok base s W os.files hs f data hsrc hne
    (data.length + 1) 0 _ os.next [] h0 (by simp) (by omega)
  obtain ⟨hno, hfl, hfiles, hfull, hsz, hcount⟩ := h1.summary hs
  obtain ⟨w2, os2, e2, hno2, hfiles2, hdirs2, hfl2⟩ := SplitWriter.Close_ok w1 os1 hfl
  rw [f1] at hcount
  have hfinal : (splitDeferred w2 (some f) os2).files =
      os.files.filter (fun e => decide (e.1 ∉ chunkNames base W cs.length)) ++
        partsFrom base W 0 cs := by
    rw [splitDeferred_files, hfiles2, hfiles]
  refine ⟨splitDeferred w2 (some f) os2, partsFrom base W 0 cs, ?_, ?_, ?_, ?_, ?_, ?_, ?_⟩
  · simp only [File.Split, hbase, hopen, hcont, e1, e2]
  · rw [partsFrom_names, hcount]
  · rw [partsFrom_names]; exact hfinal
  · rw [partsFrom_map_snd]; exact hfull
  · rw [partsFrom_map_snd]; exact hsz
  · rw [partsFrom_names]
    exact sortStrings_chunkNames base W _ hW (by rw [hcount]; exact hcap)
  · rw [partsFrom_names, sortStrings_chunkNames base W _ hW (by rw [hcount]; exact hcap),
      chunkNames, List.range_eq_range']
    rw [catFiles_parts base W _ cs 0 _ hfinal, f1]
    intro e he i _ hi hc
    have := of_decide_eq_true (List.mem_filter.mp he).2
    simp only [mem_chunkNames, not_exists, not_and] at this
    exact this i (by omega) hc.symm

/-- Witness of C1 (amended): 90 bytes written in two calls with chunk size 30 and width 2
give three files named `db.00`, `db.01`, `db.02`. -/
theorem SplitWriter_chunk_files_witness :
    ∃ (w' : SplitWriter) (os' : OS) (parts : List (Str × List Byte)),
      SplitWriter.writeAllClose { Basepath := "db".data, SplitSize := 30, SuffixLength := 2 }
        emptyOS [sampleBytes 50, sampleBytes 40] = some (w', none, os') ∧
      w'.fileNo = 3 ∧
      parts.map Prod.fst = ["db.00".data, "db.01".data, "db.02".data] ∧
      os'.files = emptyOS.files.filter (fun f => decide (f.1 ∉ parts.map Prod.fst)) ++ parts ∧
      (parts.map Prod.snd).flatten = [sampleBytes 50, sampleBytes 40].flatten ∧
      (∀ c ∈ (parts.map Prod.snd).dropLast, c.length = 30) ∧
      (∀ c ∈ parts.map Prod.snd, 1 ≤ c.length ∧ c.length ≤ 30) := by
  obtain ⟨w', os', parts, e, hno, _, hpad, _, _, hfiles, hflat, hfull, hsz⟩ :=
    SplitWriter_chunk_files "db".data 30 2 (by decide) emptyOS rfl
      [sampleBytes 50, sampleBytes 40]
  exact ⟨w', os', parts, e, hno, hpad (by decide) (by decide), hfiles, hflat, hfull, hsz⟩

/-- C1 (counterexample): with the suffix width 1000001, which `fmt` refuses, 50 bytes
written with chunk size 30 go to two files named `db.%!(BADWIDTH)0` and `db.%!(BADWIDTH)1`;
the first is not `db.` followed by the index 0 padded with zeros to 1000001 characters. -/
theorem SplitWriter_width_beyond_fmt_limit :
    (SplitWriter.writeAllClose
        { Basepath := "db".data, SplitSize := 30, SuffixLength := 1000001 }
        emptyOS [sampleBytes 50]).map (fun r => (r.1.fileNo, r.2.1, r.2.2.files.map Prod.fst)) =
      some (2, none, ["db.%!(BADWIDTH)0".data, "db.%!(BADWIDTH)1".data]) ∧
    "db.%!(BADWIDTH)0".data ≠ "db".data ++ ".".data ++ zeroPadded 1000001 0 := by
  constructor
  · decide
  · intro h
    have hl := congrArg List.length h
    have h1 : (toString (0 : Nat)).length = 1 := rfl
    have h2 : (toString (0 : Nat)).data.length = 1 := rfl
    simp only [zeroPadded, List.length_append, List.length_replicate, h1, h2] at hl
    revert hl
    decide

/-- The example of the specification for C1: 90 bytes with chunk size 30 give exactly the
three files `db.00`, `db.01`, `db.02` of 30 bytes, and no byte gives no file. -/
theorem SplitWriter_example_90 :
    (SplitWriter.writeAllClose { Basepath := "db".data, SplitSize := 30, SuffixLength := 2 }
        emptyOS [sampleBytes 90]).map (fun r => (r.1.fileNo, r.2.1, r.2.2.files)) =
      some (3, none, [("db.00".data, (sampleBytes 90).take 30),
        ("db.01".data, ((sampleBytes 90).drop 30).take 30),
        ("db.02".data, (sampleBytes 90).drop 60)]) ∧
    (SplitWriter.writeAllClose { Basepath := "db".data, SplitSize := 30, SuffixLength := 2 }
        emptyOS [[], []]).map (fun r => (r.1.fileNo, r.2.1, r.2.2.files)) =
      some (0, none, []) := by
  constructor <;> decide

/-- The example of the specification for C2: 100 bytes with chunk size 30 and suffix width 2
give the parts `db.00`, `db.01`, `db.02`, `db.03` of 30, 30, 30 and 10 bytes, whose
concatenation in sorted name order is the original content. -/
theorem File_Split_example_100 :
    (File.Split "db.sql".data [] 30 2 sampleOS).map
        (fun r => (r.1, r.2.files.map (fun e => (e.1, e.2.length)),
          catFiles r.2 (sortStrings ["db.03".data, "db.01".data, "db.00".data, "db.02".data]))) =
      some (none,
        [("db.sql".data, 100), ("db.00".data, 30), ("db.01".data, 30), ("db.02".data, 30),
          ("db.03".data, 10)],
        some (sampleBytes 100)) := by
  decide

/-! ## psql.go: paths and argument vectors -/

/-- An instance of the commands built by `PSQL`: directory `/b`, database `shop`, 4 jobs. -/
theorem PSQL_commands_example :
    (PSQL.Backup ⟨"/b".data, 4, .Nil⟩ "shop".data .Directory []).1 =
      ("/b/shop.backup".data,
        ⟨"pg_dump".data,
          ["-Fd".data, "-j".data, "4".data, "-f".data, "/b/shop.backup".data, "shop".data]⟩) ∧
    (PSQL.Restore ⟨"/b".data, 4, .Nil⟩ "shop".data .Script []).1 =
      ⟨"psql".data, ["-d".data, "shop".data, "-f".data, "/b/shop.sql".data]⟩ := by
  decide

/-! ## file.go: the path of the digest -/

/-- C5 (evaluation of the code): for the database name `my.sqldata` in the directory `/b`
the script artifact is `/b/my.sqldata.sql`; `File.SHA512` replaces the first occurrence of
the extension `.sql` in the whole path and writes the digest to `/b/my.sha512data.sql`,
whereas replacing the final extension gives `/b/my.sqldata.sha512`, the path `DB.Chunk`
reads (`basename + ".sha512"`).  For the name `shop` the two paths agree. -/
theorem SHA512_digest_path_first_occurrence (env : Env) :
    (PSQL.Backup ⟨"/b".data, 1, .Nil⟩ "my.sqldata".data .Script []).1.1 =
      "/b/my.sqldata.sql".data ∧
    hfile "/b/my.sqldata.sql".data = "/b/my.sha512data.sql".data ∧
    TrimSuffix "/b/my.sqldata.sql".data ".sql".data ++ ".sha512".data =
      "/b/my.sqldata.sha512".data ∧
    (File.SHA512 env "/b/my.sqldata.sql".data
        { files := [("/b/my.sqldata.sql".data, sampleBytes 100)], dirs := ["/b".data],
          calls := 0, faults := [] }).1 = none ∧
    (File.SHA512 env "/b/my.sqldata.sql".data
        { files := [("/b/my.sqldata.sql".data, sampleBytes 100)], dirs := ["/b".data],
          calls := 0, faults := [] }).2.files =
      [("/b/my.sqldata.sql".data, sampleBytes 100),
        ("/b/my.sha512data.sql".data, env.sha512Hex (sampleBytes 100))] ∧
    hfile "/b/shop.sql".data = "/b/shop.sha512".data := by
  refine ⟨by decide, by decide, by decide, ?_, ?_, by decide⟩
  · rfl
  · rfl

/-! ## db.go: Restore -/

theorem Create_ne_Drop (p : PSQL) (db : Str) (l1 l2 : List LogEntry) :
    (p.Create db l1).1 ≠ (p.Drop db l2).1 := by
  intro h
  simp [PSQL.Create, PSQL.Drop] at h

theorem Restore_ne_Drop (p : PSQL) (db : Str) (format : Format) (l1 l2 : List LogEntry) :
    (p.Restore db format l1).1 ≠ (p.Drop db l2).1 := by
  intro h
  cases format <;> simp [PSQL.Restore, PSQL.Drop] at h

theorem PSQL.Drop_cmd (p : PSQL) (db : Str) (l1 l2 : List LogEntry) :
    (p.Drop db l1).1 = (p.Drop db l2).1 := rfl

theorem PSQL.Create_cmd (p : PSQL) (db : Str) (l1 l2 : List LogEntry) :
    (p.Create db l1).1 = (p.Create db l2).1 := rfl

theorem DB.LogOutput_os (env : Env) (db : DB) (out : Str) (w : World) :
    (db.LogOutput env out w).os = w.os := by
  simp only [DB.LogOutput]
  split <;> rfl

theorem DB.LogOutput_ran (env : Env) (db : DB) (out : Str) (w : World) :
    (db.LogOutput env out w).ran = w.ran := by
  simp only [DB.LogOutput]
  split <;> rfl

theorem foldl_warningf_os (db : DB) (f : Str → Str) (lines : List Str) :
    ∀ w : World, (lines.foldl (fun acc line => db.warningf (f line) acc) w).os = w.os := by
  induction lines with
  | nil => intro w; rfl
  | cons l ls ih => intro w; simp only [List.foldl_cons, ih]; rfl

theorem foldl_warningf_ran (db : DB) (f : Str → Str) (lines : List Str) :
    ∀ w : World, (lines.foldl (fun acc line => db.warningf (f line) acc) w).ran = w.ran := by
  induction lines with
  | nil => intro w; rfl
  | cons l ls ih => intro w; simp only [List.foldl_cons, ih]; rfl

/-- The part of `DB.Restore` after the drop step, in an environment where the drop command
is forced to fail, behaves as in the original environment. -/
theorem createAndRestore_forceFail (env : Env) (db : DB) (format : Format) (e : Err)
    (w2 w2' : World) (l : List LogEntry) (hos : w2'.os = w2.os) (hran : w2'.ran = w2.ran) :
    (db.createAndRestore (env.forceFail (db.PSQL.Drop db.DBName l).1 e) format w2').1 =
      (db.createAndRestore env format w2).1 ∧
    (db.createAndRestore (env.forceFail (db.PSQL.Drop db.DBName l).1 e) format w2').2.ran =
      (db.createAndRestore env format w2).2.ran ∧
    (db.createAndRestore (env.forceFail (db.PSQL.Drop db.DBName l).1 e) format w2').2.os =
      (db.createAndRestore env format w2).2.os := by
  obtain ⟨cc, hcc⟩ : ∃ cc, ∀ l1, (db.PSQL.Create db.DBName l1).1 = cc := ⟨_, fun _ => rfl⟩
  obtain ⟨rc, hrr⟩ : ∃ rc, ∀ l1, (db.PSQL.Restore db.DBName format l1).1 = rc :=
    ⟨(db.PSQL.Restore db.DBName format []).1, fun l1 => by cases format <;> rfl⟩
  have hc : (cc = (db.PSQL.Drop db.DBName l).1) = False := by
    rw [← hcc []]; exact eq_false (Create_ne_Drop _ _ _ _)
  have hr : (rc = (db.PSQL.Drop db.DBName l).1) = False := by
    rw [← hrr []]; exact eq_false (Restore_ne_Drop _ _ _ _ _)
  simp only [DB.createAndRestore, World.exec, Env.forceFail, hcc, hrr, hc, hr, if_false, hos,
    hran]
  cases (env.run cc w2.os).1.err with
  | some err => simp [DB.LogOutput_os, DB.LogOutput_ran]
  | none =>
    simp only [DB.LogOutput_os, DB.LogOutput_ran]
    by_cases hf : format = Format.Script
    · simp only [hf, if_true]
      cases (env.run cc w2.os).2.StderrPipe with
      | mk pe os5 =>
        cases pe with
        | some err => simp
        | none =>
          simp only []
          cases (env.run rc os5).1.err with
          | some err => simp [DB.LogOutput_os, DB.LogOutput_ran, foldl_warningf_os,
              foldl_warningf_ran]
          | none => simp [foldl_warningf_os, foldl_warningf_ran]
    · simp only [hf, if_false]
      cases (env.run rc (env.run cc w2.os).2).1.err with
      | some err => simp [DB.LogOutput_os, DB.LogOutput_ran]
      | none => simp [DB.LogOutput_os, DB.LogOutput_ran]

theorem dropStep_os (env : Env) (db : DB) (w : World) :
    (db.dropStep env w).os = (env.run (db.PSQL.Drop db.DBName w.log).1 w.os).2 := by
  simp only [DB.dropStep, DB.LogOutput_os, World.exec]
  split <;> rfl

theorem dropStep_ran (env : Env) (db : DB) (w : World) :
    (db.dropStep env w).ran = w.ran ++ [(db.PSQL.Drop db.DBName w.log).1] := by
  simp only [DB.dropStep, DB.LogOutput_ran, World.exec]
  split <;> rfl

theorem forceFail_run_self (env : Env) (cmd : Cmd) (e : Err) (os : OS) :
    ((env.forceFail cmd e).run cmd os).2 = (env.run cmd os).2 := by
  simp [Env.forceFail]

/-- The commands run by the part of `DB.Restore` after the drop step begin with the create
command, and nothing else is run when it fails. -/
theorem createAndRestore_ran (env : Env) (db : DB) (format : Format) (w2 : World) :
    (∃ rest, (db.createAndRestore env format w2).2.ran =
      w2.ran ++ [(db.PSQL.Create db.DBName w2.log).1] ++ rest) ∧
    (∀ err, (env.run (db.PSQL.Create db.DBName w2.log).1 w2.os).1.err = some err →
      (db.createAndRestore env format w2).1 = some err ∧
      (db.createAndRestore env format w2).2.ran =
        w2.ran ++ [(db.PSQL.Create db.DBName w2.log).1]) ∧
    ((env.run (db.PSQL.Create db.DBName w2.log).1 w2.os).1.err = none →
      (format = .Script →
        (env.run (db.PSQL.Create db.DBName w2.log).1 w2.os).2.StderrPipe.1 = none) →
      (db.createAndRestore env format w2).2.ran =
        w2.ran ++ [(db.PSQL.Create db.DBName w2.log).1,
          (db.PSQL.Restore db.DBName format w2.log).1]) := by
  refine ⟨?_, ?_, ?_⟩
  · simp only [DB.createAndRestore, World.exec]
    cases (env.run (db.PSQL.Create db.DBName w2.log).1 w2.os).1.err with
    | some err => exact ⟨[], by simp [DB.LogOutput_ran]⟩
    | none =>
      simp only [DB.LogOutput_os, DB.LogOutput_ran]
      by_cases hf : format = Format.Script
      · simp only [hf, if_true]
        cases (env.run (db.PSQL.Create db.DBName w2.log).1 w2.os).2.StderrPipe with
        | mk pe os5 =>
          cases pe with
          | some err => exact ⟨[], by simp⟩
          | none =>
            simp only []
            split
            · exact ⟨_, by simp only [DB.LogOutput_ran, foldl_warningf_ran]; rfl⟩
            · exact ⟨_, by simp only [foldl_warningf_ran]; rfl⟩
      · simp only [hf, if_false]
        split
        · exact ⟨_, by simp only [DB.LogOutput_ran]; rfl⟩
        · exact ⟨_, by simp only [DB.LogOutput_ran]; rfl⟩
  · intro err herr
    simp only [DB.createAndRestore, World.exec, herr, DB.LogOutput_ran, and_self]
  · intro hcreate hpipe
    have hrr : ∀ l1, (db.PSQL.Restore db.DBName format l1).1 =
        (db.PSQL.Restore db.DBName format w2.log).1 := by
      intro l1; cases format <;> rfl
    simp only [DB.createAndRestore, World.exec, hcreate, DB.LogOutput_os, DB.LogOutput_ran]
    by_cases hf : format = Format.Script
    · have hp := hpipe hf
      simp only [hf, if_true] at hp ⊢
      cases hsp : (env.run (db.PSQL.Create db.DBName w2.log).1 w2.os).2.StderrPipe with
      | mk pe os5 =>
        rw [hsp] at hp
        simp only [] at hp
        subst hp
        simp only []
        split
        · simp only [DB.LogOutput_ran, foldl_warningf_ran, List.append_assoc,
            List.singleton_append]
          rfl
        · simp only [foldl_warningf_ran, List.append_assoc, List.singleton_append]
          rfl
    · simp only [hf, if_false]
      split
      · simp only [DB.LogOutput_ran, List.append_assoc, List.singleton_append]
        rw [hrr]
      · simp only [DB.LogOutput_ran, List.append_assoc, List.singleton_append]
        rw [hrr]

/-- C9: in `DB.Restore`, for every database and format, (1) forcing the drop-database
command to fail changes neither the error that `Restore` returns, nor the commands it
runs, nor the state of the system it leaves; (2) the create-database command is always run
right after the drop command; (3) when the create-database command fails, `Restore` returns
that error and the commands run are exactly the drop and the create command: the restore
tool is never invoked; (4) when the create-database command succeeds (and, for the Script
format, the pipe for standard error can be opened) the restore tool is run next, whatever
the drop command returned. -/
theorem Restore_drop_best_effort_create_fatal (env : Env) (db : DB) (format : Format)
    (w : World) :
    (∀ e : Err,
      (db.Restore (env.forceFail (db.PSQL.Drop db.DBName w.log).1 e) format w).1 =
        (db.Restore env format w).1 ∧
      (db.Restore (env.forceFail (db.PSQL.Drop db.DBName w.log).1 e) format w).2.ran =
        (db.Restore env format w).2.ran ∧
      (db.Restore (env.forceFail (db.PSQL.Drop db.DBName w.log).1 e) format w).2.os =
        (db.Restore env format w).2.os) ∧
    (∃ rest, (db.Restore env format w).2.ran =
      w.ran ++ [(db.PSQL.Drop db.DBName w.log).1, (db.PSQL.Create db.DBName w.log).1] ++ rest) ∧
    (∀ err,
      (env.run (db.PSQL.Create db.DBName w.log).1
          (env.run (db.PSQL.Drop db.DBName w.log).1 w.os).2).1.err = some err →
      (db.Restore env format w).1 = some err ∧
      (db.Restore env format w).2.ran =
        w.ran ++ [(db.PSQL.Drop db.DBName w.log).1, (db.PSQL.Create db.DBName w.log).1]) ∧
    ((env.run (db.PSQL.Create db.DBName w.log).1
          (env.run (db.PSQL.Drop db.DBName w.log).1 w.os).2).1.err = none →
      (format = .Script →
        (env.run (db.PSQL.Create db.DBName w.log).1
          (env.run (db.PSQL.Drop db.DBName w.log).1 w.os).2).2.StderrPipe.1 = none) →
      (db.Restore env format w).2.ran =
        w.ran ++ [(db.PSQL.Drop db.DBName w.log).1, (db.PSQL.Create db.DBName w.log).1,
          (db.PSQL.Restore db.DBName format w.log).1]) := by
  refine ⟨?_, ?_, ?_, ?_⟩
  · intro e
    exact createAndRestore_forceFail env db format e (db.dropStep env w) _ w.log
      (by rw [dropStep_os, dropStep_os, forceFail_run_self])
      (by rw [dropStep_ran, dropStep_ran])
  · obtain ⟨rest, h⟩ := (createAndRestore_ran env db format (db.dropStep env w)).1
    refine ⟨rest, ?_⟩
    rw [DB.Restore, h, dropStep_ran]
    simp only [List.append_assoc, List.singleton_append]
    rfl
  · intro err herr
    have h := (createAndRestore_ran env db format (db.dropStep env w)).2.1 err
      (by rw [dropStep_os]; exact herr)
    refine ⟨h.1, ?_⟩
    rw [DB.Restore, h.2, dropStep_ran]
    simp only [List.append_assoc, List.singleton_append]
    rfl
  · intro hcreate hpipe
    have h := (createAndRestore_ran env db format (db.dropStep env w)).2.2
      (by rw [dropStep_os]; exact hcreate)
      (by intro hf; rw [dropStep_os]; exact hpipe hf)
    rw [DB.Restore, h, dropStep_ran]
    simp only [List.append_assoc, List.singleton_append]
    cases format <;> rfl

/-- Witness of C9: the database `shop`, directory format, with the create-database command
failing: `Restore` returns its error and runs the drop and the create command only. -/
theorem Restore_drop_best_effort_create_fatal_witness :
    (DB.Restore (sampleEnv.forceFail (sampleDB.PSQL.Create sampleDB.DBName []).1 (.exitStatus 2))
        sampleDB .Directory (sampleWorld [])).1 = some (.exitStatus 2) ∧
    (DB.Restore (sampleEnv.forceFail (sampleDB.PSQL.Create sampleDB.DBName []).1 (.exitStatus 2))
        sampleDB .Directory (sampleWorld [])).2.ran =
      (sampleWorld []).ran ++ [(sampleDB.PSQL.Drop sampleDB.DBName (sampleWorld []).log).1,
        (sampleDB.PSQL.Create sampleDB.DBName (sampleWorld []).log).1] :=
  (Restore_drop_best_effort_create_fatal
    (sampleEnv.forceFail (sampleDB.PSQL.Create sampleDB.DBName []).1 (.exitStatus 2))
    sampleDB .Directory (sampleWorld [])).2.2.1 (.exitStatus 2) (by decide)

/-! ## db.go and app.go: backup jobs and the digest -/

/-- `DB.Backup` returns what its dump phase returns, whatever `File.SHA512` does. -/
theorem Backup_result_eq_dumpPhase (env : Env) (db : DB) (format : Format) (w : World) :
    (db.Backup env format w).1 = (db.dumpPhase env format w).1 := by
  unfold DB.Backup
  cases db.dumpPhase env format w with
  | mk r w2 =>
    cases r with
    | mk dst err =>
      cases err with
      | some e => rfl
      | none =>
        by_cases hf : format = Format.Script
        · simp only [hf, if_true]
          split <;> rfl
        · simp only [hf, if_false]

/-- C8 (counterexample): the script backup of `shop` with split size 30.  With no failing
system call the job is Finished.  When system call number 3, the `os.Create` of the digest
file in `File.SHA512`, fails, the dump tool has still exited successfully and `DB.Backup`
still returns a nil error, the four chunk parts are written, but `DB.Chunk` fails on the
missing digest file and the job is reported failed (`Split shop failed`). -/
theorem backup_job_fails_when_digest_fails :
    (sampleApp.backupOne sampleEnv "shop".data (sampleWorld [])).map Prod.fst =
      some .finished ∧
    (DB.dumpPhase sampleEnv sampleDB .Script (sampleWorld [3])).1 =
      ("/b/shop.sql".data, none) ∧
    (File.SHA512 sampleEnv "/b/shop.sql".data
      (DB.dumpPhase sampleEnv sampleDB .Script (sampleWorld [3])).2.os).1 = some (.io 3) ∧
    (DB.Backup sampleEnv sampleDB .Script (sampleWorld [3])).1 = ("/b/shop.sql".data, none) ∧
    (sampleApp.backupOne sampleEnv "shop".data (sampleWorld [3])).map
        (fun r => (r.1, r.2.os.files.map (fun f => (f.1, f.2.length)), r.2.log.getLast?)) =
      some (.failed,
        [("/b/shop.chunk/shop.000000000".data, 30), ("/b/shop.chunk/shop.000000001".data, 30),
          ("/b/shop.chunk/shop.000000002".data, 30), ("/b/shop.chunk/shop.000000003".data, 10)],
        some ⟨.warning,
          "Split shop failed: open /b/shop.sha512: no such file or directory".data⟩) := by
  decide

/-- C8 (amended): digest failure isolation.  (1) `DB.Backup` returns exactly what its dump
phase returns, so a nil error whenever the dump tool exits successfully, whatever
`File.SHA512` returns.  (2) When no split applies (the format is not Script or the split
size is not positive) and the dump phase succeeds, the job of `ExecBackup` is reported
Finished.  (3) When the format is Script with a positive split size and the dump phase
succeeds, the job is reported Finished exactly when `DB.Chunk` returns nil, and failed when
`DB.Chunk` returns an error; copying the digest file is one of the steps of `DB.Chunk`. -/
theorem Backup_digest_isolation (env : Env) (app : App) (dbname : Str) (w : World) :
    (∀ (format : Format) (w0 : World),
      (DB.Backup env ⟨dbname, app.PSQL⟩ format w0).1 =
        (DB.dumpPhase env ⟨dbname, app.PSQL⟩ format w0).1) ∧
    ((DB.dumpPhase env ⟨dbname, app.PSQL⟩ app.Format
          (w.infof ("Starting ".data ++ dbname ++ "...".data))).1.2 = none →
      ¬ (app.Format = .Script ∧ app.SplitSize > 0) →
      ∃ w', app.backupOne env dbname w = some (.finished, w') ∧
        w'.log.getLast? = some ⟨.info, "Finished ".data ++ dbname⟩) ∧
    ((DB.dumpPhase env ⟨dbname, app.PSQL⟩ app.Format
          (w.infof ("Starting ".data ++ dbname ++ "...".data))).1.2 = none →
      app.Format = .Script → app.SplitSize > 0 →
      (app.backupOne env dbname w).map Prod.fst =
        (DB.Chunk ⟨dbname, app.PSQL⟩
          (DB.Backup env ⟨dbname, app.PSQL⟩ app.Format
            (w.infof ("Starting ".data ++ dbname ++ "...".data))).1.1
          app.SplitSize.toNat
          (DB.Backup env ⟨dbname, app.PSQL⟩ app.Format
            (w.infof ("Starting ".data ++ dbname ++ "...".data))).2.os).map
          (fun r => if r.1 = none then JobOutcome.finished else JobOutcome.failed)) := by
  refine ⟨fun format w0 => Backup_result_eq_dumpPhase env _ format w0, ?_, ?_⟩
  · intro hdump hns
    have hB := Backup_result_eq_dumpPhase env ⟨dbname, app.PSQL⟩ app.Format
      (w.infof ("Starting ".data ++ dbname ++ "...".data))
    cases hr : DB.Backup env ⟨dbname, app.PSQL⟩ app.Format
        (w.infof ("Starting ".data ++ dbname ++ "...".data)) with
    | mk r w2 =>
      cases r with
      | mk dst err =>
        rw [hr] at hB
        have herr : err = none := by
          have := congrArg Prod.snd hB
          simp only [] at this
          rw [this, hdump]
        subst herr
        refine ⟨w2.infof ("Finished ".data ++ dbname), ?_, ?_⟩
        · simp only [App.backupOne, hr, hns, if_false]
        · simp [World.infof, Logger.logf]
  · intro hdump hfmt hsz
    obtain ⟨F, S, B, J, P⟩ := app
    simp only [] at hfmt hsz hdump ⊢
    subst hfmt
    have hB := Backup_result_eq_dumpPhase env ⟨dbname, P⟩ Format.Script
      (w.infof ("Starting ".data ++ dbname ++ "...".data))
    cases hr : DB.Backup env ⟨dbname, P⟩ Format.Script
        (w.infof ("Starting ".data ++ dbname ++ "...".data)) with
    | mk r w2 =>
      cases r with
      | mk dst err =>
        rw [hr] at hB
        have herr : err = none := by
          have := congrArg Prod.snd hB
          simp only [] at this
          rw [this, hdump]
        subst herr
        simp only [App.backupOne, hr, hsz, and_self, if_true]
        cases DB.Chunk ⟨dbname, P⟩ dst S.toNat w2.os with
        | none => rfl
        | some c =>
          cases c with
          | mk e os3 =>
            cases e with
            | none => rfl
            | some e => rfl

/-- Witness of C8 (amended): the script backup of `shop` with split size 30 and no failing
system call is reported as `DB.Chunk` decides, here Finished. -/
theorem Backup_digest_isolation_witness :
    (sampleApp.backupOne sampleEnv "shop".data (sampleWorld [])).map Prod.fst =
      (DB.Chunk ⟨"shop".data, sampleApp.PSQL⟩
        (DB.Backup sampleEnv ⟨"shop".data, sampleApp.PSQL⟩ sampleApp.Format
          ((sampleWorld []).infof ("Starting ".data ++ "shop".data ++ "...".data))).1.1
        sampleApp.SplitSize.toNat
        (DB.Backup sampleEnv ⟨"shop".data, sampleApp.PSQL⟩ sampleApp.Format
          ((sampleWorld []).infof ("Starting ".data ++ "shop".data ++ "...".data))).2.os).map
        (fun r => if r.1 = none then JobOutcome.finished else JobOutcome.failed) :=
  (Backup_digest_isolation sampleEnv sampleApp "shop".data (sampleWorld [])).2.2
    (by decide) (by decide) (by decide)

/-! ## app.go: restore jobs and the error of Join -/

/-- C10 (evaluation of the code): the chunked restore of `shop` in which system call number
10, the `os.Open` of the second part inside `DB.Join`, fails.  `DB.Join` returns that
error, having written only the first 30 of the 100 bytes to `/b/shop.sql`; the worker
does not look at the error, logs no warning, runs drop, create and restore, and reports the
job Finished. -/
theorem restore_job_ignores_join_error :
    (DB.Join ⟨"shop".data, sampleApp.PSQL⟩ "/b/shop.chunk".data
        ((chunkedWorld [10]).infof "Restoring shop from /b/shop.chunk".data)).map Prod.fst =
      some (some (.io 10)) ∧
    (sampleApp.restoreOne sampleEnv "shop".data (chunkedWorld [10])).map Prod.fst =
      some .finished ∧
    (sampleApp.restoreOne sampleEnv "shop".data (chunkedWorld [10])).map
        (fun r => (r.2.os.content "/b/shop.sql".data).map List.length) = some (some 30) ∧
    (sampleApp.restoreOne sampleEnv "shop".data (chunkedWorld [10])).map
        (fun r => r.2.log.filter (fun e => e.level ≠ .info)) = some [] ∧
    (sampleApp.restoreOne sampleEnv "shop".data (chunkedWorld [10])).map
        (fun r => r.2.log.getLast?) = some (some ⟨.info, "Finished shop".data⟩) ∧
    (sampleApp.restoreOne sampleEnv "shop".data (chunkedWorld [10])).map (fun r => r.2.ran) =
      some [⟨"psql".data, ["-c".data, "drop database \"shop\"".data]⟩,
         ⟨"psql".data, ["-c".data, "create database \"shop\"".data]⟩,
         ⟨"psql".data, ["-d".data, "shop".data, "-f".data, "/b/shop.sql".data]⟩] := by
  refine ⟨?_, ?_, ?_, ?_, ?_, ?_⟩ <;> decide

/-- The outcome of a restore job is the outcome of `DB.Restore` in the state `DB.Join`
leaves; the error returned by `DB.Join` has no influence on it. -/
theorem restoreOne_outcome (env : Env) (app : App) (dbname : Str) (w : World)
    (e : Option Err) (w2 : World)
    (hchunk : HasSuffix (Join [app.Backups, dbname ++ app.ext]) ".chunk".data = true)
    (hjoin : DB.Join ⟨dbname, app.PSQL⟩ (Join [app.Backups, dbname ++ app.ext])
      (w.infof ("Restoring ".data ++ dbname ++ " from ".data ++
        Join [app.Backups, dbname ++ app.ext])) = some (e, w2)) :
    (app.restoreOne env dbname w).map Prod.fst =
      some (if (DB.Restore env ⟨dbname, app.PSQL⟩ app.Format w2).1 = none
        then JobOutcome.finished else JobOutcome.failed) := by
  simp only [App.restoreOne, hchunk, if_true, hjoin]
  cases hr : (DB.Restore env ⟨dbname, app.PSQL⟩ app.Format w2) with
  | mk r w3 =>
    cases r with
    | none => rfl
    | some err => rfl

/-! ## filepath: joining a clean directory and an entry name -/

/-- An element of a path that `filepath.Clean` keeps as it is. -/
theorem splitSlash_simple (e : Str) (he : '/' ∉ e) : splitSlash e = [e] := by
  induction e with
  | nil => rfl
  | cons c e ih =>
    have hc : c ≠ '/' := fun h => he (by rw [h]; exact List.mem_cons_self _ _)
    have he2 : '/' ∉ e := fun h => he (List.mem_cons_of_mem _ h)
    simp [splitSlash, hc, ih he2]

theorem splitSlash_ne_nil (a : Str) : splitSlash a ≠ [] := by
  induction a with
  | nil => simp [splitSlash]
  | cons c a ih =>
    by_cases hc : c = '/'
    · simp [splitSlash, hc]
    · simp only [splitSlash, hc, if_false]
      split <;> simp

theorem splitSlash_append (a e : Str) (he : '/' ∉ e) :
    splitSlash (a ++ '/' :: e) = splitSlash a ++ [e] := by
  induction a with
  | nil => simp [splitSlash, splitSlash_simple e he]
  | cons c a ih =>
    by_cases hc : c = '/'
    · simp [splitSlash, hc, ih]
    · simp only [List.cons_append, splitSlash, hc, if_false, List.append_eq]
      rw [ih]
      cases h : splitSlash a with
      | nil => exact absurd h (splitSlash_ne_nil a)
      | cons x xs => simp

theorem intercalate_append_singleton (sep : Str) (e : Str) :
    ∀ xs : List Str, xs ≠ [] →
      List.intercalate sep (xs ++ [e]) = List.intercalate sep xs ++ sep ++ e := by
  intro xs
  induction xs with
  | nil => intro h; exact absurd rfl h
  | cons x xs ih =>
    intro _
    cases xs with
    | nil => simp [List.intercalate, List.intersperse]
    | cons y ys =>
      have := ih (by simp)
      simp only [List.intercalate, List.cons_append, List.intersperse, List.flatten_cons,
        List.append_assoc] at this ⊢
      exact congrArg (fun t => x ++ (sep ++ t)) this

/-- Cleaning a clean path extended by one plain element changes nothing. -/
theorem Clean_append_elem (src e : Str) (hclean : Clean src = src) (hdot : src ≠ ['.'])
    (hroot : src ≠ ['/']) (he0 : e ≠ []) (he1 : '/' ∉ e) (he2 : e ≠ ['.'])
    (he3 : e ≠ ['.', '.']) : Clean (src ++ '/' :: e) = src ++ '/' :: e := by
  have hsrc : src ≠ [] := by
    intro h
    rw [h] at hclean
    simp [Clean, splitSlash, cleanStep, List.intercalate] at hclean
  have hhead : (src ++ '/' :: e).head? = src.head? := by
    cases src with
    | nil => exact absurd rfl hsrc
    | cons c cs => rfl
  have hstep : ∀ out, cleanStep (decide (src.head? = some '/')) out e = e :: out := by
    intro out
    simp [cleanStep, he0, he2, he3]
  unfold Clean at hclean ⊢
  simp only [hhead, splitSlash_append src e he1, List.foldl_append, List.foldl_cons,
    List.foldl_nil, hstep, List.reverse_cons] at hclean ⊢
  generalize List.foldl (cleanStep (decide (src.head? = some '/'))) [] (splitSlash src) = out
    at hclean ⊢
  by_cases hout : out.reverse = []
  · rw [hout] at hclean
    by_cases hr : src.head? = some '/'
    · simp [hr, List.intercalate] at hclean
      exact absurd hclean.symm hroot
    · simp [hr, List.intercalate] at hclean
      exact absurd hclean.symm hdot
  · rw [intercalate_append_singleton _ _ _ hout]
    by_cases hr : src.head? = some '/'
    · simp only [hr, decide_True, if_true] at hclean ⊢
      simp only [List.cons_ne_nil, if_false] at hclean
      simp only [← List.cons_append, hclean]
      simp
    · simp only [hr, decide_False, if_false, Bool.false_eq_true] at hclean ⊢
      by_cases hb : List.intercalate ['/'] out.reverse = []
      · rw [hb] at hclean
        simp at hclean
        exact absurd hclean.symm hdot
      · simp only [hb, if_false] at hclean
        rw [hclean]
        simp

theorem Join_dir_elem (src e : Str) (hclean : Clean src = src) (hdot : src ≠ ['.'])
    (hroot : src ≠ ['/']) (hsrc : src ≠ []) (he0 : e ≠ []) (he1 : '/' ∉ e) (he2 : e ≠ ['.'])
    (he3 : e ≠ ['.', '.']) : Join [src, e] = src ++ '/' :: e := by
  have h := Clean_append_elem src e hclean hdot hroot he0 he1 he2 he3
  simp only [Join, List.dropWhile, hsrc, decide_False]
  simpa [List.intercalate, List.intersperse] using h

theorem takeWhile_append_stop {α : Type} (p : α → Bool) (l : List α) (a : α) (r : List α)
    (hl : ∀ x ∈ l, p x = true) (ha : p a = false) : (l ++ a :: r).takeWhile p = l := by
  induction l with
  | nil => simp [List.takeWhile, ha]
  | cons x l ih =>
    have hx := hl x (List.mem_cons_self _ _)
    simp [List.takeWhile, hx, ih (fun y hy => hl y (List.mem_cons_of_mem _ hy))]

theorem dropWhile_append_stop {α : Type} (p : α → Bool) (l : List α) (a : α) (r : List α)
    (hl : ∀ x ∈ l, p x = true) (ha : p a = false) : (l ++ a :: r).dropWhile p = a :: r := by
  induction l with
  | nil => simp [List.dropWhile, ha]
  | cons x l ih =>
    have hx := hl x (List.mem_cons_self _ _)
    simp [List.dropWhile, hx, ih (fun y hy => hl y (List.mem_cons_of_mem _ hy))]

theorem pathSplit_append (src e : Str) (he : '/' ∉ e) :
    pathSplit (src ++ '/' :: e) = (src ++ ['/'], e) := by
  have h1 : ((src ++ '/' :: e).reverse.takeWhile (fun c => decide (c ≠ '/'))) = e.reverse := by
    rw [List.reverse_append, List.reverse_cons, List.append_assoc]
    apply takeWhile_append_stop
    · intro x hx
      have : x ≠ '/' := fun h => he (by rw [← h]; exact List.mem_reverse.mp hx)
      simpa using this
    · simp
  simp only [pathSplit, h1, List.reverse_reverse, List.length_append, List.length_cons,
    Prod.mk.injEq, and_true]
  rw [show src.length + (e.length + 1) - e.length = (src ++ ['/']).length by simp; omega]
  rw [show src ++ '/' :: e = (src ++ ['/']) ++ e by simp, List.take_left]

theorem cleanGlobPath_dir (src : Str) (hsrc : src ≠ []) : cleanGlobPath (src ++ ['/']) = src := by
  have h1 : src ++ ['/'] ≠ [] := by simp
  have h2 : src ++ ['/'] ≠ ['/'] := by
    intro h
    have := congrArg List.length h
    simp at this
    exact hsrc this
  simp [cleanGlobPath, h1, h2]

/-! ## filepath.Match on a literal followed by a star -/

theorem scanChunk_literal_star (lit : Str) (hlit : lit ≠ []) (hstar : '*' ∉ lit) :
    scanChunk (lit ++ ['*']) = (false, lit, ['*']) := by
  have hall : ∀ x ∈ lit, (fun c => decide (c ≠ '*')) x = true := by
    intro x hx
    have : x ≠ '*' := fun h => hstar (by rw [← h]; exact hx)
    simpa using this
  cases lit with
  | nil => exact absurd rfl hlit
  | cons c cs =>
    have hc : c ≠ '*' := fun h => hstar (by rw [h]; exact List.mem_cons_self _ _)
    have hd : ((c :: cs) ++ ['*']).dropWhile (fun c => decide (c = '*')) = (c :: cs) ++ ['*'] := by
      simp [List.dropWhile, hc]
    simp only [scanChunk, hd]
    rw [takeWhile_append_stop _ _ _ _ hall (by simp), dropWhile_append_stop _ _ _ _ hall (by simp)]
    simp [hc]

theorem scanChunk_star : scanChunk ['*'] = (true, [], []) := by decide

/-- A pattern made of a literal and a final star matches the names without separator that
begin with the literal. -/
theorem matchLoop_literal_star (lit : Str) (hlit : lit ≠ []) (hstar : '*' ∉ lit) (n : Str)
    (hn : '/' ∉ n) :
    matchLoop (lit ++ ['*']).length (lit ++ ['*']) n = lit.isPrefixOf n := by
  obtain ⟨k, hk⟩ : ∃ k, (lit ++ ['*']).length = k + 2 := by
    cases lit with
    | nil => exact absurd rfl hlit
    | cons c cs => exact ⟨cs.length, by simp⟩
  rw [hk]
  have hne : lit ++ ['*'] ≠ [] := by simp
  simp only [matchLoop, hne, if_false, scanChunk_literal_star lit hlit hstar, hlit,
    Bool.false_eq_true, false_and, and_false, matchChunk]
  by_cases hp : lit.isPrefixOf n = true
  · have hsub : '/' ∉ n.drop lit.length := fun h => hn (List.mem_of_mem_drop h)
    simp [hp, scanChunk_star, hsub]
  · simp [hp]

/-! ## filepath.Glob and the files DB.Join concatenates -/

theorem entries_simple (os : OS) (dir n : Str) (h : n ∈ os.entries dir) :
    n ≠ [] ∧ '/' ∉ n ∧ n ≠ ['.'] ∧ n ≠ ['.', '.'] := by
  simp only [OS.entries, List.mem_dedup, List.mem_filterMap] at h
  obtain ⟨path, _, hc⟩ := h
  simp only [childName] at hc
  generalize (if dir = ['/'] then ['/'] else if dir = ['.'] then [] else dir ++ ['/']) = pre
    at hc
  by_cases hp : pre.isPrefixOf path = true
  · simp only [hp, if_true] at hc
    by_cases hcond : List.drop pre.length path = [] ∨ '/' ∈ List.drop pre.length path ∨
        List.drop pre.length path = ['.'] ∨ List.drop pre.length path = ['.', '.']
    · simp only [hcond, if_true] at hc
      cases hc
    · simp only [hcond, if_false, Option.some.injEq] at hc
      subst hc
      simp only [not_or] at hcond
      exact ⟨hcond.1, hcond.2.1, hcond.2.2.1, hcond.2.2.2⟩
  · simp only [hp, if_false] at hc
    cases hc

theorem mem_sortStrings (l : List Str) (x : Str) : x ∈ sortStrings l ↔ x ∈ l :=
  (List.perm_insertionSort _ l).mem_iff

theorem starOnly_of_not_hasMeta (s : Str) (h : hasMeta s = false) : starOnly s = true := by
  simp only [hasMeta, List.any_eq_false, Bool.or_eq_true, decide_eq_true_eq, not_or] at h
  simp only [starOnly, Bool.not_eq_true', List.any_eq_false, Bool.or_eq_true,
    decide_eq_true_eq, not_or]
  intro c hc
  obtain ⟨⟨⟨_, h2⟩, h3⟩, h4⟩ := h c hc
  exact ⟨⟨h2, h3⟩, h4⟩

theorem starOnly_append (a b : Str) : starOnly (a ++ b) = (starOnly a && starOnly b) := by
  simp [starOnly, List.any_append]

theorem not_star_of_not_hasMeta (s : Str) (h : hasMeta s = false) : '*' ∉ s := by
  simp only [hasMeta, List.any_eq_false, Bool.or_eq_true, decide_eq_true_eq, not_or] at h
  intro hc
  exact (h '*' hc).1.1.1 rfl

theorem hasMeta_append (a b : Str) : hasMeta (a ++ b) = (hasMeta a || hasMeta b) := by
  simp [hasMeta, List.any_append]

theorem Base_ne_nil (p : Str) : Base p ≠ [] := by
  unfold Base
  split
  · simp
  · simp only []
    split
    · simp
    · assumption

/-- With no failing system call, `glob` lists the entries of an existing directory that
match the pattern. -/
theorem globDir_ok (os : OS) (dir pattern : Str) (hok : os.faults = []) (hdir : dir ∈ os.dirs)
    (hpat : starOnly pattern = true) :
    (globDir os dir pattern).1 =
      some (((sortStrings (os.entries dir)).filter
        (fun n => matchLoop pattern.length pattern n)).map (fun n => Join [dir, n])) := by
  have f0 : os.failing = false := OS.failing_of_no_faults os hok
  have f1 : os.next.failing = false := OS.failing_of_no_faults _ (by simp [OS.next, hok])
  have f2 : os.next.next.failing = false :=
    OS.failing_of_no_faults _ (by simp [OS.next, hok])
  simp [globDir, f0, f1, f2, hdir, hpat]

/-- The glob of `DB.Join` on a clean chunk directory without magic characters. -/
theorem joinGlobs_ok (os : OS) (src : Str) (hok : os.faults = []) (hdir : src ∈ os.dirs)
    (hclean : Clean src = src) (hdot : src ≠ ['.']) (hroot : src ≠ ['/'])
    (hmeta : hasMeta src = false)
    (hbmeta : hasMeta (Base (TrimSuffix src ".chunk".data)) = false)
    (hbsep : '/' ∉ Base (TrimSuffix src ".chunk".data)) :
    (DB.joinGlobs src os).1 =
      some (.ok (sortStrings (((sortStrings (os.entries src)).filter
        (fun n => (Base (TrimSuffix src ".chunk".data) ++ ['.']).isPrefixOf n)).map
        (fun n => src ++ '/' :: n)))) := by
  generalize hb : Base (TrimSuffix src ".chunk".data) = base at hbmeta hbsep ⊢
  have hbne : base ≠ [] := by rw [← hb]; exact Base_ne_nil _
  have hsrc : src ≠ [] := by
    intro h
    rw [h] at hclean
    simp [Clean, splitSlash, cleanStep, List.intercalate] at hclean
  have hfile : base ++ ".*".data = (base ++ ['.']) ++ ['*'] := by simp
  have hpattern : Join [src, base ++ ".*".data] = src ++ '/' :: ((base ++ ['.']) ++ ['*']) := by
    rw [hfile]
    apply Join_dir_elem src _ hclean hdot hroot hsrc
    · simp
    · simp only [List.mem_append, List.mem_singleton, not_or]
      exact ⟨⟨hbsep, by decide⟩, by decide⟩
    · intro h
      have := congrArg List.length h
      simp at this
    · intro h
      cases base with
      | nil => exact hbne rfl
      | cons c cs =>
        cases cs with
        | nil => simp at h
        | cons d ds =>
          have := congrArg List.length h
          simp at this
  have hlitstar : '*' ∉ base ++ ['.'] := by
    simp only [List.mem_append, List.mem_singleton, not_or]
    exact ⟨not_star_of_not_hasMeta base hbmeta, by decide⟩
  have hso : starOnly (src ++ '/' :: ((base ++ ['.']) ++ ['*'])) = true := by
    rw [show src ++ '/' :: ((base ++ ['.']) ++ ['*']) = src ++ (['/'] ++ (base ++ ['.', '*'])) by
      simp]
    rw [starOnly_append, starOnly_append, starOnly_append, starOnly_of_not_hasMeta src hmeta,
      starOnly_of_not_hasMeta base hbmeta]
    decide
  have hfso : starOnly ((base ++ ['.']) ++ ['*']) = true := by
    rw [starOnly_append, starOnly_append, starOnly_of_not_hasMeta base hbmeta]
    decide
  have hhm : hasMeta (src ++ '/' :: ((base ++ ['.']) ++ ['*'])) = true := by
    rw [show src ++ '/' :: ((base ++ ['.']) ++ ['*']) = (src ++ '/' :: (base ++ ['.'])) ++ ['*']
      by simp, hasMeta_append]
    simp [hasMeta]
  have hsplit := pathSplit_append src ((base ++ ['.']) ++ ['*']) (by
    simp only [List.mem_append, List.mem_singleton, not_or]
    exact ⟨⟨hbsep, by decide⟩, by decide⟩)
  have hg := globDir_ok os src ((base ++ ['.']) ++ ['*']) hok hdir hfso
  have hfilter : ((sortStrings (os.entries src)).filter
        (fun n => matchLoop ((base ++ ['.']) ++ ['*']).length ((base ++ ['.']) ++ ['*']) n)).map
        (fun n => Join [src, n]) =
      ((sortStrings (os.entries src)).filter (fun n => (base ++ ['.']).isPrefixOf n)).map
        (fun n => src ++ '/' :: n) := by
    rw [List.filter_congr (q := fun n => (base ++ ['.']).isPrefixOf n)]
    · apply List.map_congr_left
      intro n hn
      have hs := entries_simple os src n ((mem_sortStrings _ _).mp (List.mem_filter.mp hn).1)
      exact Join_dir_elem src n hclean hdot hroot hsrc hs.1 hs.2.1 hs.2.2.1 hs.2.2.2
    · intro n hn
      have hs := entries_simple os src n ((mem_sortStrings _ _).mp hn)
      exact matchLoop_literal_star (base ++ ['.']) (by simp) hlitstar n hs.2.1
  rw [hfilter] at hg
  simp only [DB.joinGlobs, hb, hpattern, Glob, hso, hhm, hsplit, cleanGlobPath_dir src hsrc,
    hmeta, Bool.not_true, Bool.false_eq_true, if_false]
  cases hgd : globDir os src ((base ++ ['.']) ++ ['*']) with
  | mk r os1 =>
    rw [hgd] at hg
    simp only [] at hg
    subst hg
    rfl

theorem length_of_HasSuffix (s sfx : Str) (h : HasSuffix s sfx = true) :
    sfx.length ≤ s.length := by
  simp only [HasSuffix, List.isSuffixOf_iff_suffix] at h
  obtain ⟨t, rfl⟩ := h
  simp

/-- A stray file in the chunk directory: in the chunk directory of `shop` that also holds a
file `shop.notes`, the files `DB.Join` concatenates are the four parts and `shop.notes`,
whose name is not `shop.` followed by digits; its two bytes end up in `/b/shop.sql` after
the 100 bytes of the parts. -/
theorem Join_includes_non_digit_entry :
    (DB.joinGlobs "/b/shop.chunk".data strayWorld.os).1 =
      some (.ok ["/b/shop.chunk/shop.000000000".data, "/b/shop.chunk/shop.000000001".data,
        "/b/shop.chunk/shop.000000002".data, "/b/shop.chunk/shop.000000003".data,
        "/b/shop.chunk/shop.notes".data]) ∧
    (DB.Join sampleDB "/b/shop.chunk".data strayWorld).map
        (fun r => (r.1, r.2.os.content "/b/shop.sql".data)) =
      some (none, some (sampleBytes 100 ++ [7, 7])) := by
  constructor
  · rfl
  · decide

/-- The files `DB.Join` concatenates.  For every chunk directory `src` (a cleaned path
ending in `.chunk`, without the magic characters of `filepath.Match`, existing, whose name
part `base = Base(TrimSuffix(src, ".chunk"))` is not the root) and no failing system call,
they are, in `sort.Strings` order, the paths `src/n` of exactly the entries `n` of that
directory whose name begins with `base + "."`, whatever follows the dot. -/
theorem Join_concatenates_entries_with_base (os : OS) (src : Str) (hok : os.faults = [])
    (hdir : src ∈ os.dirs) (hsfx : HasSuffix src ".chunk".data = true)
    (hclean : Clean src = src) (hmeta : hasMeta src = false)
    (hbmeta : hasMeta (Base (TrimSuffix src ".chunk".data)) = false)
    (hbsep : '/' ∉ Base (TrimSuffix src ".chunk".data)) :
    ∃ globs : List Str,
      (DB.joinGlobs src os).1 = some (.ok globs) ∧
      globs = sortStrings (((sortStrings (os.entries src)).filter
        (fun n => (Base (TrimSuffix src ".chunk".data) ++ ['.']).isPrefixOf n)).map
        (fun n => src ++ '/' :: n)) ∧
      (∀ n, src ++ '/' :: n ∈ globs ↔
        (n ∈ os.entries src ∧
          (Base (TrimSuffix src ".chunk".data) ++ ['.']).isPrefixOf n = true)) ∧
      (∀ p ∈ globs, ∃ n, p = src ++ '/' :: n) := by
  have hlen := length_of_HasSuffix src _ hsfx
  have hdot : src ≠ ['.'] := by
    intro h; rw [h] at hlen; simp at hlen
  have hroot : src ≠ ['/'] := by
    intro h; rw [h] at hlen; simp at hlen
  have hmem : ∀ n, src ++ '/' :: n ∈ sortStrings (((sortStrings (os.entries src)).filter
        (fun n => (Base (TrimSuffix src ".chunk".data) ++ ['.']).isPrefixOf n)).map
        (fun n => src ++ '/' :: n)) ↔
      (n ∈ os.entries src ∧
        (Base (TrimSuffix src ".chunk".data) ++ ['.']).isPrefixOf n = true) := by
    intro n
    simp only [mem_sortStrings, List.mem_map, List.mem_filter]
    constructor
    · rintro ⟨m, ⟨hm, hp⟩, heq⟩
      have : m = n := (List.cons.inj (List.append_cancel_left heq)).2
      subst this
      exact ⟨hm, hp⟩
    · rintro ⟨hn, hp⟩
      exact ⟨n, ⟨hn, hp⟩, rfl⟩
  refine ⟨_, joinGlobs_ok os src hok hdir hclean hdot hroot hmeta hbmeta hbsep, rfl, hmem, ?_⟩
  intro p hp
  simp only [mem_sortStrings, List.mem_map, List.mem_filter] at hp
  obtain ⟨m, _, heq⟩ := hp
  exact ⟨m, heq.symm⟩

/-! ## DB.Join writes the concatenation of the files it globbed -/

theorem lookup_map_append_other (dfd p : Str) (b : List Byte) (hp : p ≠ dfd) :
    ∀ files : List (Str × List Byte),
      (files.map (fun f => if f.1 = dfd then (f.1, f.2 ++ b) else f)).lookup p =
        files.lookup p := by
  intro files
  induction files with
  | nil => rfl
  | cons e files ih =>
    obtain ⟨k, v⟩ := e
    by_cases hk : k = dfd
    · subst hk
      have hb : (p == k) = false := by simpa using hp
      simp [List.lookup_cons, hb, ih]
    · by_cases hpk : p = k
      · subst hpk
        simp [hk, List.lookup_cons]
      · have hb : (p == k) = false := by simpa using hpk
        simp [hk, List.lookup_cons, hb, ih]

theorem lookup_map_append_self (dfd : Str) (b : List Byte) :
    ∀ files : List (Str × List Byte),
      (files.map (fun f => if f.1 = dfd then (f.1, f.2 ++ b) else f)).lookup dfd =
        (files.lookup dfd).map (fun c => c ++ b) := by
  intro files
  induction files with
  | nil => rfl
  | cons e files ih =>
    obtain ⟨k, v⟩ := e
    by_cases hk : k = dfd
    · subst hk
      simp [List.lookup_cons]
    · have hb : (dfd == k) = false := by simpa using fun h => hk h.symm
      simp [hk, List.lookup_cons, hb, ih]

theorem catFiles_congr (os os' : OS) :
    ∀ parts : List Str, (∀ p ∈ parts, os'.content p = os.content p) →
      catFiles os' parts = catFiles os parts := by
  intro parts
  induction parts with
  | nil => intro _; rfl
  | cons p ps ih =>
    intro h
    simp only [catFiles, h p (List.mem_cons_self _ _),
      ih (fun q hq => h q (List.mem_cons_of_mem _ hq))]

/-- With no failing system call, one turn of the loop of `DB.Join` appends the part to the
destination and changes nothing else. -/
theorem joinPart_ok (db : DB) (dfd part : Str) (w : World) (data : List Byte)
    (hok : w.os.faults = []) (hpart : w.os.content part = some data) :
    ∃ w', db.joinPart dfd part w = (none, w') ∧ w'.os.faults = [] ∧ w'.log = w.log ∧
      w'.ran = w.ran ∧ w'.os.dirs = w.os.dirs ∧
      w'.os.files = w.os.files.map (fun f => if f.1 = dfd then (f.1, f.2 ++ data) else f) := by
  have f0 : w.os.failing = false := OS.failing_of_no_faults _ hok
  have f1 : w.os.next.failing = false := OS.failing_of_no_faults _ (by simp [OS.next, hok])
  have f2 : w.os.next.next.failing = false :=
    OS.failing_of_no_faults _ (by simp [OS.next, hok])
  have c1 : w.os.next.content part = some data := hpart
  let fs := w.os.files.map (fun f => if f.1 = dfd then (f.1, f.2 ++ data) else f)
  let os' : OS := { w.os with calls := w.os.calls + 1 + 1 + 1 + 1 + 1, files := fs }
  refine ⟨{ w with os := os' }, ?_, hok, rfl, rfl, rfl, rfl⟩
  simp only [DB.joinPart, OS.Open, f0, hpart, OS.ReadAll, f1, c1, OS.Write, f2,
    Bool.false_eq_true, if_false, OS.Close]
  simp only [OS.failing, OS.next, hok, List.not_mem_nil, decide_False, Bool.false_eq_true,
    if_false, os', fs]

theorem joinParts_ok (db : DB) (dfd : Str) :
    ∀ (parts : List Str) (w : World) (data : List Byte), w.os.faults = [] →
      (∀ p ∈ parts, p ≠ dfd) → catFiles w.os parts = some data →
      ∃ w', db.joinParts dfd parts w = (none, w') ∧ w'.os.faults = [] ∧ w'.log = w.log ∧
        w'.ran = w.ran ∧
        w'.os.files = w.os.files.map (fun f => if f.1 = dfd then (f.1, f.2 ++ data) else f) := by
  intro parts
  induction parts with
  | nil =>
    intro w data hok _ hcat
    simp only [catFiles, Option.some.injEq] at hcat
    subst hcat
    refine ⟨w, rfl, hok, rfl, rfl, ?_⟩
    simp
  | cons p ps ih =>
    intro w data hok hne hcat
    cases hc : w.os.content p with
    | none => simp [catFiles, hc] at hcat
    | some c =>
      cases hr : catFiles w.os ps with
      | none => simp [catFiles, hc, hr] at hcat
      | some rest =>
        simp only [catFiles, hc, hr, Option.some.injEq] at hcat
        subst hcat
        obtain ⟨w1, e1, hok1, hlog1, hran1, _, hfiles1⟩ := joinPart_ok db dfd p w c hok hc
        have hcat1 : catFiles w1.os ps = some rest := by
          rw [catFiles_congr w.os w1.os ps, hr]
          intro q hq
          rw [OS.content, hfiles1,
            lookup_map_append_other dfd q c (hne q (List.mem_cons_of_mem _ hq))]
          rfl
        obtain ⟨w2, e2, hok2, hlog2, hran2, hfiles2⟩ := ih w1 rest hok1
          (fun q hq => hne q (List.mem_cons_of_mem _ hq)) hcat1
        refine ⟨w2, ?_, hok2, by rw [hlog2, hlog1], by rw [hran2, hran1], ?_⟩
        · simp only [DB.joinParts, e1, e2]
        · rw [hfiles2, hfiles1, List.map_map]
          apply List.map_congr_left
          intro f _
          by_cases hf : f.1 = dfd <;> simp [hf]

theorem globDir_os (os : OS) (dir pattern : Str) :
    (globDir os dir pattern).2.files = os.files ∧
    (globDir os dir pattern).2.faults = os.faults := by
  simp only [globDir]
  split_ifs <;> simp [OS.next]

theorem Glob_os (os : OS) (pattern : Str) :
    (Glob os pattern).2.files = os.files ∧ (Glob os pattern).2.faults = os.faults := by
  simp only [Glob]
  split_ifs
  · exact ⟨rfl, rfl⟩
  · simp only [OS.Stat]
    split_ifs <;> simp [OS.next]
  · exact ⟨rfl, rfl⟩
  · have := globDir_os os (cleanGlobPath (pathSplit pattern).1) (pathSplit pattern).2
    cases h : globDir os (cleanGlobPath (pathSplit pattern).1) (pathSplit pattern).2 with
    | mk r os1 =>
      rw [h] at this
      cases r <;> exact this

theorem joinGlobs_os (src : Str) (os : OS) :
    (DB.joinGlobs src os).2.files = os.files ∧ (DB.joinGlobs src os).2.faults = os.faults := by
  have := Glob_os os (Join [src, Base (TrimSuffix src ".chunk".data) ++ ".*".data])
  simp only [DB.joinGlobs]
  cases h : Glob os (Join [src, Base (TrimSuffix src ".chunk".data) ++ ".*".data]) with
  | mk r os1 =>
    rw [h] at this
    cases r with
    | none => exact this
    | some e => cases e <;> exact this

/-- With no failing system call, when the globbed paths are regular files and the
destination is not one of them, `DB.Join` returns nil and leaves in the destination
`<plain>.sql` the concatenation of the globbed files, in the order of the list. -/
theorem Join_writes_concatenation (db : DB) (src : Str) (w : World) (globs : List Str)
    (data : List Byte) (hsfx : HasSuffix src ".chunk".data = true) (hok : w.os.faults = [])
    (hg : (DB.joinGlobs src w.os).1 = some (.ok globs))
    (hdst : TrimSuffix src ".chunk".data ++ ".sql".data ∉ globs)
    (hcat : catFiles w.os globs = some data) :
    ∃ w', db.Join src w = some (none, w') ∧
      w'.os.content (TrimSuffix src ".chunk".data ++ ".sql".data) = some data ∧
      w'.log = w.log := by
  generalize hd : TrimSuffix src ".chunk".data ++ ".sql".data = dst at hdst ⊢
  obtain ⟨hgf, hgk⟩ := joinGlobs_os src w.os
  cases hj : DB.joinGlobs src w.os with
  | mk r os1 =>
    rw [hj] at hg hgf hgk
    simp only [] at hg hgf hgk
    subst hg
    have f1 : os1.failing = false := OS.failing_of_no_faults _ (by rw [hgk, hok])
    let w2 : World :=
      { w with os := { os1.next with
                       files := os1.files.filter (fun f => decide (f.1 ≠ dst)) ++ [(dst, [])] } }
    have hok2 : w2.os.faults = [] := by simp [w2, OS.next, hgk, hok]
    have hcont2 : ∀ p, p ≠ dst → w2.os.content p = w.os.content p := by
      intro p hp
      simp only [OS.content, w2, hgf]
      rw [lookup_append_none p _ (by
        intro e he
        simp only [List.mem_singleton] at he
        subst he
        exact fun h => hp h.symm)]
      apply lookup_filter_keep
      intro e _ he
      simpa [he] using hp
    have hcat2 : catFiles w2.os globs = some data := by
      rw [catFiles_congr w.os w2.os globs, hcat]
      intro p hp
      exact hcont2 p (fun h => hdst (by rw [← h]; exact hp))
    obtain ⟨w3, e3, hok3, hlog3, _, hfiles3⟩ := joinParts_ok db dst globs w2 data hok2
      (fun p hp h => hdst (by rw [← h]; exact hp)) hcat2
    have f3 : w3.os.failing = false := OS.failing_of_no_faults _ hok3
    refine ⟨{ w3 with os := (w3.os.next.Close dst).2 }, ?_, ?_, ?_⟩
    · simp only [DB.Join, hsfx, Bool.not_true, Bool.false_eq_true, if_false, hj, hd, OS.Create,
        f1, e3]
      simp only [OS.Close, f3, Bool.false_eq_true, if_false]
    · have hc : (w3.os.next.Close dst).2.files = w3.os.files := by
        rw [OS.Close_files]; rfl
      rw [OS.content, hc, hfiles3, lookup_map_append_self]
      have : w2.os.files.lookup dst = some [] := by
        simp only [w2]
        rw [lookup_append_skip dst _ _ (by
          intro e he
          simpa using (List.mem_filter.mp he).2)]
        simp [List.lookup_cons]
      rw [this]
      simp
    · exact hlog3

/-! ## The paths of the artifacts, written out -/

/-- For a cleaned backups directory other than `.` and `/` and a database name without
separator, the destinations of `PSQL.Backup` are the directory, a separator, the database
name and the extension. -/
theorem Backup_destination_literal (p : PSQL) (db : Str) (log : List LogEntry)
    (hclean : Clean p.DirBackups = p.DirBackups) (hdot : p.DirBackups ≠ ['.'])
    (hroot : p.DirBackups ≠ ['/']) (hdb : '/' ∉ db) :
    (p.Backup db .Directory log).1.1 = p.DirBackups ++ '/' :: (db ++ ".backup".data) ∧
    (p.Backup db .Script log).1.1 = p.DirBackups ++ '/' :: (db ++ ".sql".data) := by
  have hsrc : p.DirBackups ≠ [] := by
    intro h
    rw [h] at hclean
    simp [Clean, splitSlash, cleanStep, List.intercalate] at hclean
  constructor
  · show Join [p.DirBackups, db ++ ".backup".data] = _
    apply Join_dir_elem _ _ hclean hdot hroot hsrc
    · simp
    · simp only [List.mem_append, not_or]
      exact ⟨hdb, by decide⟩
    · intro h
      have := congrArg List.length h
      simp at this
    · intro h
      have := congrArg List.length h
      simp at this
  · show Join [p.DirBackups, db ++ ".sql".data] = _
    apply Join_dir_elem _ _ hclean hdot hroot hsrc
    · simp
    · simp only [List.mem_append, not_or]
      exact ⟨hdb, by decide⟩
    · intro h
      have := congrArg List.length h
      simp at this
    · intro h
      have := congrArg List.length h
      simp at this

/-! ## Total slots of `CalcConcurrency` -/

theorem CalcConcurrency_eight_up (n : Int) (h8 : 8 ≤ n) :
    CalcConcurrency n =
      .ok (n, (n - 4) / (min 4 ((n - 4) / 4)), min 4 ((n - 4) / 4)) := by
  have hq : Int.tdiv (n - 4) 4 = (n - 4) / 4 := by
    rw [Int.tdiv_eq_ediv] <;> omega
  have hj1 : 1 ≤ min 4 ((n - 4) / 4) := by
    have : 1 ≤ (n - 4) / 4 := by omega
    omega
  have ho : Int.tdiv (n - 4) (min 4 ((n - 4) / 4)) = (n - 4) / (min 4 ((n - 4) / 4)) := by
    rw [Int.tdiv_eq_ediv] <;> omega
  have ho1 : 1 ≤ (n - 4) / (min 4 ((n - 4) / 4)) := by
    apply Int.le_ediv_of_mul_le (by omega)
    have : min 4 ((n - 4) / 4) ≤ (n - 4) / 4 := min_le_right _ _
    omega
  have h2 : ¬ n ≤ 2 := by omega
  have h4 : ¬ n ≤ 4 := by omega
  have hne : min 4 ((n - 4) / 4) ≠ 0 := by omega
  have hmin : (if (n - 4) / 4 > 4 then (4 : Int) else (n - 4) / 4) = min 4 ((n - 4) / 4) := by
    split <;> omega
  simp only [CalcConcurrency, h2, h4, if_false, goDiv, hq, hmin, hne, ho]
  simp only [show (4 : Int) ≠ 0 by decide, if_false]
  have a1 : ¬ (min 4 ((n - 4) / 4) < 1) := by omega
  have a2 : ¬ ((n - 4) / (min 4 ((n - 4) / 4)) < 1) := by omega
  simp [hq, hmin, hne, ho, a1, a2]

theorem CalcConcurrency_five_to_seven (n : Int) (h5 : 5 ≤ n) (h7 : n ≤ 7) :
    CalcConcurrency n = .error .integerDivideByZero := by
  have hcases : n = 5 ∨ n = 6 ∨ n = 7 := by omega
  rcases hcases with h | h | h <;> subst h <;> rfl

theorem slotsFrom8_step (n : Int) (h8 : 8 ≤ n) : slotsFrom8 n ≤ slotsFrom8 (n + 1) := by
  unfold slotsFrom8
  by_cases h20 : 20 ≤ n
  · have e1 : min 4 ((n - 4) / 4) = 4 := by omega
    have e2 : min 4 ((n + 1 - 4) / 4) = 4 := by omega
    rw [e1, e2]; omega
  · have hn : n < 20 := by omega
    interval_cases n <;> decide

theorem slotsFrom8_mono (n : Int) (h8 : 8 ≤ n) (k : Nat) : slotsFrom8 n ≤ slotsFrom8 (n + k) := by
  induction k with
  | zero => simp
  | succ k ih =>
    have h := slotsFrom8_step (n + k) (by omega)
    have e : n + ((k + 1 : Nat) : Int) = n + (k : Int) + 1 := by push_cast; ring
    rw [e]
    exact le_trans ih h

theorem totalSlots_eight_up (n : Int) (h8 : 8 ≤ n) (p : Int × Int × Int)
    (hp : CalcConcurrency n = .ok p) : totalSlots p = slotsFrom8 n := by
  rw [CalcConcurrency_eight_up n h8] at hp
  injection hp with hp
  subst hp
  rfl

theorem totalSlots_upto_four (n : Int) (h4 : n ≤ 4) (p : Int × Int × Int)
    (hp : CalcConcurrency n = .ok p) :
    (n ≤ 2 → totalSlots p = 1) ∧ (3 ≤ n → totalSlots p = 2) := by
  by_cases h2 : n ≤ 2
  · simp [CalcConcurrency, h2] at hp
    subst hp
    exact ⟨fun _ => rfl, fun h => by omega⟩
  · simp [CalcConcurrency, h2, h4] at hp
    subst hp
    exact ⟨fun h => by omega, fun _ => rfl⟩

theorem totalSlots_mono (n m : Int) (hnm : n ≤ m) (a b : Int × Int × Int)
    (ha : CalcConcurrency n = .ok a) (hb : CalcConcurrency m = .ok b) :
    totalSlots a ≤ totalSlots b := by
  by_cases hm4 : m ≤ 4
  · have hA := totalSlots_upto_four n (by omega) a ha
    have hB := totalSlots_upto_four m hm4 b hb
    by_cases hn2 : n ≤ 2
    · rw [hA.1 hn2]
      by_cases hm2 : m ≤ 2
      · rw [hB.1 hm2]
      · rw [hB.2 (by omega)]; decide
    · rw [hA.2 (by omega), hB.2 (by omega)]
  · by_cases hm7 : m ≤ 7
    · rw [CalcConcurrency_five_to_seven m (by omega) hm7] at hb
      cases hb
    · have hB := totalSlots_eight_up m (by omega) b hb
      have h4 : (4 : Int) ≤ slotsFrom8 m := by
        have h := slotsFrom8_mono 8 (le_refl _) (m - 8).toNat
        have e : (8 : Int) + ((m - 8).toNat : Int) = m := by omega
        rw [e] at h
        exact le_trans (by decide) h
      by_cases hn4 : n ≤ 4
      · have hA := totalSlots_upto_four n hn4 a ha
        by_cases hn2 : n ≤ 2
        · rw [hA.1 hn2, hB]; omega
        · rw [hA.2 (by omega), hB]; omega
      · by_cases hn7 : n ≤ 7
        · rw [CalcConcurrency_five_to_seven n (by omega) hn7] at ha
          cases ha
        · rw [totalSlots_eight_up n (by omega) a ha, hB]
          have h := slotsFrom8_mono n (by omega) (m - n).toNat
          have e : n + ((m - n).toNat : Int) = m := by omega
          rw [e] at h
          exact h

/-- C14 (evaluation of the code): for 4 CPUs the plan is `(1, 2)`, two slots; for 5 CPUs,
where the clamps would leave `(1, 1)`, the division panics and no plan is returned; and
wherever plans are returned for CPU counts `n ≤ m` the plan for `m` has at least as many
total slots `Ops * Jobs` as the plan for `n`.  Hence no CPU count `n` has a plan for `n + 1`
CPUs with fewer total slots than its own. -/
theorem CalcConcurrency_slots_never_decrease :
    CalcConcurrency 4 = .ok (4, 1, 2) ∧
    CalcConcurrency 5 = .error .integerDivideByZero ∧
    (∀ (n m : Int) (a b : Int × Int × Int), n ≤ m → CalcConcurrency n = .ok a →
      CalcConcurrency m = .ok b → totalSlots a ≤ totalSlots b) ∧
    ¬ ∃ (n : Int) (a b : Int × Int × Int), CalcConcurrency n = .ok a ∧
        CalcConcurrency (n + 1) = .ok b ∧ totalSlots b < totalSlots a := by
  refine ⟨rfl, rfl, fun n m a b hnm ha hb => totalSlots_mono n m hnm a b ha hb, ?_⟩
  rintro ⟨n, a, b, ha, hb, hlt⟩
  have h := totalSlots_mono n (n + 1) (by omega) a b ha hb
  omega

/-- Witness of C14's evaluation at 4 and 8 CPUs: 2 slots, then 4 slots. -/
theorem CalcConcurrency_slots_never_decrease_witness :
    CalcConcurrency 4 = .ok (4, 1, 2) ∧ CalcConcurrency 8 = .ok (8, 4, 1) ∧
    totalSlots (4, 1, 2) ≤ totalSlots (8, 4, 1) :=
  ⟨rfl, rfl,
   CalcConcurrency_slots_never_decrease.2.2.1 4 8 (4, 1, 2) (8, 4, 1) (by decide) rfl rfl⟩

/-! ## The string order is a linear order -/

theorem strLt_connected : ∀ (a b : Str), strLt a b = false → strLt b a = false → a = b
  | [], [], _, _ => rfl
  | [], _ :: _, h, _ => by simp [strLt] at h
  | _ :: _, [], _, h => by simp [strLt] at h
  | x :: as, y :: bs, h1, h2 => by
    simp only [strLt] at h1 h2
    by_cases hxy : x < y
    · simp [hxy] at h1
    · by_cases hyx : y < x
      · simp [hyx] at h2
      · have e : x = y := le_antisymm (not_lt.mp hyx) (not_lt.mp hxy)
        subst e
        simp only [hxy, if_false] at h1 h2
        rw [strLt_connected as bs h1 h2]

theorem strLt_trans : ∀ (a b c : Str), strLt a b = true → strLt b c = true → strLt a c = true
  | [], [], _, h, _ => by simp [strLt] at h
  | [], _ :: _, [], _, h => by simp [strLt] at h
  | [], _ :: _, _ :: _, _, _ => by simp [strLt]
  | _ :: _, [], _, h, _ => by simp [strLt] at h
  | _ :: _, _ :: _, [], _, h => by simp [strLt] at h
  | x :: as, y :: bs, z :: cs, h1, h2 => by
    simp only [strLt] at h1 h2 ⊢
    by_cases hxy : x < y
    · by_cases hyz : y < z
      · simp [lt_trans hxy hyz]
      · by_cases hzy : z < y
        · simp [hyz, hzy] at h2
        · have e : y = z := le_antisymm (not_lt.mp hzy) (not_lt.mp hyz)
          subst e
          simp [hxy]
    · by_cases hyx : y < x
      · simp [hxy, hyx] at h1
      · have e : x = y := le_antisymm (not_lt.mp hyx) (not_lt.mp hxy)
        subst e
        simp only [hxy, if_false] at h1
        by_cases hxz : x < z
        · simp [hxz]
        · by_cases hzx : z < x
          · simp [hxz, hzx] at h2
          · simp only [hxz, hzx, if_false] at h2 ⊢
            exact strLt_trans as bs cs h1 h2

theorem strLe_total (a b : Str) : strLe a b = true ∨ strLe b a = true := by
  by_cases h : strLt b a = true
  · right
    simp [strLe, strLt_asymm b a h]
  · left
    simpa [strLe] using h

theorem strLe_antisymm (a b : Str) (h1 : strLe a b = true) (h2 : strLe b a = true) : a = b := by
  apply strLt_connected
  · simpa [strLe] using h2
  · simpa [strLe] using h1

theorem strLe_trans (a b c : Str) (h1 : strLe a b = true) (h2 : strLe b c = true) :
    strLe a c = true := by
  by_contra hac
  have hca : strLt c a = true := by simpa [strLe] using hac
  have hba : strLt b a = false := by simpa [strLe] using h1
  have hcb : strLt c b = false := by simpa [strLe] using h2
  by_cases hab : strLt a b = true
  · rw [strLt_trans c a b hca hab] at hcb
    cases hcb
  · have e : a = b := strLt_connected a b (by simpa using hab) hba
    subst e
    rw [hca] at hcb
    cases hcb

/-- The result of `sort.Strings` is determined by the elements: two lists with the same
elements, one of them in increasing order, are sorted to that one. -/
theorem sortStrings_eq_of_perm (l s : List Str) (hp : l.Perm s)
    (hs : s.Sorted (fun a b => strLe a b = true)) : sortStrings l = s := by
  haveI : IsTotal Str (fun a b => strLe a b = true) := ⟨strLe_total⟩
  haveI : IsTrans Str (fun a b => strLe a b = true) := ⟨strLe_trans⟩
  haveI : IsAntisymm Str (fun a b => strLe a b = true) := ⟨strLe_antisymm⟩
  apply List.eq_of_perm_of_sorted ((List.perm_insertionSort _ l).trans hp)
    (List.sorted_insertionSort _ l) hs

theorem chunkNames_sorted (base : Str) (W k : Nat) (hW : W ≤ 1000000) (hk : k ≤ 10 ^ W) :
    (chunkNames base W k).Sorted (fun a b => strLe a b = true) := by
  unfold chunkNames List.Sorted
  rw [List.pairwise_map]
  refine List.Pairwise.imp_of_mem ?_ (List.pairwise_lt_range k)
  intro i j _ hj hij
  exact strLe_of_strLt _ _
    (chunkName_lt base W i j hW hij (lt_of_lt_of_le (List.mem_range.mp hj) hk))

theorem ten_lt_pow (W : Nat) (h : 1 < W) : 10 < 10 ^ W := by
  have h1 : 10 ^ 1 < 10 ^ W := Nat.pow_lt_pow_right (by decide) h
  rw [Nat.pow_one] at h1
  exact h1

/-- C12 (counterexample): at the suffix width 1000001 the indices 9 and 10 are within
capacity, `SplitWriter` names their chunks `x.%!(BADWIDTH)9` and `x.%!(BADWIDTH)10`, without
padding, and the name of index 10 is the smaller one in string order. -/
theorem chunk_names_unpadded_beyond_fmt_limit :
    (9 : Nat) < 10 ∧ (10 : Nat) < 10 ^ 1000001 ∧
    chunkName "x".data 1000001 9 = "x.%!(BADWIDTH)9".data ∧
    chunkName "x".data 1000001 10 = "x.%!(BADWIDTH)10".data ∧
    strLt (chunkName "x".data 1000001 10) (chunkName "x".data 1000001 9) = true ∧
    strLt (chunkName "x".data 1000001 9) (chunkName "x".data 1000001 10) = false := by
  refine ⟨by decide, ?_, by decide, by decide, by decide, by decide⟩
  exact ten_lt_pow 1000001 (by decide)

/-- C12 (amended): for every suffix width `W ≤ 1000000`, every base path and indices
`i, j < 10 ^ W`, the chunk name generated by `SplitWriter` is `base + "." + zero-padded(i, W)`
and it is strictly smaller in Go's string order than the name of index `j` exactly when
`i < j`; hence `sort.Strings` puts the names of the first `k ≤ 10 ^ W` chunks, given in any
order, in the order of their indices. -/
theorem chunk_names_sort_in_index_order (base : Str) (W i j : Nat) (hW : W ≤ 1000000)
    (hi : i < 10 ^ W) (hj : j < 10 ^ W) :
    chunkName base W i = base ++ ".".data ++ zeroPadded W i ∧
    (i < j → strLt (chunkName base W i) (chunkName base W j) = true) ∧
    (strLt (chunkName base W i) (chunkName base W j) = true ↔ i < j) ∧
    (∀ (k : Nat) (l : List Str), k ≤ 10 ^ W → l.Perm (chunkNames base W k) →
      sortStrings l = chunkNames base W k) := by
  refine ⟨?_, fun hij => chunkName_lt base W i j hW hij hj, ?_, ?_⟩
  · rw [chunkName_padded base W hW, zeroPadded_eq_fmtZeroPad]
    simp
  · constructor
    · intro h
      by_contra hij
      rcases Nat.lt_or_ge j i with hji | hge
      · rw [strLt_asymm _ _ (chunkName_lt base W j i hW hji hi)] at h
        cases h
      · have e : i = j := by omega
        subst e
        rw [strLt_irrefl] at h
        cases h
    · intro hij
      exact chunkName_lt base W i j hW hij hj
  · intro k l hk hp
    exact sortStrings_eq_of_perm l _ hp (chunkNames_sorted base W k hW hk)

/-- Witness of C12 (amended) at width 2, base `db.sql`, indices 9 and 10: `db.sql.09`
precedes `db.sql.10`, and the three names of the first chunks given in reverse are sorted
back in index order. -/
theorem chunk_names_sort_in_index_order_witness :
    strLt "db.sql.09".data "db.sql.10".data = true ∧
    sortStrings ["db.sql.02".data, "db.sql.01".data, "db.sql.00".data] =
      ["db.sql.00".data, "db.sql.01".data, "db.sql.02".data] :=
  ⟨(chunk_names_sort_in_index_order "db.sql".data 2 9 10 (by decide) (by decide)
      (by decide)).2.1 (by decide),
   (chunk_names_sort_in_index_order "db.sql".data 2 9 10 (by decide) (by decide)
      (by decide)).2.2.2 3 _ (by decide) (by decide)⟩

/-! ## The queue of `ExecBackup` and `ExecRestore` -/

theorem backupQueue_eq (remaining : List Str) (re : Regexp) (lines : List Str)
    (err : Option Err) (q : List Str) (hq : backupQueue remaining re lines err = some q) :
    q = remaining ++ (if remaining = [] ∨ re.isSome then getListLoop re lines else []) := by
  cases remaining with
  | nil =>
    cases err with
    | none =>
      simp [backupQueue, GetList] at hq
      simp [hq]
    | some e => simp [backupQueue, GetList] at hq
  | cons a l =>
    cases re with
    | none =>
      simp [backupQueue] at hq
      simp [← hq]
    | some m =>
      cases err with
      | none =>
        simp [backupQueue, GetList] at hq
        simp [← hq]
      | some e => simp [backupQueue, GetList] at hq

theorem restorePaths_eq (app : App) (remaining : List Str) (re : Regexp) (os os1 : OS)
    (paths : List Str) (hp : app.restorePaths remaining re os = (some (some paths), os1)) :
    ∃ globs : List Str,
      ((remaining ≠ [] ∧ re = none ∧ globs = [] ∧ os1 = os) ∨
        ((remaining = [] ∨ re.isSome) ∧
          app.restoreGlob app.ext re os = (some (some globs), os1))) ∧
      paths = remaining.map (fun p => Join [app.Backups, p ++ app.ext]) ++ globs := by
  cases remaining with
  | nil =>
    refine ⟨paths, Or.inr ⟨Or.inl rfl, ?_⟩, by simp⟩
    simpa [App.restorePaths] using hp
  | cons a l =>
    cases re with
    | none =>
      simp only [App.restorePaths, List.length_cons, gt_iff_lt, Nat.zero_lt_succ, if_true,
        Prod.mk.injEq, Option.some.injEq] at hp
      refine ⟨[], Or.inl ⟨by simp, rfl, rfl, hp.2.symm⟩, ?_⟩
      simp [← hp.1]
    | some m =>
      simp only [App.restorePaths, List.length_cons, gt_iff_lt, Nat.zero_lt_succ, if_true] at hp
      rcases hg : app.restoreGlob app.ext (some m) os with ⟨r, os2⟩
      rw [hg] at hp
      rcases r with _ | _ | globs
      · simp at hp
      · simp at hp
      · simp only [Prod.mk.injEq, Option.some.injEq] at hp
        refine ⟨globs, Or.inr ⟨Or.inr rfl, ?_⟩, hp.1.symm⟩
        rw [hp.2]

theorem restoreQueue_eq (app : App) (remaining : List Str) (re : Regexp) (os os1 : OS)
    (q : List Str) (hq : app.restoreQueue remaining re os = (some (some q), os1)) :
    ∃ globs : List Str,
      ((remaining ≠ [] ∧ re = none ∧ globs = [] ∧ os1 = os) ∨
        ((remaining = [] ∨ re.isSome) ∧
          app.restoreGlob app.ext re os = (some (some globs), os1))) ∧
      q = remaining.map (fun p => queueName (Join [app.Backups, p ++ app.ext])) ++
        globs.map queueName := by
  unfold App.restoreQueue at hq
  rcases hp : app.restorePaths remaining re os with ⟨r, os2⟩
  rw [hp] at hq
  rcases r with _ | _ | paths
  · simp at hq
  · simp at hq
  · simp only [Prod.mk.injEq, Option.some.injEq] at hq
    obtain ⟨hq1, hq2⟩ := hq
    subst hq2
    obtain ⟨globs, hg, e⟩ := restorePaths_eq app remaining re os os2 paths hp
    refine ⟨globs, hg, ?_⟩
    rw [← hq1, e]
    simp [List.map_append, List.map_map, Function.comp_def]

theorem nodup_append_iff_str (A B : List Str) :
    (A ++ B).Nodup ↔ A.Nodup ∧ B.Nodup ∧ ∀ a ∈ A, a ∉ B := by
  rw [List.nodup_append]
  simp [List.Disjoint]

/-- C11 (counterexample): the command line `-backup -regexp ^sh shop` over a listing that
holds `shop` builds the queue `shop, shop`, and `-restore -format sql -join -regexp ^sh shop`
over a backups directory that holds `shop.chunk` builds the queue `shop, shop`: the name
given explicitly is queued again as a match of the expression. -/
theorem queue_repeats_name_given_and_matched :
    backupQueue ["shop".data] sampleRegexp sampleListing none =
      some ["shop".data, "shop".data] ∧
    (App.restoreQueue sampleApp ["shop".data] sampleRegexp (chunkedWorld []).os).1 =
      some (some ["shop".data, "shop".data]) ∧
    ¬ (["shop".data, "shop".data] : List Str).Nodup := by
  refine ⟨by decide, by decide, by decide⟩

/-- C11 (amended): the queue is a list that keeps the multiplicity of its sources.  When
databases are named and no expression is set, the queue of `ExecBackup` is the named
databases as given; otherwise it is the named databases followed by the names `GetList`
takes from the listing, and it holds every name at most once exactly when the named
databases are distinct, the names taken from the listing are distinct and none of the named
databases is among them.  The queue of `ExecRestore` is built in the same way from the
paths of the named databases and the paths found in the backups directory, each turned into
a name by `queueName`. -/
theorem job_queue_is_given_names_then_matches (app : App) (remaining : List Str)
    (re : Regexp) (lines : List Str) (err : Option Err) (os : OS) :
    (∀ q, backupQueue remaining re lines err = some q →
      (remaining ≠ [] → re = none → q = remaining) ∧
      (remaining = [] ∨ re.isSome →
        q = remaining ++ getListLoop re lines ∧
        (q.Nodup ↔ remaining.Nodup ∧ (getListLoop re lines).Nodup ∧
          ∀ a ∈ remaining, a ∉ getListLoop re lines))) ∧
    (∀ q os1, app.restoreQueue remaining re os = (some (some q), os1) →
      (remaining ≠ [] → re = none →
        q = remaining.map (fun p => queueName (Join [app.Backups, p ++ app.ext]))) ∧
      (remaining = [] ∨ re.isSome →
        ∃ globs, app.restoreGlob app.ext re os = (some (some globs), os1) ∧
          q = remaining.map (fun p => queueName (Join [app.Backups, p ++ app.ext])) ++
            globs.map queueName ∧
          (q.Nodup ↔
            (remaining.map (fun p => queueName (Join [app.Backups, p ++ app.ext]))).Nodup ∧
            (globs.map queueName).Nodup ∧
            ∀ a ∈ remaining.map (fun p => queueName (Join [app.Backups, p ++ app.ext])),
              a ∉ globs.map queueName))) := by
  constructor
  · intro q hq
    have e := backupQueue_eq remaining re lines err q hq
    constructor
    · intro hne hre
      simpa [hne, hre] using e
    · intro h
      rw [if_pos h] at e
      refine ⟨e, ?_⟩
      rw [e]
      exact nodup_append_iff_str _ _
  · intro q os1 hq
    obtain ⟨globs, hg, e⟩ := restoreQueue_eq app remaining re os os1 q hq
    constructor
    · intro hne hre
      rcases hg with ⟨_, _, hnil, _⟩ | ⟨h, _⟩
      · simpa [hnil] using e
      · rcases h with h | h
        · exact absurd h hne
        · simp [hre] at h
    · intro h
      rcases hg with ⟨hne, hre, _, _⟩ | ⟨_, hglob⟩
      · rcases h with h | h
        · exact absurd h hne
        · simp [hre] at h
      · refine ⟨globs, hglob, e, ?_⟩
        rw [e]
        exact nodup_append_iff_str _ _

/-- Witness of C11 (amended) on the command lines of the counterexample: the queues are the
given name `shop` followed by the match `shop`; and with no database named the queue of
`ExecBackup` over the same listing is `shop, stock`, without repetition. -/
theorem job_queue_is_given_names_then_matches_witness :
    (["shop".data, "shop".data] : List Str) =
      ["shop".data] ++ getListLoop sampleRegexp sampleListing ∧
    (["shop".data, "stock".data] : List Str) = [] ++ getListLoop none sampleListing ∧
    (["shop".data, "stock".data] : List Str).Nodup ∧
    (∃ globs, App.restoreGlob sampleApp sampleApp.ext sampleRegexp (chunkedWorld []).os =
        (some (some globs),
          (App.restoreQueue sampleApp ["shop".data] sampleRegexp (chunkedWorld []).os).2) ∧
      (["shop".data, "shop".data] : List Str) =
        ["shop".data].map (fun p => queueName (Join [sampleApp.Backups, p ++ sampleApp.ext])) ++
          globs.map queueName) :=
  ⟨(((job_queue_is_given_names_then_matches sampleApp ["shop".data] sampleRegexp sampleListing
      none (chunkedWorld []).os).1 _ (by decide)).2 (Or.inr rfl)).1,
   (((job_queue_is_given_names_then_matches sampleApp [] none sampleListing
      none (chunkedWorld []).os).1 _ (by decide)).2 (Or.inl rfl)).1,
   by decide,
   by
    obtain ⟨globs, hg, e, _⟩ :=
      ((job_queue_is_given_names_then_matches sampleApp ["shop".data] sampleRegexp sampleListing
        none (chunkedWorld []).os).2 ["shop".data, "shop".data]
          (App.restoreQueue sampleApp ["shop".data] sampleRegexp (chunkedWorld []).os).2
          (Prod.ext (by decide) rfl)).2 (Or.inr rfl)
    exact ⟨globs, hg, e⟩⟩

/-! ## File.Split onto its own source -/

/-- The first chunk holds the beginning of what was written. -/
theorem SplitInv.content_first {base : Str} {s : Nat} {W : Int} {F : List (Str × List Byte)}
    {w : SplitWriter} {os : OS} {cs : List (List Byte)} (hs : 0 < s)
    (h : SplitInv base s W F w os cs) (hne : cs ≠ []) :
    ∃ c rest, cs = c :: rest ∧ os.content (chunkName base W 0) = some c := by
  obtain ⟨_, _, hfiles, _⟩ := h.summary hs
  cases cs with
  | nil => exact absurd rfl hne
  | cons c rest =>
    refine ⟨c, rest, rfl, ?_⟩
    rw [OS.content, hfiles, lookup_append_skip]
    · simp [partsFrom, List.lookup_cons]
    · intro e he hc
      have := of_decide_eq_true (List.mem_filter.mp he).2
      simp only [mem_chunkNames, not_exists, not_and] at this
      exact this 0 (by simp) hc.symm

/-- When the source of `io.Copy(split, sfd)` is the file that becomes the first chunk, the
copy ends after the first buffer: the second read finds the source truncated and rewritten,
no longer than what was read, and reports the end of the file. -/
theorem ioCopySplit_onto_source (base : Str) (s : Nat) (W : Int) (F : List (Str × List Byte))
    (hs : 0 < s) (data : List Byte) (hF : F.lookup (chunkName base W 0) = some data)
    (hne : data ≠ []) (fuel : Nat) (w : SplitWriter) (os : OS)
    (hinv : SplitInv base s W F w os []) (hfiles : os.files = F) :
    ∃ w' os' cs', ioCopySplit (fuel + 2) w (chunkName base W 0) 0 os = some (w', none, os') ∧
      SplitInv base s W F w' os' cs' ∧ cs'.flatten = data.take copyBufSize := by
  obtain ⟨_, hfl, _, _⟩ := hinv.summary hs
  have hread : os.Read (chunkName base W 0) 0 copyBufSize =
      (.ok (data.take copyBufSize), os.next) := by
    simp [OS.Read, OS.failing_of_no_faults os hfl, OS.content, hfiles, hF]
  cases hbuf : data.take copyBufSize with
  | nil =>
    cases data with
    | nil => exact absurd rfl hne
    | cons a l => simp [copyBufSize] at hbuf
  | cons b bs =>
    obtain ⟨w1, os1, cs1, e1, h1, f1⟩ :=
      writeLoop_ok base s W F hs (b :: bs).length (b :: bs) w os.next [] 0 hinv.next
        (le_refl _)
    have hcs1 : cs1 ≠ [] := by
      intro h
      rw [h] at f1
      simp at f1
    obtain ⟨c, rest, ecs, hc⟩ := h1.content_first hs hcs1
    obtain ⟨_, hfl1, _, _⟩ := h1.summary hs
    have hclen : c.length ≤ (b :: bs).length := by
      have := congrArg List.length f1
      rw [ecs] at this
      simp only [List.flatten_cons, List.length_append, List.flatten_nil, List.length_nil,
        Nat.zero_add] at this
      omega
    have hread1 : os1.Read (chunkName base W 0) (0 + (b :: bs).length) copyBufSize =
        (.ok [], os1.next) := by
      simp only [OS.Read, OS.failing_of_no_faults os1 hfl1, hc]
      rw [List.drop_of_length_le (by omega)]
      rfl
    refine ⟨w1, os1.next, cs1, ?_, h1.next, ?_⟩
    · simp only [ioCopySplit, hread, hbuf, SplitWriter.Write, e1, Nat.zero_add, ne_eq,
        not_true_eq_false, if_false]
      rw [show 0 + (b :: bs).length = (b :: bs).length by omega] at hread1
      simp only [hread1]
    · rw [f1]; simp

/-- `File.Split` of a file that is its own first chunk: the function returns `nil` and the
chunks hold only the first buffer of `io.Copy`, `copyBufSize` bytes at most. -/
theorem File_Split_onto_source (f basepath : Str) (data : List Byte) (s : Nat) (W : Int)
    (os : OS) (hs : 0 < s) (hok : os.faults = []) (hsrc : os.content f = some data)
    (hne : data ≠ [])
    (hf : f = chunkName (if basepath = [] then TrimSuffix f (Ext f) else basepath) W 0) :
    ∃ (os' : OS) (cs : List (List Byte)),
      File.Split f basepath s W os = some (none, os') ∧
      os'.files = os.files.filter (fun e => decide (e.1 ∉
          chunkNames (if basepath = [] then TrimSuffix f (Ext f) else basepath) W cs.length)) ++
        partsFrom (if basepath = [] then TrimSuffix f (Ext f) else basepath) W 0 cs ∧
      cs.flatten = data.take copyBufSize ∧
      (∀ c ∈ cs.dropLast, c.length = s) ∧
      cs.length = ((data.take copyBufSize).length + s - 1) / s := by
  generalize hbase : (if basepath = [] then TrimSuffix f (Ext f) else basepath) = base at hf ⊢
  have hopen : os.Open f = (.ok f, os.next) := by
    simp [OS.Open, OS.failing_of_no_faults os hok, hsrc]
  have hcont : os.next.content f = some data := hsrc
  have h0 : SplitInv base s W os.files
      { Basepath := base, SplitSize := s, SuffixLength := W } os.next [] :=
    SplitInv.fresh _ _ rfl rfl rfl rfl rfl (by simp [OS.next, hok]) rfl
  have hF : os.files.lookup (chunkName base W 0) = some data := by
    rw [← hf]; exact hsrc
  have hlen : 1 ≤ data.length := by
    cases data with
    | nil => exact absurd rfl hne
    | cons a l => simp
  obtain ⟨w1, os1, cs, e1, h1, f1⟩ := ioCopySplit_onto_source base s W os.files hs data hF hne
    (data.length - 1) _ os.next h0 rfl
  rw [← hf, show data.length - 1 + 2 = data.length + 1 by omega] at e1
  obtain ⟨hno, hfl, hfiles, hfull, hsz, hcount⟩ := h1.summary hs
  obtain ⟨w2, os2, e2, hno2, hfiles2, hdirs2, hfl2⟩ := SplitWriter.Close_ok w1 os1 hfl
  rw [f1] at hcount
  refine ⟨splitDeferred w2 (some f) os2, cs, ?_, ?_, f1, hfull, hcount⟩
  · simp only [File.Split, hbase, hopen, hcont, e1, e2]
  · rw [splitDeferred_files, hfiles2, hfiles]

theorem sampleBytes_length (n : Nat) : (sampleBytes n).length = n := by
  simp [sampleBytes]

/-- C2 (evaluation of the code): `File("/b/shop.chunk/shop.000000000").Split("", 25000, 9)`
on a file of 40000 bytes.  The derived base is `/b/shop.chunk/shop`, so the first chunk is
the source itself: creating it truncates the source after the first 32768 bytes were read.
The function returns `nil`; the files left are two chunks of 25000 and 7768 bytes holding
the first 32768 bytes of the content, and the other 7232 bytes are lost. -/
theorem File_Split_onto_first_chunk_loses_data :
    ∃ (os' : OS) (c0 c1 : List Byte),
      File.Split "/b/shop.chunk/shop.000000000".data [] 25000 9 firstChunkOS =
        some (none, os') ∧
      os'.files = [("/b/shop.chunk/shop.000000000".data, c0),
        ("/b/shop.chunk/shop.000000001".data, c1)] ∧
      c0.length = 25000 ∧ c1.length = 7768 ∧
      c0 ++ c1 = (sampleBytes 40000).take 32768 ∧
      catFiles os' (sortStrings (os'.files.map Prod.fst)) = some ((sampleBytes 40000).take 32768) ∧
      ((sampleBytes 40000).take 32768).length = 32768 ∧
      (sampleBytes 40000).length = 40000 := by
  have hdl : (sampleBytes 40000).length = 40000 := sampleBytes_length 40000
  have hne : sampleBytes 40000 ≠ [] := by
    intro h
    rw [h] at hdl
    cases hdl
  have hbase : (if ([] : Str) = [] then
      TrimSuffix "/b/shop.chunk/shop.000000000".data (Ext "/b/shop.chunk/shop.000000000".data)
      else []) = "/b/shop.chunk/shop".data := by decide
  obtain ⟨os', cs, e, hfiles, hflat, hfull, hcount⟩ :=
    File_Split_onto_source "/b/shop.chunk/shop.000000000".data [] (sampleBytes 40000) 25000 9
      firstChunkOS (by decide) rfl (by simp [OS.content, firstChunkOS, List.lookup]) hne
      (by decide)
  rw [hbase] at hfiles
  have htl : ((sampleBytes 40000).take copyBufSize).length = 32768 := by
    rw [List.length_take, hdl]; decide
  rw [htl] at hcount
  have hcount2 : cs.length = 2 := by rw [hcount]
  obtain ⟨c0, c1, ecs⟩ : ∃ c0 c1, cs = [c0, c1] := by
    match cs, hcount2 with
    | [a, b], _ => exact ⟨a, b, rfl⟩
  subst ecs
  have h0 : c0.length = 25000 := hfull c0 (by simp)
  have hcat : c0 ++ c1 = (sampleBytes 40000).take 32768 := by
    simpa using hflat
  have h1 : c1.length = 7768 := by
    have := congrArg List.length hcat
    rw [List.length_append, h0] at this
    have h2 : ((sampleBytes 40000).take 32768).length = 32768 := htl
    omega
  have hf2 : os'.files = [("/b/shop.chunk/shop.000000000".data, c0),
      ("/b/shop.chunk/shop.000000001".data, c1)] := by
    rw [hfiles]
    have hn : chunkNames "/b/shop.chunk/shop".data 9 2 =
        ["/b/shop.chunk/shop.000000000".data, "/b/shop.chunk/shop.000000001".data] := by
      decide
    have hn0 : chunkName "/b/shop.chunk/shop".data 9 0 = "/b/shop.chunk/shop.000000000".data := by
      decide
    have hn1 : chunkName "/b/shop.chunk/shop".data 9 1 = "/b/shop.chunk/shop.000000001".data := by
      decide
    simp only [List.length_cons, List.length_nil, hn, partsFrom, hn0, hn1, firstChunkOS]
    simp
  refine ⟨os', c0, c1, e, hf2, h0, h1, hcat, ?_, htl, hdl⟩
  rw [hf2]
  have hs : sortStrings ["/b/shop.chunk/shop.000000000".data,
      "/b/shop.chunk/shop.000000001".data] = ["/b/shop.chunk/shop.000000000".data,
      "/b/shop.chunk/shop.000000001".data] := by decide
  simp only [List.map_cons, List.map_nil, hs, catFiles, OS.content, hf2]
  simp [List.lookup_cons, hcat]

/-- C6 (evaluation of the code): the database named `hash`.  `DB.Chunk` of `/b/hash.sql`
(100 bytes, parts of 30) leaves in `/b/hash.chunk` the four parts and the digest copy
`hash.hash.sha512`; the pattern `hash.*` of `DB.Join` matches the digest copy as well, so
`DB.Join` concatenates five files and the joined `/b/hash.sql` holds 103 bytes: the 100
bytes of the parts followed by the three bytes of the digest. -/
theorem Chunk_then_Join_appends_digest :
    (hashDB.Chunk "/b/hash.sql".data 30 hashWorld.os).map
        (fun r => (r.1, r.2.files.map (fun e => (e.1, e.2.length)))) =
      some (none,
        [("/b/hash.chunk/hash.000000000".data, 30), ("/b/hash.chunk/hash.000000001".data, 30),
         ("/b/hash.chunk/hash.000000002".data, 30), ("/b/hash.chunk/hash.000000003".data, 10),
         ("/b/hash.chunk/hash.hash.sha512".data, 3)]) ∧
    ((hashDB.Chunk "/b/hash.sql".data 30 hashWorld.os).bind
        (fun r => (DB.joinGlobs "/b/hash.chunk".data r.2).1)) =
      some (.ok ["/b/hash.chunk/hash.000000000".data, "/b/hash.chunk/hash.000000001".data,
        "/b/hash.chunk/hash.000000002".data, "/b/hash.chunk/hash.000000003".data,
        "/b/hash.chunk/hash.hash.sha512".data]) ∧
    ((hashDB.Chunk "/b/hash.sql".data 30 hashWorld.os).bind
        (fun r => (hashDB.Join "/b/hash.chunk".data { hashWorld with os := r.2 }).map
          (fun j => (j.1, j.2.os.content "/b/hash.sql".data)))) =
      some (none, some (sampleBytes 100 ++ [1, 2, 3])) ∧
    (sampleBytes 100 ++ [1, 2, 3]).length = 103 := by
  refine ⟨by decide, by rfl, by decide, by decide⟩

/-! ## psql.go: the contract of the commands -/

/-- The verb `%v` prints an `int` as its decimal numeral. -/
theorem fmtInt_eq_toString (n : Int) : fmtInt n = (toString n).data := by
  cases n with
  | ofNat m =>
    have h : ¬ (Int.ofNat m < 0) := Int.not_lt.mpr (Int.ofNat_zero_le m)
    simp only [fmtInt, h, if_false]
    rfl
  | negSucc m =>
    have h : Int.negSucc m < 0 := Int.negSucc_lt_zero m
    simp only [fmtInt, h, if_true]
    rfl

/-- C7 (counterexample): with the empty backups directory the destination of
`Backup(Directory)` for the database `x` is `x.backup`, not `/x.backup`; with the backups
directory `/b/`, written with its final separator, the destination for `shop` is
`/b/shop.backup`, not `/b//shop.backup`. -/
theorem PSQL_destination_is_cleaned :
    (PSQL.Backup ⟨"".data, 4, .Nil⟩ "x".data .Directory []).1 =
      ("x.backup".data,
        ⟨"pg_dump".data,
          ["-Fd".data, "-j".data, "4".data, "-f".data, "x.backup".data, "x".data]⟩) ∧
    "x.backup".data ≠ "".data ++ "/".data ++ "x".data ++ ".backup".data ∧
    (PSQL.Backup ⟨"/b/".data, 4, .Nil⟩ "shop".data .Directory []).1.1 = "/b/shop.backup".data ∧
    "/b/shop.backup".data ≠ "/b/".data ++ "/".data ++ "shop".data ++ ".backup".data := by
  decide

/-- C7 (amended): for every database name and `Jobs` value, `Create` is
`psql [-c, create database "<db>"]` and `Drop` is `psql [-c, drop database "<db>"]`, and for
each format the last argument of `Restore` is the destination that `Backup` returns.  For
every backups directory that is a cleaned path other than `.` and `/`, and every database
name without separator, the destination and the argument vectors are, with `<Jobs>` the
decimal numeral: `Backup(Directory) = pg_dump [-Fd, -j, <Jobs>, -f, <dir>/<db>.backup, <db>]`
with destination `<dir>/<db>.backup`,
`Backup(Script) = pg_dump [--column-inserts, -d, <db>, -f, <dir>/<db>.sql]` with destination
`<dir>/<db>.sql`, `Restore(Directory) = pg_restore [-Fd, -j, <Jobs>, -d, <db>,
<dir>/<db>.backup]` and `Restore(Script) = psql [-d, <db>, -f, <dir>/<db>.sql]`. -/
theorem PSQL_command_contract (p : PSQL) (db : Str) (log : List LogEntry) :
    (p.Create db log).1 =
      { binary := "psql".data,
        args := ["-c".data, "create database \"".data ++ db ++ "\"".data] } ∧
    (p.Drop db log).1 =
      { binary := "psql".data,
        args := ["-c".data, "drop database \"".data ++ db ++ "\"".data] } ∧
    (∀ format : Format,
      (p.Restore db format log).1.args.getLast? = some (p.Backup db format log).1.1) ∧
    (Clean p.DirBackups = p.DirBackups → p.DirBackups ≠ ".".data → p.DirBackups ≠ "/".data →
      '/' ∉ db →
      (p.Backup db .Directory log).1 =
        (p.DirBackups ++ "/".data ++ db ++ ".backup".data,
          { binary := "pg_dump".data,
            args := ["-Fd".data, "-j".data, (toString p.Jobs).data, "-f".data,
              p.DirBackups ++ "/".data ++ db ++ ".backup".data, db] }) ∧
      (p.Backup db .Script log).1 =
        (p.DirBackups ++ "/".data ++ db ++ ".sql".data,
          { binary := "pg_dump".data,
            args := ["--column-inserts".data, "-d".data, db, "-f".data,
              p.DirBackups ++ "/".data ++ db ++ ".sql".data] }) ∧
      (p.Restore db .Directory log).1 =
        { binary := "pg_restore".data,
          args := ["-Fd".data, "-j".data, (toString p.Jobs).data, "-d".data, db,
            p.DirBackups ++ "/".data ++ db ++ ".backup".data] } ∧
      (p.Restore db .Script log).1 =
        { binary := "psql".data,
          args := ["-d".data, db, "-f".data,
            p.DirBackups ++ "/".data ++ db ++ ".sql".data] }) := by
  refine ⟨rfl, rfl, ?_, ?_⟩
  · intro format
    cases format <;> rfl
  · intro hclean hdot hroot hdb
    obtain ⟨h1, h2⟩ := Backup_destination_literal p db log hclean hdot hroot hdb
    have e1 : Join [p.DirBackups, db ++ ".backup".data] =
        p.DirBackups ++ "/".data ++ db ++ ".backup".data := by
      have : Join [p.DirBackups, db ++ ".backup".data] =
          p.DirBackups ++ '/' :: (db ++ ".backup".data) := h1
      rw [this]; simp
    have e2 : Join [p.DirBackups, db ++ ".sql".data] =
        p.DirBackups ++ "/".data ++ db ++ ".sql".data := by
      have : Join [p.DirBackups, db ++ ".sql".data] =
          p.DirBackups ++ '/' :: (db ++ ".sql".data) := h2
      rw [this]; simp
    have ej := fmtInt_eq_toString p.Jobs
    refine ⟨?_, ?_, ?_, ?_⟩
    · show ((Join [p.DirBackups, db ++ ".backup".data],
          (⟨"pg_dump".data, ["-Fd".data, "-j".data, fmtInt p.Jobs, "-f".data,
            Join [p.DirBackups, db ++ ".backup".data], db]⟩ : Cmd)) : Str × Cmd) = _
      rw [e1, ej]
    · show ((Join [p.DirBackups, db ++ ".sql".data],
          (⟨"pg_dump".data, ["--column-inserts".data, "-d".data, db, "-f".data,
            Join [p.DirBackups, db ++ ".sql".data]]⟩ : Cmd)) : Str × Cmd) = _
      rw [e2]
    · show (⟨"pg_restore".data, ["-Fd".data, "-j".data, fmtInt p.Jobs, "-d".data, db,
          Join [p.DirBackups, db ++ ".backup".data]]⟩ : Cmd) = _
      rw [e1, ej]
    · show (⟨"psql".data, ["-d".data, db, "-f".data,
          Join [p.DirBackups, db ++ ".sql".data]]⟩ : Cmd) = _
      rw [e2]

/-- Witness of C7 (amended): directory `/b`, database `shop`, 4 jobs. -/
theorem PSQL_command_contract_witness :
    (PSQL.Backup ⟨"/b".data, 4, .Nil⟩ "shop".data .Directory []).1 =
      ("/b/shop.backup".data,
        ⟨"pg_dump".data,
          ["-Fd".data, "-j".data, "4".data, "-f".data, "/b/shop.backup".data, "shop".data]⟩) ∧
    (PSQL.Restore ⟨"/b".data, 4, .Nil⟩ "shop".data .Script []).1 =
      ⟨"psql".data, ["-d".data, "shop".data, "-f".data, "/b/shop.sql".data]⟩ :=
  ⟨((PSQL_command_contract ⟨"/b".data, 4, .Nil⟩ "shop".data []).2.2.2 (by decide) (by decide)
      (by decide) (by decide)).1,
   ((PSQL_command_contract ⟨"/b".data, 4, .Nil⟩ "shop".data []).2.2.2 (by decide) (by decide)
      (by decide) (by decide)).2.2.2⟩
end Pgbackup
